import Mathlib

/-!
# Book: record, comparison engine and text codec

A verification development for `Book.cpp` (the `Book` value type, its
`operator<=>` / `operator==`, and the stream operators `operator>>` /
`operator<<`) and for the stream set-up done in `main.cpp`.

Conventions of the embedding.

* `std::string` is a `List Char`; one `Char` stands for one `char` of the
  string and is compared by its code, as `std::char_traits<char>` does.
* `double` is IEEE-754 binary64, modelled by `Double`: a finite value is
  `(-1)^neg * m * 2^e`, and there are two infinities and the NaNs, of which
  the sign bit is kept (the inserter of `double` shows it) and the payload is
  not.  Arithmetic is exact arithmetic on integers followed by rounding to
  nearest, ties to even.
* The library functions the source calls (`std::quoted`, the formatted
  extractors and inserters of `<istream>` / `<ostream>`, `std::abs`) are
  modelled after the C++ standard and the GNU implementation (libstdc++ with
  the C locale).
-/

set_option linter.dupNamespace false

namespace BookSpec

/-! ## Small arithmetic helpers -/

/-- Power of two, by structural recursion. -/
def pow2 : Nat → Nat
  | 0 => 1
  | n + 1 => 2 * pow2 n

/-- Power of ten, by structural recursion. -/
def pow10 : Nat → Nat
  | 0 => 1
  | n + 1 => 10 * pow10 n

/-- Worker of `ilog2`: halve until below two, at most `fuel` times. -/
def log2Fuel : Nat → Nat → Nat
  | 0, _ => 0
  | f + 1, n => if n < 2 then 0 else log2Fuel f (n / 2) + 1

/-- Position of the highest set bit: `floor (log2 n)` for `n > 0`. -/
def ilog2 (n : Nat) : Nat := log2Fuel n n

/-- Nearest integer to `n / d`, ties to even. -/
def roundHalfEven (n d : Nat) : Nat :=
  let q := n / d
  let r := n % d
  if 2 * r < d then q
  else if d < 2 * r then q + 1
  else if q % 2 = 0 then q else q + 1

/-- Nearest integer to `(n / d) / 2^e`, ties to even. -/
def roundDiv2 (n d : Nat) (e : Int) : Nat :=
  if 0 ≤ e then roundHalfEven n (d * pow2 e.toNat)
  else roundHalfEven (n * pow2 (-e).toNat) d

/-- The integer `floor (log2 (n / d))`, for positive `n` and `d`. -/
def floorLog2Q (n d : Nat) : Int :=
  let k : Int := (ilog2 n : Int) - (ilog2 d : Int)
  if 0 ≤ k then
    (if d * pow2 k.toNat ≤ n then k else k - 1)
  else
    (if d ≤ n * pow2 (-k).toNat then k else k - 1)

/-! ## IEEE-754 binary64 -/

/-- A `double`.  `finite neg m e` is the number `(-1)^neg * m * 2^e`; the
values a machine holds are the canonical ones (see `Double.canonical`).
`nan neg` is a NaN with sign bit `neg`. -/
inductive Double where
  | finite (neg : Bool) (m : Nat) (e : Int)
  | inf (neg : Bool)
  | nan (neg : Bool)
  deriving DecidableEq, Repr

namespace Double

/-- The representation a machine holds: a 53-bit significand with exponent in
range, normalised unless the exponent is the smallest one. -/
def canonical : Double → Bool
  | finite _ m e =>
      decide (m < pow2 53) && decide (-1074 ≤ e) && decide (e ≤ 971)
        && (decide (pow2 52 ≤ m) || decide (e = -1074))
  | inf _ => true
  | nan _ => true

/-- Is the value neither an infinity nor a NaN (`std::isfinite`). -/
def isFinite : Double → Bool
  | finite _ _ _ => true
  | _ => false

/-- Is the value a NaN (`std::isnan`). -/
def isNaN : Double → Bool
  | nan _ => true
  | _ => false

/-- The sign bit of a `double` (`std::signbit`). -/
def signbit : Double → Bool
  | finite neg _ _ => neg
  | inf neg => neg
  | nan neg => neg

/-- Is the value an infinity (`std::isinf`). -/
def isInf : Double → Bool
  | inf _ => true
  | _ => false

/-- The signed integer `± m * 2^(e - e0)`, for `e0 ≤ e`: a finite value
expressed in units of `2^e0`. -/
def scaled (neg : Bool) (m : Nat) (e e0 : Int) : Int :=
  let v : Int := ((m * pow2 (e - e0).toNat : Nat) : Int)
  if neg then -v else v

/-- Round the positive rational `n / d` (or zero) to the nearest `double`,
ties to even, with sign `neg`; overflow gives an infinity. -/
def roundQ (neg : Bool) (n d : Nat) : Double :=
  if n = 0 then finite neg 0 (-1074)
  else
    let e : Int := max (floorLog2Q n d - 52) (-1074)
    let m := roundDiv2 n d e
    if m = pow2 53 then
      (if 971 < e + 1 then inf neg else finite neg (pow2 52) (e + 1))
    else if 971 < e then inf neg
    else finite neg m e

/-- Round `n * 2^e0` to the nearest `double`. -/
def roundScaled (neg : Bool) (n : Nat) (e0 : Int) : Double :=
  if 0 ≤ e0 then roundQ neg (n * pow2 e0.toNat) 1
  else roundQ neg n (pow2 (-e0).toNat)

/-- IEEE subtraction `a - b`, rounded to nearest.  IEEE-754 leaves the sign
of a NaN result open; it is the one x86-64 gives: a NaN operand is passed on
(the left one first), and the NaN made by `inf - inf` has its sign bit set.
(`Book.cpp` subtracts only under `std::abs`, which clears the sign.) -/
def sub : Double → Double → Double
  | nan s, _ => nan s
  | _, nan s => nan s
  | inf n1, inf n2 => if n1 = n2 then nan true else inf n1
  | inf n1, finite _ _ _ => inf n1
  | finite _ _ _, inf n2 => inf (!n2)
  | finite s1 m1 e1, finite s2 m2 e2 =>
      let e0 := min e1 e2
      let d : Int := scaled s1 m1 e1 e0 - scaled s2 m2 e2 e0
      if d = 0 then finite (s1 && !s2) 0 (-1074)
      else roundScaled (decide (d < 0)) d.natAbs e0

/-- The function `std::abs` on `double`: clear the sign. -/
def abs : Double → Double
  | finite _ m e => finite false m e
  | inf _ => inf false
  | nan _ => nan false

/-- IEEE `a < b`; false when either side is a NaN. -/
def lt : Double → Double → Bool
  | nan _, _ => false
  | _, nan _ => false
  | inf n1, inf n2 => n1 && !n2
  | inf n1, finite _ _ _ => n1
  | finite _ _ _, inf n2 => !n2
  | finite s1 m1 e1, finite s2 m2 e2 =>
      decide (scaled s1 m1 e1 (min e1 e2) < scaled s2 m2 e2 (min e1 e2))

/-- IEEE `a <= b`; false when either side is a NaN. -/
def le : Double → Double → Bool
  | nan _, _ => false
  | _, nan _ => false
  | inf n1, inf n2 => n1 || !n2
  | inf n1, finite _ _ _ => n1
  | finite _ _ _, inf n2 => !n2
  | finite s1 m1 e1, finite s2 m2 e2 =>
      decide (scaled s1 m1 e1 (min e1 e2) ≤ scaled s2 m2 e2 (min e1 e2))

/-- IEEE `a == b`: numeric equality; a NaN equals nothing, and the two zeros
are equal. -/
def eq : Double → Double → Bool
  | nan _, _ => false
  | _, nan _ => false
  | inf n1, inf n2 => decide (n1 = n2)
  | inf _, finite _ _ _ => false
  | finite _ _ _, inf _ => false
  | finite s1 m1 e1, finite s2 m2 e2 =>
      decide (scaled s1 m1 e1 (min e1 e2) = scaled s2 m2 e2 (min e1 e2))

/-- The rational number a finite `double` stands for (0 for the others). -/
def toRat : Double → ℚ
  | finite neg m e => (if neg then -1 else 1) * (m : ℚ) * (2 : ℚ) ^ e
  | _ => 0

/-- Two `double`s are the same number: both finite with the same value, or
the same infinity.  A NaN is no number. -/
def sameNumber : Double → Double → Prop
  | finite s1 m1 e1, finite s2 m2 e2 => toRat (finite s1 m1 e1) = toRat (finite s2 m2 e2)
  | inf n1, inf n2 => n1 = n2
  | _, _ => False

/-- The `double` nearest to the decimal `± digits * 10^exp10`: the value of a
floating literal in the source, and of `strtod` on a decimal text. -/
def ofDecimal (neg : Bool) (digits : Nat) (exp10 : Int) : Double :=
  if 0 ≤ exp10 then roundQ neg (digits * pow10 exp10.toNat) 1
  else roundQ neg digits (pow10 (-exp10).toNat)

end Double

/-! ## `Book.cpp`: the unnamed namespace -/

/-- The default argument `EPSILON = 1e-4` of `floating_point_is_equal`. -/
def EPSILON : Double := Double.ofDecimal false 1 (-4)

/-- `floating_point_is_equal( lhs, rhs, EPSILON )`:
`return std::abs( lhs - rhs ) <= EPSILON;` -/
def floating_point_is_equal (lhs rhs : Double) (eps : Double := EPSILON) : Bool :=
  Double.le (Double.abs (Double.sub lhs rhs)) eps

/-! ## `std::string` comparison -/

/-- The result type `std::weak_ordering`. -/
inductive weak_ordering where
  | less
  | equivalent
  | greater
  deriving DecidableEq, Repr

/-- `std::char_traits<char>::compare( s1, s2, n )`: compare the first `n`
characters as unsigned codes; negative, zero or positive. -/
def traitsCompare : Nat → List Char → List Char → Int
  | 0, _, _ => 0
  | _ + 1, [], _ => 0
  | _ + 1, _ :: _, [] => 0
  | n + 1, a :: as, b :: bs =>
      if a.toNat < b.toNat then -1
      else if b.toNat < a.toNat then 1
      else traitsCompare n as bs

/-- `std::string::compare`: the common prefix is compared with
`traits_type::compare`; when that ties, the sizes decide. -/
def stringCompare (lhs rhs : List Char) : Int :=
  let len := min lhs.length rhs.length
  let r := traitsCompare len lhs rhs
  if r = 0 then (lhs.length : Int) - (rhs.length : Int) else r

/-- `lhs <=> rhs` on `std::string`: the sign of `lhs.compare( rhs )`. -/
def stringSpaceship (lhs rhs : List Char) : weak_ordering :=
  let c := stringCompare lhs rhs
  if c < 0 then weak_ordering.less
  else if 0 < c then weak_ordering.greater
  else weak_ordering.equivalent

/-- `lhs == rhs` on `std::string`: equal sizes and equal characters. -/
def stringEq (lhs rhs : List Char) : Bool :=
  decide (lhs.length = rhs.length) && decide (traitsCompare lhs.length lhs rhs = 0)

/-! ## `Book.cpp`: the record -/

/-- The class `Book`: its four private attributes. -/
structure Book where
  _isbn : List Char
  _title : List Char
  _author : List Char
  _price : Double
  deriving DecidableEq, Repr

namespace Book

/-- The constructor `Book::Book( std::string title, std::string author,
std::string isbn, double price )`. -/
def Book (title author isbn : List Char) (price : Double) : BookSpec.Book :=
  { _title := title, _author := author, _isbn := isbn, _price := price }

/-- The accessor `Book::isbn() const &`. -/
def isbn (self : BookSpec.Book) : List Char := self._isbn

/-- The accessor `Book::title() const &`. -/
def title (self : BookSpec.Book) : List Char := self._title

/-- The accessor `Book::author() const &`. -/
def author (self : BookSpec.Book) : List Char := self._author

/-- The accessor `Book::price() const &`. -/
def price (self : BookSpec.Book) : Double := self._price

/-- The modifier `Book::isbn( std::string newIsbn ) &`; the result is `*this`
after the assignment. -/
def setIsbn (self : BookSpec.Book) (newIsbn : List Char) : BookSpec.Book :=
  { self with _isbn := newIsbn }

/-- The modifier `Book::title( std::string newTitle ) &`. -/
def setTitle (self : BookSpec.Book) (newTitle : List Char) : BookSpec.Book :=
  { self with _title := newTitle }

/-- The modifier `Book::author( std::string newAuthor ) &`. -/
def setAuthor (self : BookSpec.Book) (newAuthor : List Char) : BookSpec.Book :=
  { self with _author := newAuthor }

/-- The modifier `Book::price( double newPrice ) &`. -/
def setPrice (self : BookSpec.Book) (newPrice : Double) : BookSpec.Book :=
  { self with _price := newPrice }

/-- `Book::operator<=>( const Book & rhs )`: ISBN, then title, then author by
`std::string`'s `<=>`, then the price with `floating_point_is_equal`. -/
def operatorSpaceship (self rhs : BookSpec.Book) : weak_ordering :=
  if stringSpaceship self._isbn rhs._isbn ≠ weak_ordering.equivalent then
    stringSpaceship self._isbn rhs._isbn
  else if stringSpaceship self._title rhs._title ≠ weak_ordering.equivalent then
    stringSpaceship self._title rhs._title
  else if stringSpaceship self._author rhs._author ≠ weak_ordering.equivalent then
    stringSpaceship self._author rhs._author
  else if floating_point_is_equal self._price rhs._price then
    weak_ordering.equivalent
  else if Double.lt self._price rhs._price then weak_ordering.less
  else weak_ordering.greater

/-- `Book::operator==( const Book & rhs )`. -/
def operatorEq (self rhs : BookSpec.Book) : Bool :=
  stringEq self._title rhs._title && stringEq self._author rhs._author
    && stringEq self._isbn rhs._isbn && Double.eq self._price rhs._price

end Book

/-! ## The ordering as the specification words it -/

/-- Lexicographic comparison of two texts by character code: the first
position where they differ decides, and a proper prefix comes first. -/
def lexCompare : List Char → List Char → weak_ordering
  | [], [] => weak_ordering.equivalent
  | [], _ :: _ => weak_ordering.less
  | _ :: _, [] => weak_ordering.greater
  | a :: as, b :: bs =>
      if a.toNat < b.toNat then weak_ordering.less
      else if b.toNat < a.toNat then weak_ordering.greater
      else lexCompare as bs

/-- The first result of a sequence of comparisons that is not `equivalent`,
if there is one. -/
def firstNonEquivalent : List weak_ordering → Option weak_ordering
  | [] => none
  | r :: rs => if r ≠ weak_ordering.equivalent then some r else firstNonEquivalent rs

/-! ## Input streams

An `std::istream` over a text: the characters not yet read, the state bits
`eofbit` and `failbit`, and the format flag `skipws`.  (No read error occurs on
a text, so `badbit` is never set and is left out.) -/

/-- An input stream. -/
structure IStream where
  buf : List Char
  eofbit : Bool
  failbit : Bool
  skipws : Bool
  deriving DecidableEq, Repr

/-- `std::isspace` in the C locale. -/
def isspace (c : Char) : Bool :=
  c = ' ' || c = '\t' || c = '\n' || c = Char.ofNat 11 || c = Char.ofNat 12 || c = '\r'

namespace IStream

/-- A stream freshly opened on a text, as `std::istringstream( text )`: good
state, `skipws` set. -/
def ofText (text : List Char) : IStream :=
  { buf := text, eofbit := false, failbit := false, skipws := true }

/-- `stream.good()`: no state bit is set. -/
def good (s : IStream) : Bool := !s.eofbit && !s.failbit

/-- `bool( stream )`, that is `!stream.fail()`. -/
def toBool (s : IStream) : Bool := !s.failbit

/-- `std::istream::sentry( stream, false )`: on a good stream, skip leading
whitespace when `skipws` is set (reaching the end sets `eofbit` and
`failbit`); on a stream that is not good, set `failbit`.  The flag returned
tells whether the extraction may proceed. -/
def sentry (s : IStream) : IStream × Bool :=
  if s.good then
    if s.skipws then
      match s.buf.dropWhile isspace with
      | [] => ({ s with buf := [], eofbit := true, failbit := true }, false)
      | c :: rest => ({ s with buf := c :: rest }, true)
    else (s, true)
  else ({ s with failbit := true }, false)

/-- `stream >> c` for a `char`: after the sentry, take one character; at the
end of the input set `eofbit` and `failbit`. -/
def getChar (s : IStream) : IStream × Option Char :=
  match sentry s with
  | (s1, true) =>
      (match s1.buf with
       | [] => ({ s1 with eofbit := true, failbit := true }, none)
       | c :: rest => ({ s1 with buf := rest }, some c))
  | (s1, false) => (s1, none)

/-- `stream >> str` for a `std::string`: after the sentry, the string is
emptied and takes the characters up to the next whitespace or the end of the
input (which sets `eofbit`); `failbit` is set when no character was taken.
When the sentry fails the string keeps its value. -/
def getWord (s : IStream) (str : List Char) : IStream × List Char :=
  match sentry s with
  | (s1, true) =>
      let word := s1.buf.takeWhile (fun c => !isspace c)
      let rest := s1.buf.dropWhile (fun c => !isspace c)
      ({ s1 with buf := rest,
                 eofbit := s1.eofbit || rest.isEmpty,
                 failbit := s1.failbit || word.isEmpty }, word)
  | (s1, false) => (s1, str)

/-- The `do ... while( true )` loop of the extractor of `std::quoted`, run with
`skipws` cleared: `__is >> __c` takes the next character, and at the end of the
input sets `eofbit` and `failbit` and leaves the loop.  An escape character
makes the next character literal; an unescaped delimiter ends the loop.
The result is the string so far, the unread input, and whether the closing
delimiter was found. -/
def quotedLoop : List Char → List Char → List Char × List Char × Bool
  | [], acc => (acc, [], false)
  | c :: rest, acc =>
      if c = '\\' then
        match rest with
        | [] => (acc, [], false)
        | d :: rest2 => quotedLoop rest2 (acc ++ [d])
      else if c = '"' then (acc, rest, true)
      else quotedLoop rest (acc ++ [c])

/-- `stream >> std::quoted( str )` (delimiter `"`, escape `\`): read one
character; if the stream is then not good, return; if the character is not
the delimiter, put it back and read `str` as a plain word; otherwise clear
`str`, run `quotedLoop` with `skipws` cleared, and restore the flags. -/
def getQuoted (s : IStream) (str : List Char) : IStream × List Char :=
  match getChar s with
  | (s1, some c) =>
      if !s1.good then (s1, str)
      else if c ≠ '"' then getWord { s1 with buf := c :: s1.buf } str
      else
        match quotedLoop s1.buf [] with
        | (acc, rest, true) => ({ s1 with buf := rest }, acc)
        | (acc, rest, false) => ({ s1 with buf := rest, eofbit := true, failbit := true }, acc)
  | (s1, none) => (s1, str)

/-- The leading-zeros step of `num_get::_M_extract_float`: zeros are consumed,
and the first one is recorded.  Returns whether a zero was found and the
unread input. -/
def extractZeros : List Char → Bool → Bool × List Char
  | [], found => (found, [])
  | c :: rest, found => if c = '0' then extractZeros rest true else (found, c :: rest)

/-- The main loop of `num_get::_M_extract_float` in the C locale: digits, at
most one decimal point (before any exponent), and at most one exponent mark
`e` / `E` (after a digit), optionally followed by a sign.  The flag `afterE`
says that the previous character was the exponent mark, the only place where
a sign is taken.  Returns the characters accumulated for `strtod` and the
unread input. -/
def extractMain : List Char → List Char → Bool → Bool → Bool → Bool → List Char × List Char
  | [], xtrc, _, _, _, _ => (xtrc, [])
  | c :: rest, xtrc, mant, dec, sci, afterE =>
      if afterE && (c = '+' || c = '-') then extractMain rest (xtrc ++ [c]) mant dec sci false
      else if c.isDigit then extractMain rest (xtrc ++ [c]) true dec sci false
      else if c = '.' && !dec && !sci then extractMain rest (xtrc ++ ['.']) mant true sci false
      else if (c = 'e' || c = 'E') && !sci && mant then
        extractMain rest (xtrc ++ ['e']) mant dec true true
      else (xtrc, c :: rest)

/-- The function `num_get::_M_extract_float`: an optional sign, the leading
zeros, then `extractMain`. -/
def extractFloat (input : List Char) : List Char × List Char :=
  let (sign, afterSign) :=
    match input with
    | c :: rest => if c = '+' || c = '-' then ([c], rest) else ([], c :: rest)
    | [] => ([], [])
  let (zero, afterZeros) := extractZeros afterSign false
  extractMain afterZeros (if zero then sign ++ ['0'] else sign) zero false false false

end IStream

/-- The number written by a run of decimal digits. -/
def digitsToNat (ds : List Char) : Nat :=
  ds.foldl (fun acc c => 10 * acc + (c.toNat - 48)) 0

/-- The exponent part of a `strtod` subject: nothing, or `e`, an optional sign
and at least one digit, up to the end of the text. -/
def strtodExponent : List Char → Option Int
  | [] => some 0
  | c :: rest =>
      if c = 'e' || c = 'E' then
        let (neg, ds) :=
          match rest with
          | d :: rest2 => if d = '-' then (true, rest2) else if d = '+' then (false, rest2)
                          else (false, rest)
          | [] => (false, [])
        if ds.isEmpty || !ds.all Char.isDigit then none
        else some (if neg then -(digitsToNat ds : Int) else (digitsToNat ds : Int))
      else none

/-- `strtod` in the C locale on a decimal text, required to consume the whole
text as `std::__convert_to_v` requires: an optional sign, digits with an
optional decimal point (at least one digit), an optional exponent; the result
is correctly rounded.  `none` when the text is not wholly a number. -/
def strtodAll (text : List Char) : Option Double :=
  let (neg, body) :=
    match text with
    | c :: rest => if c = '-' then (true, rest) else if c = '+' then (false, rest)
                   else (false, c :: rest)
    | [] => (false, [])
  let intDigits := body.takeWhile Char.isDigit
  let afterInt := body.dropWhile Char.isDigit
  let (fracDigits, afterFrac) :=
    match afterInt with
    | c :: rest =>
        if c = '.' then (rest.takeWhile Char.isDigit, rest.dropWhile Char.isDigit)
        else ([], c :: rest)
    | [] => ([], [])
  if intDigits.isEmpty && fracDigits.isEmpty then none
  else
    match strtodExponent afterFrac with
    | none => none
    | some ex =>
        some (Double.ofDecimal neg (digitsToNat (intDigits ++ fracDigits))
                (ex - (fracDigits.length : Int)))

namespace IStream

/-- `stream >> value` for a `double`: after the sentry, `num_get::do_get`
accumulates characters with `extractFloat` and converts them with `strtod`.
A text that is not wholly a number gives `0.0` and `failbit`; an overflow gives
the largest finite value and `failbit`; reaching the end of the input sets
`eofbit`.  When the sentry fails the value is kept. -/
def getDouble (s : IStream) (value : Double) : IStream × Double :=
  match sentry s with
  | (s1, true) =>
      let (xtrc, rest) := extractFloat s1.buf
      let s2 := { s1 with buf := rest, eofbit := s1.eofbit || rest.isEmpty }
      (match strtodAll xtrc with
       | none => ({ s2 with failbit := true }, Double.finite false 0 (-1074))
       | some (Double.inf neg) =>
           ({ s2 with failbit := true }, Double.finite neg (pow2 53 - 1) 971)
       | some v => (s2, v))
  | (s1, false) => (s1, value)

end IStream

/-- `operator>>( std::istream & stream, Book & book )`.  The local `bookIn` is
default-constructed; the default arguments of the constructor are declared in
`Book.hpp`, which is not among the sources, so the default-constructed record
is the parameter `dflt`.  The result is the stream and the value of `book`
after the call. -/
def operatorExtract (dflt : Book) (stream : IStream) (book : Book) : IStream × Book :=
  let bookIn := dflt
  let (s1, isbn) := IStream.getQuoted stream bookIn._isbn
  let (s2, _) := IStream.getChar s1
  let (s3, title) := IStream.getQuoted s2 bookIn._title
  let (s4, _) := IStream.getChar s3
  let (s5, author) := IStream.getQuoted s4 bookIn._author
  let (s6, _) := IStream.getChar s5
  let (s7, price) := IStream.getDouble s6 bookIn._price
  let bookIn : Book := { _isbn := isbn, _title := title, _author := author, _price := price }
  if s7.toBool then (s7, bookIn) else (s7, book)

/-! ## Output streams

An `std::ostream`: the characters written so far and the format state that
the insertion of a `double` consults.  The field width is taken to be zero
(its value unless `std::setw` immediately precedes an insertion), so nothing
is padded; `std::hexfloat` is not modelled. -/

/-- The `floatfield` setting of a stream: neither flag (the default), or
`std::fixed`, or `std::scientific`. -/
inductive FloatField where
  | general
  | fixed
  | scientific
  deriving DecidableEq, Repr

/-- An output stream. -/
structure OStream where
  out : List Char
  floatfield : FloatField
  precision : Nat
  showpoint : Bool
  showpos : Bool
  uppercase : Bool
  deriving DecidableEq, Repr

/-- The decimal digits of `n`, padded on the left with zeros to at least
`width` characters. -/
def padDigits (width n : Nat) : List Char :=
  let ds := Nat.toDigits 10 n
  List.replicate (width - ds.length) '0' ++ ds

/-- Worker of `floorLog10Q` for values below one: the least `j` from `j0` on
with `d ≤ n * 10^j`, within `fuel` steps. -/
def log10Search (n d : Nat) : Nat → Nat → Nat
  | 0, j => j
  | fuel + 1, j => if d ≤ n * pow10 j then j else log10Search n d fuel (j + 1)

/-- The integer `floor (log10 (n / d))`, for positive `n` and `d`. -/
def floorLog10Q (n d : Nat) : Int :=
  if d ≤ n then (((Nat.toDigits 10 (n / d)).length - 1 : Nat) : Int)
  else -((log10Search n d (ilog2 d + 1) 1 : Nat) : Int)

/-- Nearest integer to `(n / d) * 10^k`, ties to even. -/
def roundScaled10 (n d : Nat) (k : Int) : Nat :=
  if 0 ≤ k then roundHalfEven (n * pow10 k.toNat) d
  else roundHalfEven n (d * pow10 (-k).toNat)

/-- The digits and the decimal exponent of the conversion `%e` with `prec`
fractional digits of the positive `n / d`: `prec + 1` significant digits as
a number, and the exponent of the first one. -/
def sciDigits (n d prec : Nat) : Nat × Int :=
  let x := floorLog10Q n d
  let ds := roundScaled10 n d ((prec : Int) - x)
  if ds = pow10 (prec + 1) then (pow10 prec, x + 1) else (ds, x)

/-- The conversion `%f` (or `%#f` when `alt`) with `prec` fractional digits
of the non-negative `n / d`. -/
def formatFixed (n d prec : Nat) (alt : Bool) : List Char :=
  let ds := padDigits (prec + 1) (roundScaled10 n d prec)
  let intPart := ds.take (ds.length - prec)
  let fracPart := ds.drop (ds.length - prec)
  if prec = 0 && !alt then intPart else intPart ++ ['.'] ++ fracPart

/-- The exponent suffix of `%e`: the mark, a sign, and at least two digits. -/
def formatExponent (x : Int) (upper : Bool) : List Char :=
  [if upper then 'E' else 'e', if x < 0 then '-' else '+'] ++ padDigits 2 x.natAbs

/-- The conversion `%e` with `prec` fractional digits of the non-negative
`n / d`. -/
def formatSci (n d prec : Nat) (alt upper : Bool) : List Char :=
  let (ds, x) := if n = 0 then (0, (0 : Int)) else sciDigits n d prec
  let digits := padDigits (prec + 1) ds
  let mantissa :=
    if prec = 0 && !alt then digits.take 1 else digits.take 1 ++ ['.'] ++ digits.drop 1
  mantissa ++ formatExponent x upper

/-- Remove the trailing zeros of the fractional part of a decimal text, and
the decimal point when no fractional digit remains. -/
def stripTrailingZeros (text : List Char) : List Char :=
  if text.contains '.' then
    let t := (text.reverse.dropWhile (fun c => c = '0')).reverse
    if t.getLast? = some '.' then t.dropLast else t
  else text

/-- The conversion `%g` with precision `prec` of the non-negative `n / d`: with
`P` the precision (1 when it is 0) and `x` the exponent `%e` would show, style
`%f` with `P - 1 - x` fractional digits when `-4 ≤ x < P`, and style `%e` with
`P - 1` otherwise; trailing zeros are removed unless `alt`.  One case follows
the GNU C library rather than the C standard: when a value with `P` integer
digits rounds up to `10^P`, the zeros after the point are dropped under `alt`
too (`%#.6g` of 999999.5 is `1.e+06`). -/
def formatGeneral (n d prec : Nat) (alt upper : Bool) : List Char :=
  let p := if prec = 0 then 1 else prec
  let x : Int := if n = 0 then 0 else (sciDigits n d (p - 1)).2
  if -4 ≤ x ∧ x < (p : Int) then
    let text := formatFixed n d ((p : Int) - 1 - x).toNat alt
    if alt then text else stripTrailingZeros text
  else
    let (ds, _) := sciDigits n d (p - 1)
    let digits := padDigits p ds
    let mantissa :=
      if alt then
        (if x = (p : Int) ∧ floorLog10Q n d + 1 = x then digits.take 1 ++ ['.']
         else digits.take 1 ++ ['.'] ++ digits.drop 1)
      else stripTrailingZeros (digits.take 1 ++ ['.'] ++ digits.drop 1)
    mantissa ++ formatExponent x upper

namespace OStream

/-- A stream on which the caller has configured nothing: `floatfield` unset,
precision 6, no `showpoint`, `showpos` or `uppercase`. -/
def fresh : OStream :=
  { out := [], floatfield := FloatField.general, precision := 6,
    showpoint := false, showpos := false, uppercase := false }

/-- `stream << std::showpoint << std::fixed << std::setprecision( 2 )`: what
`main` does to `std::cout` before anything is written. -/
def configuredByMain (s : OStream) : OStream :=
  { s with showpoint := true, floatfield := FloatField.fixed, precision := 2 }

/-- Does the conversion `num_put` hands to `printf` write its letters in
capitals: libstdc++ builds `%G` or `%E` when `uppercase` is set, but `%f` for
`std::fixed` whether `uppercase` is set or not. -/
def capitals (s : OStream) : Bool :=
  s.uppercase && decide (s.floatfield ≠ FloatField.fixed)

/-- The text `num_put` produces for a `double` under the stream's format
state: the `printf` conversion `%g`, `%f` or `%e` with the stream's precision
and the flags `#` (`showpoint`) and `+` (`showpos`), with `G` or `E` when
`uppercase`.  An infinity is written `inf` and a NaN `nan`, in capitals under
`%G` and `%E`, after the sign as for a number. -/
def formatDouble (s : OStream) : Double → List Char
  | Double.nan neg =>
      (if neg then ['-'] else if s.showpos then ['+'] else [])
        ++ (if capitals s then "NAN".toList else "nan".toList)
  | Double.inf neg =>
      (if neg then ['-'] else if s.showpos then ['+'] else [])
        ++ (if capitals s then "INF".toList else "inf".toList)
  | Double.finite neg m e =>
      let n := if 0 ≤ e then m * pow2 e.toNat else m
      let d := if 0 ≤ e then 1 else pow2 (-e).toNat
      (if neg then ['-'] else if s.showpos then ['+'] else [])
        ++ (match s.floatfield with
            | FloatField.fixed => formatFixed n d s.precision s.showpoint
            | FloatField.scientific => formatSci n d s.precision s.showpoint s.uppercase
            | FloatField.general => formatGeneral n d s.precision s.showpoint s.uppercase)

/-- `stream << text` for a `std::string`. -/
def putString (s : OStream) (text : List Char) : OStream :=
  { s with out := s.out ++ text }

/-- `stream << value` for a `double`. -/
def putDouble (s : OStream) (value : Double) : OStream :=
  { s with out := s.out ++ formatDouble s value }

/-- One step of the loop of the inserter of `std::quoted`: the escape `\` is
written before a character that is the delimiter or the escape, then the
character. -/
def quotedChar (c : Char) : List Char :=
  if c = '"' || c = '\\' then ['\\', c] else [c]

/-- The text the inserter of `std::quoted( str )` builds: the delimiter `"`,
the characters of `str` each written by `quotedChar`, and the delimiter. -/
def quotedText (str : List Char) : List Char :=
  ['"'] ++ str.flatMap quotedChar ++ ['"']

/-- `stream << std::quoted( str )`. -/
def putQuoted (s : OStream) (str : List Char) : OStream :=
  putString s (quotedText str)

end OStream

/-- `operator<<( std::ostream & stream, const Book & book )`. -/
def operatorInsert (stream : OStream) (book : Book) : OStream :=
  let spacer : List Char := ", ".toList
  let s1 := OStream.putQuoted stream (Book.isbn book)
  let s2 := OStream.putString s1 spacer
  let s3 := OStream.putQuoted s2 (Book.title book)
  let s4 := OStream.putString s3 spacer
  let s5 := OStream.putQuoted s4 (Book.author book)
  let s6 := OStream.putString s5 spacer
  OStream.putDouble s6 (Book.price book)

/-! ## The text format as the specification words it -/

/-- A text with a backslash put before every double quote and every
backslash. -/
def escapeSpec : List Char → List Char
  | [] => []
  | c :: cs =>
      if c = '"' ∨ c = '\\' then '\\' :: c :: escapeSpec cs else c :: escapeSpec cs

/-- The line `"<isbn>", "<title>", "<author>", <price>` for given field texts
and a given price text. -/
def recordLine (isbn title author priceText : List Char) : List Char :=
  ['"'] ++ escapeSpec isbn ++ ['"'] ++ [',', ' '] ++
  ['"'] ++ escapeSpec title ++ ['"'] ++ [',', ' '] ++
  ['"'] ++ escapeSpec author ++ ['"'] ++ [',', ' '] ++ priceText

/-- A text in fixed-point decimal notation with `prec` fractional digits: an
optional sign, at least one digit, and then a decimal point and exactly `prec`
digits (the point may be absent when `prec` is 0). -/
def isFixedPoint (prec : Nat) (text : List Char) : Prop :=
  ∃ sign intPart fracPart : List Char,
    (sign = [] ∨ sign = ['-'] ∨ sign = ['+']) ∧
    intPart ≠ [] ∧ intPart.all Char.isDigit = true ∧
    fracPart.all Char.isDigit = true ∧ fracPart.length = prec ∧
    (text = sign ++ intPart ++ '.' :: fracPart ∨ (prec = 0 ∧ text = sign ++ intPart))

/-- A character of a decimal numeral: a digit, the decimal point, the mark of
the exponent, or a sign. -/
def isNumeralChar (c : Char) : Bool :=
  c.isDigit || c = '.' || c = 'e' || c = 'E' || c = '+' || c = '-'

/-- The number written by the digits `intPart` before and `fracPart` after a
decimal point. -/
def decimalValue (intPart fracPart : List Char) : ℚ :=
  (digitsToNat (intPart ++ fracPart) : ℚ) / (10 : ℚ) ^ fracPart.length

/-- The digits of `body` are those of `value` rounded to `prec` fractional
digits: at least one digit, then the point and `prec` digits (no point is
needed when `prec` is 0), denoting a number within half a unit of the last
digit of `value`. -/
def showsFixed (prec : Nat) (value : ℚ) (body : List Char) : Prop :=
  ∃ intPart fracPart : List Char,
    intPart ≠ [] ∧ intPart.all Char.isDigit = true ∧
    fracPart.all Char.isDigit = true ∧ fracPart.length = prec ∧
    (body = intPart ++ '.' :: fracPart ∨ (prec = 0 ∧ body = intPart)) ∧
    |decimalValue intPart fracPart - value| ≤ 1 / (2 * (10 : ℚ) ^ prec)

/-- The exponent part of a numeral that stands for the power of ten `x`:
nothing when `x` is 0, or the mark `e` or `E`, a sign and at least two
digits. -/
def isExponentText (x : Int) (text : List Char) : Prop :=
  (text = [] ∧ x = 0) ∨
  ∃ (mark sign : Char) (ds : List Char),
    text = mark :: sign :: ds ∧ (mark = 'e' ∨ mark = 'E') ∧
    2 ≤ ds.length ∧ ds.all Char.isDigit = true ∧
    ((sign = '+' ∧ x = (digitsToNat ds : Int)) ∨ (sign = '-' ∧ x = -(digitsToNat ds : Int)))

/-- The numeral `body` denotes a number within `tol` of `value`: at least one
digit, possibly a point and further digits, possibly an exponent part; the
number denoted is that of the digits times the power of ten of the
exponent. -/
def showsNumber (value tol : ℚ) (body : List Char) : Prop :=
  ∃ (intPart fracPart expText : List Char) (x : Int),
    intPart ≠ [] ∧ intPart.all Char.isDigit = true ∧ fracPart.all Char.isDigit = true ∧
    (body = intPart ++ ('.' :: (fracPart ++ expText)) ∨
      (fracPart = [] ∧ body = intPart ++ expText)) ∧
    isExponentText x expText ∧
    |decimalValue intPart fracPart * (10 : ℚ) ^ x - value| ≤ tol

/-- The numeral `body` is `value` in scientific notation with `prec`
fractional digits: one digit (not `0` unless the value is 0), the point and
`prec` digits (no point is needed when `prec` is 0), and an exponent part; the
number denoted differs from `value` by at most `value / (2 * 10^prec)`, half
a unit of the last digit written. -/
def showsScientific (prec : Nat) (value : ℚ) (body : List Char) : Prop :=
  ∃ (lead : Char) (fracPart expText : List Char) (x : Int),
    lead.isDigit = true ∧ (value ≠ 0 → lead ≠ '0') ∧
    fracPart.all Char.isDigit = true ∧ fracPart.length = prec ∧
    (body = lead :: '.' :: (fracPart ++ expText) ∨ (prec = 0 ∧ body = lead :: expText)) ∧
    expText ≠ [] ∧ isExponentText x expText ∧
    |decimalValue [lead] fracPart * (10 : ℚ) ^ x - value| ≤ value / (2 * (10 : ℚ) ^ prec)

/-- The price written unquoted on a stream with format state `s`.  The text
is not empty and holds no double quote, no backslash and no whitespace (so no
newline); it is a sign (`-` when the sign bit is set, else `+` under
`showpos`, else nothing) and a body.  The body of a NaN is `nan` and that of
an infinity `inf` (in capitals under `uppercase`, except with `std::fixed`).
The body of a number begins with a digit and is made of digits, the point,
the exponent mark and signs; it denotes the magnitude of the price rounded as
the notation of the stream asks: to `precision` fractional digits with
`std::fixed`, in scientific notation with `precision` fractional digits with
`std::scientific`, and otherwise to `precision` significant digits (one when
the precision is 0). -/
def isPriceText (s : OStream) (price : Double) (text : List Char) : Prop :=
  text ≠ [] ∧
  (∀ c ∈ text, c ≠ '"' ∧ c ≠ '\\' ∧ isspace c = false) ∧
  ∃ body : List Char,
    text = (if price.signbit then ['-'] else if s.showpos then ['+'] else []) ++ body ∧
    (price.isNaN = true →
      body = if s.uppercase = true ∧ s.floatfield ≠ FloatField.fixed then "NAN".toList
             else "nan".toList) ∧
    (price.isInf = true →
      body = if s.uppercase = true ∧ s.floatfield ≠ FloatField.fixed then "INF".toList
             else "inf".toList) ∧
    (price.isFinite = true →
      (∃ c rest, body = c :: rest ∧ c.isDigit = true) ∧
      body.all isNumeralChar = true ∧
      (s.floatfield = FloatField.fixed → showsFixed s.precision |price.toRat| body) ∧
      (s.floatfield = FloatField.scientific →
        showsScientific s.precision |price.toRat| body) ∧
      (s.floatfield = FloatField.general →
        showsNumber |price.toRat|
          (|price.toRat| / (2 * (10 : ℚ) ^ ((if s.precision = 0 then 1 else s.precision) - 1)))
          body))

/-! ## Notions used to state the decoding properties -/

/-- Has the stream nothing but whitespace left to read. -/
def IStream.exhausted (s : IStream) : Bool := s.buf.all isspace

/-- The stream as each of the seven extractions of `operator>>` finds it, in
order: before the ISBN, the first spacer, the title, the second spacer, the
author, the third spacer, and the price. -/
def readSteps (dflt : Book) (stream : IStream) : List IStream :=
  let s1 := (IStream.getQuoted stream dflt._isbn).1
  let s2 := (IStream.getChar s1).1
  let s3 := (IStream.getQuoted s2 dflt._title).1
  let s4 := (IStream.getChar s3).1
  let s5 := (IStream.getQuoted s4 dflt._author).1
  let s6 := (IStream.getChar s5).1
  [stream, s1, s2, s3, s4, s5, s6]

/-- The stream as the extraction of the price finds it. -/
def priceStream (dflt : Book) (stream : IStream) : IStream :=
  (IStream.getChar (IStream.getQuoted (IStream.getChar (IStream.getQuoted (IStream.getChar
    (IStream.getQuoted stream dflt._isbn).1).1 dflt._title).1).1 dflt._author).1).1

/-- Does a text begin with a number, as the extractor of `double` sees it:
the characters `num_get` accumulates convert wholly with `strtod`. -/
def beginsWithNumber (text : List Char) : Bool :=
  (strtodAll (IStream.extractFloat text).1).isSome

/-- Does an unescaped double quote close a quoted field whose opening quote
has been read, `body` being the rest of the input. -/
def closesQuoted (body : List Char) : Bool := (IStream.quotedLoop body []).2.2

/-- The three quoted text fields and a price text, with given separators. -/
def separatedLine (sep1 sep2 sep3 isbn title author priceText : List Char) : List Char :=
  OStream.quotedText isbn ++ (sep1 ++ (OStream.quotedText title ++ (sep2 ++
    (OStream.quotedText author ++ (sep3 ++ priceText)))))

end BookSpec

/-! # Theorems -/

set_option maxRecDepth 100000

namespace BookSpec

/-! ## Strings -/

theorem char_eq_of_toNat_eq {a b : Char} (h : a.toNat = b.toNat) : a = b := by
  rw [← Char.ofNat_toNat a, ← Char.ofNat_toNat b, h]

theorem char_eq_of_not_lt {a b : Char} (h1 : ¬ a.toNat < b.toNat)
    (h2 : ¬ b.toNat < a.toNat) : a = b :=
  char_eq_of_toNat_eq (by omega)

theorem stringCompare_cons (a b : Char) (as bs : List Char) :
    stringCompare (a :: as) (b :: bs) =
      if a.toNat < b.toNat then -1
      else if b.toNat < a.toNat then 1
      else stringCompare as bs := by
  unfold stringCompare
  have hmin : min (a :: as).length (b :: bs).length = min as.length bs.length + 1 := by
    simp only [List.length_cons]; omega
  simp only [hmin, traitsCompare]
  by_cases h1 : a.toNat < b.toNat
  · simp [h1]
  · by_cases h2 : b.toNat < a.toNat
    · simp [h1, h2]
    · simp only [h1, h2, if_false, List.length_cons]
      by_cases h3 : traitsCompare (min as.length bs.length) as bs = 0
      · simp only [h3, if_true]; push_cast; ring
      · simp only [h3, if_false]

/-- `std::string`'s three-way comparison is the lexicographic comparison by
character code. -/
theorem stringSpaceship_eq_lexCompare (lhs rhs : List Char) :
    stringSpaceship lhs rhs = lexCompare lhs rhs := by
  induction lhs generalizing rhs with
  | nil =>
    cases rhs with
    | nil => simp [stringSpaceship, stringCompare, traitsCompare, lexCompare]
    | cons b bs =>
      have hc : stringCompare [] (b :: bs) = -((bs.length : Int) + 1) := by
        simp [stringCompare, traitsCompare]
      have : -((bs.length : Int) + 1) < 0 := by omega
      simp only [stringSpaceship, hc, this, if_true, lexCompare]
  | cons a as ih =>
    cases rhs with
    | nil =>
      have hc : stringCompare (a :: as) [] = (as.length : Int) + 1 := by
        simp [stringCompare, traitsCompare]
      have h1 : ¬ ((as.length : Int) + 1 < 0) := by omega
      have h2 : (0 : Int) < (as.length : Int) + 1 := by omega
      simp only [stringSpaceship, hc, h1, h2, if_true, if_false, lexCompare]
    | cons b bs =>
      have ih' := ih bs
      unfold stringSpaceship at ih' ⊢
      simp only [stringCompare_cons, lexCompare]
      by_cases h1 : a.toNat < b.toNat
      · simp [h1]
      · by_cases h2 : b.toNat < a.toNat
        · simp [h1, h2]
        · simp only [h1, h2, if_false]
          exact ih'

theorem lexCompare_eq_equivalent_iff (lhs rhs : List Char) :
    lexCompare lhs rhs = weak_ordering.equivalent ↔ lhs = rhs := by
  induction lhs generalizing rhs with
  | nil => cases rhs <;> simp [lexCompare]
  | cons a as ih =>
    cases rhs with
    | nil => simp [lexCompare]
    | cons b bs =>
      simp only [lexCompare]
      by_cases h1 : a.toNat < b.toNat
      · have : a ≠ b := fun h => by subst h; omega
        simp [h1, this]
      · by_cases h2 : b.toNat < a.toNat
        · have : a ≠ b := fun h => by subst h; omega
          simp [h1, h2, this]
        · have hab : a = b := char_eq_of_not_lt h1 h2
          simp [h1, h2, hab, ih]

theorem stringSpaceship_eq_equivalent_iff (lhs rhs : List Char) :
    stringSpaceship lhs rhs = weak_ordering.equivalent ↔ lhs = rhs := by
  rw [stringSpaceship_eq_lexCompare, lexCompare_eq_equivalent_iff]

theorem traitsCompare_eq_zero_iff (lhs rhs : List Char) (h : lhs.length = rhs.length) :
    traitsCompare lhs.length lhs rhs = 0 ↔ lhs = rhs := by
  induction lhs generalizing rhs with
  | nil => cases rhs <;> simp_all [traitsCompare]
  | cons a as ih =>
    cases rhs with
    | nil => simp at h
    | cons b bs =>
      have hl : as.length = bs.length := by simpa using h
      simp only [List.length_cons, traitsCompare]
      by_cases h1 : a.toNat < b.toNat
      · have : a ≠ b := fun h => by subst h; omega
        simp [h1, this]
      · by_cases h2 : b.toNat < a.toNat
        · have : a ≠ b := fun h => by subst h; omega
          simp [h1, h2, this]
        · have hab : a = b := char_eq_of_not_lt h1 h2
          simp [h1, h2, hab, ih bs hl]

/-- `std::string`'s `==` holds exactly for identical character sequences. -/
theorem stringEq_iff (lhs rhs : List Char) : stringEq lhs rhs = true ↔ lhs = rhs := by
  unfold stringEq
  constructor
  · intro h
    simp only [Bool.and_eq_true, decide_eq_true_eq] at h
    exact (traitsCompare_eq_zero_iff lhs rhs h.1).1 h.2
  · intro h
    subst h
    simp only [Bool.and_eq_true, decide_eq_true_eq, true_and]
    exact (traitsCompare_eq_zero_iff lhs lhs rfl).2 rfl

/-! ## Doubles -/

theorem EPSILON_eq : EPSILON = Double.finite false 7378697629483821 (-66) := by decide

/-- Subtracting a finite number from one that compares equal to it gives a
zero, which is within `EPSILON`. -/
theorem floating_point_is_equal_of_eq (s1 s2 : Bool) (m1 m2 : Nat) (e1 e2 : Int)
    (h : Double.eq (Double.finite s1 m1 e1) (Double.finite s2 m2 e2) = true) :
    floating_point_is_equal (Double.finite s1 m1 e1) (Double.finite s2 m2 e2) = true := by
  simp only [Double.eq, decide_eq_true_eq] at h
  simp only [floating_point_is_equal, Double.sub, h, sub_self, if_true, Double.abs, EPSILON_eq]
  decide

/-! ## The comparison engine -/

/-- C1. `Book::operator<=>` returns the first non-equivalent result of the
lexicographic comparisons of ISBN, title and author, in this order; when all
three tie, it returns `equivalent` if `|a.price - b.price| <= 1e-4` (computed
in `double`, the bound `1e-4` itself included), and otherwise `less` when
`a.price < b.price` and `greater` when `a.price > b.price`. -/
theorem C1_spaceship_algorithm (a b : Book) :
    (∀ r, firstNonEquivalent
            [lexCompare a._isbn b._isbn, lexCompare a._title b._title,
             lexCompare a._author b._author] = some r →
          Book.operatorSpaceship a b = r) ∧
    (firstNonEquivalent
        [lexCompare a._isbn b._isbn, lexCompare a._title b._title,
         lexCompare a._author b._author] = none →
      (Double.le (Double.abs (Double.sub a._price b._price)) EPSILON = true →
        Book.operatorSpaceship a b = weak_ordering.equivalent) ∧
      (Double.abs (Double.sub a._price b._price) = EPSILON →
        Book.operatorSpaceship a b = weak_ordering.equivalent) ∧
      (Double.le (Double.abs (Double.sub a._price b._price)) EPSILON = false →
        (Double.lt a._price b._price = true →
          Book.operatorSpaceship a b = weak_ordering.less) ∧
        (Double.lt b._price a._price = true →
          Book.operatorSpaceship a b = weak_ordering.greater))) := by
  have hEE : Double.le EPSILON EPSILON = true := by decide
  have hasym : ∀ p q : Double, Double.lt q p = true → Double.lt p q = false := by
    intro p q h
    cases p <;> cases q <;> simp_all [Double.lt]
    rename_i s1 m1 e1 s2 m2 e2
    rw [min_comm e1 e2]
    omega
  unfold Book.operatorSpaceship
  simp only [stringSpaceship_eq_lexCompare, firstNonEquivalent, floating_point_is_equal]
  by_cases h1 : lexCompare a._isbn b._isbn = weak_ordering.equivalent
  · by_cases h2 : lexCompare a._title b._title = weak_ordering.equivalent
    · by_cases h3 : lexCompare a._author b._author = weak_ordering.equivalent
      · simp only [h1, h2, h3, ne_eq, not_true_eq_false, if_false, forall_const, true_implies]
        refine ⟨?_, ?_, ?_, ?_⟩
        · intro r h; cases h
        · intro h; simp [h]
        · intro h; simp [h, hEE]
        · intro h
          refine ⟨?_, ?_⟩
          · intro hl; simp [h, hl]
          · intro hg; simp [h, hasym _ _ hg]
      · simp [h1, h2, h3]
    · simp [h1, h2]
  · simp [h1]

/-- The three text comparisons of `operator<=>` all tie exactly when the three
text fields are identical; the result is then the one of the price step. -/
theorem operatorSpaceship_eq_equivalent_iff (a b : Book) :
    Book.operatorSpaceship a b = weak_ordering.equivalent ↔
      a._isbn = b._isbn ∧ a._title = b._title ∧ a._author = b._author ∧
        floating_point_is_equal a._price b._price = true := by
  unfold Book.operatorSpaceship
  by_cases h1 : stringSpaceship a._isbn b._isbn = weak_ordering.equivalent
  · by_cases h2 : stringSpaceship a._title b._title = weak_ordering.equivalent
    · by_cases h3 : stringSpaceship a._author b._author = weak_ordering.equivalent
      · have e1 := (stringSpaceship_eq_equivalent_iff _ _).1 h1
        have e2 := (stringSpaceship_eq_equivalent_iff _ _).1 h2
        have e3 := (stringSpaceship_eq_equivalent_iff _ _).1 h3
        simp only [h1, h2, h3, ne_eq, not_true_eq_false, if_false]
        by_cases hp : floating_point_is_equal a._price b._price = true
        · simp [hp, e1, e2, e3]
        · by_cases hl : Double.lt a._price b._price = true <;> simp [hp, hl]
      · have n3 : ¬ a._author = b._author :=
          fun h => h3 ((stringSpaceship_eq_equivalent_iff _ _).2 h)
        simp [h1, h2, h3, n3]
    · have n2 : ¬ a._title = b._title :=
        fun h => h2 ((stringSpaceship_eq_equivalent_iff _ _).2 h)
      simp [h1, h2, n2]
  · have n1 : ¬ a._isbn = b._isbn :=
      fun h => h1 ((stringSpaceship_eq_equivalent_iff _ _).2 h)
    simp [h1, n1]

/-- C2, as stated, fails: three records with the same texts and the prices
10.00000, 10.00009 and 10.00018.  The first two and the last two are
equivalent (the prices differ by about 0.00009), the first and the last are
not (they differ by about 0.00018): the result is `less`. -/
theorem C2_equivalence_not_transitive :
    Book.operatorSpaceship
        (Book.Book "T".toList "A".toList "I".toList (Double.ofDecimal false 1000000 (-5)))
        (Book.Book "T".toList "A".toList "I".toList (Double.ofDecimal false 1000009 (-5)))
      = weak_ordering.equivalent ∧
    Book.operatorSpaceship
        (Book.Book "T".toList "A".toList "I".toList (Double.ofDecimal false 1000009 (-5)))
        (Book.Book "T".toList "A".toList "I".toList (Double.ofDecimal false 1000018 (-5)))
      = weak_ordering.equivalent ∧
    Book.operatorSpaceship
        (Book.Book "T".toList "A".toList "I".toList (Double.ofDecimal false 1000000 (-5)))
        (Book.Book "T".toList "A".toList "I".toList (Double.ofDecimal false 1000018 (-5)))
      = weak_ordering.less := by
  decide

/-- C2, amended.  If `r1 <=> r2` and `r2 <=> r3` are both `equivalent`, then
`r1` and `r3` have the same ISBN, title and author, and `r1 <=> r3` is
`equivalent` exactly when their prices are within `EPSILON` of each other
(which the two given equivalences do not imply). -/
theorem C2_equivalence_chain (r1 r2 r3 : Book)
    (h12 : Book.operatorSpaceship r1 r2 = weak_ordering.equivalent)
    (h23 : Book.operatorSpaceship r2 r3 = weak_ordering.equivalent) :
    r1._isbn = r3._isbn ∧ r1._title = r3._title ∧ r1._author = r3._author ∧
      (Book.operatorSpaceship r1 r3 = weak_ordering.equivalent ↔
        floating_point_is_equal r1._price r3._price = true) := by
  rw [operatorSpaceship_eq_equivalent_iff] at h12 h23
  obtain ⟨a1, a2, a3, -⟩ := h12
  obtain ⟨b1, b2, b3, -⟩ := h23
  refine ⟨a1.trans b1, a2.trans b2, a3.trans b3, ?_⟩
  rw [operatorSpaceship_eq_equivalent_iff]
  constructor
  · intro h; exact h.2.2.2
  · intro h; exact ⟨a1.trans b1, a2.trans b2, a3.trans b3, h⟩

theorem C2_equivalence_chain_witness :
    (Book.Book "T".toList "A".toList "I".toList (Double.ofDecimal false 1000000 (-5)))._isbn
        = (Book.Book "T".toList "A".toList "I".toList (Double.ofDecimal false 1000018 (-5)))._isbn ∧
      (Book.Book "T".toList "A".toList "I".toList (Double.ofDecimal false 1000000 (-5)))._title
        = (Book.Book "T".toList "A".toList "I".toList (Double.ofDecimal false 1000018 (-5)))._title ∧
      (Book.Book "T".toList "A".toList "I".toList (Double.ofDecimal false 1000000 (-5)))._author
        = (Book.Book "T".toList "A".toList "I".toList (Double.ofDecimal false 1000018 (-5)))._author ∧
      (Book.operatorSpaceship
          (Book.Book "T".toList "A".toList "I".toList (Double.ofDecimal false 1000000 (-5)))
          (Book.Book "T".toList "A".toList "I".toList (Double.ofDecimal false 1000018 (-5)))
          = weak_ordering.equivalent ↔
        floating_point_is_equal (Double.ofDecimal false 1000000 (-5))
          (Double.ofDecimal false 1000018 (-5)) = true) :=
  C2_equivalence_chain
    (Book.Book "T".toList "A".toList "I".toList (Double.ofDecimal false 1000000 (-5)))
    (Book.Book "T".toList "A".toList "I".toList (Double.ofDecimal false 1000009 (-5)))
    (Book.Book "T".toList "A".toList "I".toList (Double.ofDecimal false 1000018 (-5)))
    (by decide) (by decide)

/-- The four comparisons of `operator==`, whatever their order, hold together
exactly when the three texts are identical and the prices are `==`. -/
theorem operatorEq_eq_true_iff (a b : Book) :
    Book.operatorEq a b = true ↔
      a._isbn = b._isbn ∧ a._title = b._title ∧ a._author = b._author ∧
        Double.eq a._price b._price = true := by
  unfold Book.operatorEq
  simp only [Bool.and_eq_true, stringEq_iff]
  constructor
  · rintro ⟨⟨⟨h1, h2⟩, h3⟩, h4⟩; exact ⟨h3, h1, h2, h4⟩
  · rintro ⟨h3, h1, h2, h4⟩; exact ⟨⟨⟨h1, h2⟩, h3⟩, h4⟩

/-- C6, as stated, fails: a record whose price is `+infinity` is `==` to
itself, and `operator<=>` of it with itself is `greater`, because
`inf - inf` is a NaN and no comparison with a NaN holds. -/
theorem C6_infinite_price_counterexample :
    Book.operatorEq
        (Book.Book "T".toList "A".toList "I".toList (Double.inf false))
        (Book.Book "T".toList "A".toList "I".toList (Double.inf false)) = true ∧
    Book.operatorSpaceship
        (Book.Book "T".toList "A".toList "I".toList (Double.inf false))
        (Book.Book "T".toList "A".toList "I".toList (Double.inf false))
      = weak_ordering.greater := by
  decide

/-- C6, amended.  For records `a` and `b` where the price of `a` is finite,
if `a == b` then `a <=> b` is `equivalent`. -/
theorem C6_eq_implies_equivalent (a b : Book) (hfin : Double.isFinite a._price = true)
    (h : Book.operatorEq a b = true) :
    Book.operatorSpaceship a b = weak_ordering.equivalent := by
  rw [operatorEq_eq_true_iff] at h
  obtain ⟨h1, h2, h3, h4⟩ := h
  rw [operatorSpaceship_eq_equivalent_iff]
  refine ⟨h1, h2, h3, ?_⟩
  cases hp : a._price with
  | nan sn => rw [hp] at hfin; simp [Double.isFinite] at hfin
  | inf n => rw [hp] at hfin; simp [Double.isFinite] at hfin
  | finite s1 m1 e1 =>
    cases hq : b._price with
    | nan sn => rw [hp, hq] at h4; simp [Double.eq] at h4
    | inf n => rw [hp, hq] at h4; simp [Double.eq] at h4
    | finite s2 m2 e2 =>
      rw [hp, hq] at h4
      exact floating_point_is_equal_of_eq s1 s2 m1 m2 e1 e2 h4

theorem C6_eq_implies_equivalent_witness :
    Book.operatorSpaceship
        (Book.Book "T".toList "A".toList "I".toList (Double.ofDecimal false 9111 (-2)))
        (Book.Book "T".toList "A".toList "I".toList (Double.ofDecimal false 9111 (-2)))
      = weak_ordering.equivalent :=
  C6_eq_implies_equivalent
    (Book.Book "T".toList "A".toList "I".toList (Double.ofDecimal false 9111 (-2)))
    (Book.Book "T".toList "A".toList "I".toList (Double.ofDecimal false 9111 (-2)))
    (by decide) (by decide)

/-! ## The record -/

/-- C7, as stated, fails: the constructor's parameters are
`( title, author, isbn, price )`, so arguments passed in the order
`( isbn, title, author, price )` end up in other fields: `isbn()` returns the
third argument. -/
theorem C7_constructor_order_counterexample :
    Book.isbn (Book.Book "9789998287532".toList "Over in the Meadow".toList
        "Ezra Jack Keats".toList (Double.ofDecimal false 9111 (-2)))
      = "Ezra Jack Keats".toList ∧
    Book.isbn (Book.Book "9789998287532".toList "Over in the Meadow".toList
        "Ezra Jack Keats".toList (Double.ofDecimal false 9111 (-2)))
      ≠ "9789998287532".toList := by
  decide

/-- C7, amended.  Constructing a record with the arguments in the order
`( title, author, isbn, price )` yields a record whose accessors `isbn()`,
`title()`, `author()` and `price()` return `isbn`, `title`, `author` and
`price`. -/
theorem C7_constructor_accessors (title author isbn : List Char) (price : Double) :
    Book.isbn (Book.Book title author isbn price) = isbn ∧
    Book.title (Book.Book title author isbn price) = title ∧
    Book.author (Book.Book title author isbn price) = author ∧
    Book.price (Book.Book title author isbn price) = price :=
  ⟨rfl, rfl, rfl, rfl⟩

/-! ## The text codec -/

/-- What `operator<<` appends to the stream. -/
theorem operatorInsert_out (stream : OStream) (book : Book) :
    (operatorInsert stream book).out =
      stream.out ++ (OStream.quotedText book._isbn ++ (", ".toList ++
        (OStream.quotedText book._title ++ (", ".toList ++
          (OStream.quotedText book._author ++ (", ".toList ++
            OStream.formatDouble stream book._price)))))) := by
  simp [operatorInsert, OStream.putDouble, OStream.putString, OStream.putQuoted,
    Book.isbn, Book.title, Book.author, Book.price, OStream.formatDouble.eq_def,
    OStream.capitals]

theorem quotedLoop_delim (rest acc : List Char) :
    IStream.quotedLoop ('"' :: rest) acc = (acc, rest, true) := by
  cases rest <;> simp [IStream.quotedLoop]

theorem quotedLoop_escape (d : Char) (rest acc : List Char) :
    IStream.quotedLoop ('\\' :: d :: rest) acc = IStream.quotedLoop rest (acc ++ [d]) := by
  rw [IStream.quotedLoop]; simp

theorem quotedLoop_plain (c : Char) (rest acc : List Char) (h1 : c ≠ '"') (h2 : c ≠ '\\') :
    IStream.quotedLoop (c :: rest) acc = IStream.quotedLoop rest (acc ++ [c]) := by
  cases rest <;> simp [IStream.quotedLoop, h1, h2]

/-- The reading loop of `std::quoted` undoes the escaping done on output. -/
theorem quotedLoop_escaped (str rest acc : List Char) :
    IStream.quotedLoop (str.flatMap OStream.quotedChar ++ '"' :: rest) acc
      = (acc ++ str, rest, true) := by
  induction str generalizing acc with
  | nil => simp [quotedLoop_delim]
  | cons c cs ih =>
    by_cases hc : c = '"' ∨ c = '\\'
    · have hq : OStream.quotedChar c = ['\\', c] := by
        rcases hc with h | h <;> simp [OStream.quotedChar, h]
      simp only [List.flatMap_cons, hq, List.cons_append, List.nil_append,
        quotedLoop_escape, ih, List.append_assoc, List.singleton_append]
    · have h1 : c ≠ '"' := fun h => hc (Or.inl h)
      have h2 : c ≠ '\\' := fun h => hc (Or.inr h)
      have hq : OStream.quotedChar c = [c] := by simp [OStream.quotedChar, h1, h2]
      simp only [List.flatMap_cons, hq, List.cons_append, List.nil_append,
        quotedLoop_plain c _ _ h1 h2, ih, List.append_assoc, List.singleton_append]

/-- Reading back a quoted field written by `std::quoted`, after an optional
blank: the field is recovered and the stream stays good. -/
theorem getQuoted_quotedText (blank : Bool) (str rest old : List Char) :
    IStream.getQuoted
        { buf := (if blank then [' '] else []) ++ (OStream.quotedText str ++ rest),
          eofbit := false, failbit := false, skipws := true } old
      = ({ buf := rest, eofbit := false, failbit := false, skipws := true }, str) := by
  have hd : List.dropWhile isspace
      ((if blank then [' '] else []) ++ (OStream.quotedText str ++ rest))
      = '"' :: (str.flatMap OStream.quotedChar ++ '"' :: rest) := by
    cases blank <;> simp [OStream.quotedText, List.dropWhile, isspace]
  simp only [IStream.getQuoted, IStream.getChar, IStream.sentry, IStream.good, hd]
  simp [quotedLoop_escaped]

/-- Reading the separator written by `operator<<`: the comma is taken. -/
theorem getChar_comma (rest : List Char) :
    IStream.getChar { buf := ',' :: rest, eofbit := false, failbit := false, skipws := true }
      = ({ buf := rest, eofbit := false, failbit := false, skipws := true }, some ',') := by
  simp [IStream.getChar, IStream.sentry, IStream.good, List.dropWhile, isspace]

/-- Decoding what `operator<<` wrote: the three text fields are recovered
exactly, whatever characters they hold, and the price is what the extractor of
`double` makes of the price text. -/
theorem operatorExtract_operatorInsert (dflt old : Book) (stream : OStream) (book : Book)
    (hout : stream.out = []) :
    operatorExtract dflt (IStream.ofText (operatorInsert stream book).out) old =
      (if (IStream.getDouble (IStream.ofText (' ' :: OStream.formatDouble stream book._price))
            dflt._price).1.toBool
       then ((IStream.getDouble (IStream.ofText (' ' :: OStream.formatDouble stream book._price))
                dflt._price).1,
             { book with _price :=
                (IStream.getDouble (IStream.ofText (' ' :: OStream.formatDouble stream book._price))
                  dflt._price).2 })
       else ((IStream.getDouble (IStream.ofText (' ' :: OStream.formatDouble stream book._price))
                dflt._price).1, old)) := by
  rw [operatorInsert_out, hout, List.nil_append]
  unfold operatorExtract IStream.ofText
  have q1 := getQuoted_quotedText false book._isbn
  simp only [Bool.false_eq_true, if_false, List.nil_append] at q1
  have q2 := getQuoted_quotedText true
  simp only [if_true, List.singleton_append] at q2
  have hs : ", ".toList = [',', ' '] := rfl
  simp only [hs, List.cons_append, List.nil_append, q1, getChar_comma, q2]

theorem escapeSpec_eq (str : List Char) : escapeSpec str = str.flatMap OStream.quotedChar := by
  induction str with
  | nil => rfl
  | cons c cs ih =>
    by_cases hc : c = '"' ∨ c = '\\'
    · have hq : OStream.quotedChar c = ['\\', c] := by
        rcases hc with h | h <;> simp [OStream.quotedChar, h]
      simp [escapeSpec, hc, hq, ih]
    · have hq : OStream.quotedChar c = [c] := by
        simp only [not_or] at hc
        simp [OStream.quotedChar, hc.1, hc.2]
      simp [escapeSpec, hc, hq, ih]

/-- C4. Whenever `operator>>` leaves the stream failed, the output record is
the record held before the call, whatever the input and whatever that record;
it is replaced only when the stream is not failed after the four reads. -/
theorem C4_failed_decode_keeps_record (dflt book : Book) (stream : IStream)
    (h : (operatorExtract dflt stream book).1.toBool = false) :
    (operatorExtract dflt stream book).2 = book := by
  unfold operatorExtract at h ⊢
  simp only at h ⊢
  split
  · rename_i hok
    rw [if_pos hok] at h
    simp only at h
    rw [h] at hok
    cases hok
  · rfl

theorem C4_failed_decode_keeps_record_witness :
    (operatorExtract (Book.Book [] [] [] (Double.finite false 0 (-1074)))
        (IStream.ofText "\"123\", \"Title\", \"Author\"".toList)
        (Book.Book "Old Title".toList "Old Author".toList "Old ISBN".toList
          (Double.ofDecimal false 500 (-2)))).1.toBool = false ∧
    (operatorExtract (Book.Book [] [] [] (Double.finite false 0 (-1074)))
        (IStream.ofText "\"123\", \"Title\", \"Author\"".toList)
        (Book.Book "Old Title".toList "Old Author".toList "Old ISBN".toList
          (Double.ofDecimal false 500 (-2)))).2
      = Book.Book "Old Title".toList "Old Author".toList "Old ISBN".toList
          (Double.ofDecimal false 500 (-2)) :=
  ⟨by decide,
   C4_failed_decode_keeps_record (Book.Book [] [] [] (Double.finite false 0 (-1074)))
    (Book.Book "Old Title".toList "Old Author".toList "Old ISBN".toList
      (Double.ofDecimal false 500 (-2)))
    (IStream.ofText "\"123\", \"Title\", \"Author\"".toList) (by decide)⟩

/-! ## Decimal digits -/

theorem digitChar_isDigit (k : Nat) (h : k < 10) : (Nat.digitChar k).isDigit = true := by
  interval_cases k <;> decide

theorem digitChar_value (k : Nat) (h : k < 10) : (Nat.digitChar k).toNat - 48 = k := by
  interval_cases k <;> decide

theorem toDigitsCore_isDigit (fuel n : Nat) (acc : List Char)
    (hacc : ∀ c ∈ acc, c.isDigit = true) :
    ∀ c ∈ Nat.toDigitsCore 10 fuel n acc, c.isDigit = true := by
  induction fuel generalizing n acc with
  | zero => simpa [Nat.toDigitsCore] using hacc
  | succ f ih =>
    have hd : (Nat.digitChar (n % 10)).isDigit = true :=
      digitChar_isDigit _ (Nat.mod_lt _ (by decide))
    have hacc2 : ∀ c ∈ Nat.digitChar (n % 10) :: acc, c.isDigit = true := by
      intro c hc
      rcases List.mem_cons.1 hc with h | h
      · rw [h]; exact hd
      · exact hacc c h
    simp only [Nat.toDigitsCore]
    split
    · exact hacc2
    · exact ih _ _ hacc2

theorem toDigits_isDigit (n : Nat) : ∀ c ∈ Nat.toDigits 10 n, c.isDigit = true :=
  toDigitsCore_isDigit _ _ _ (by simp)

theorem foldl_digits (a : Nat) (ys : List Char) :
    List.foldl (fun acc c => 10 * acc + (c.toNat - 48)) a ys
      = a * 10 ^ ys.length
        + List.foldl (fun acc c => 10 * acc + (c.toNat - 48)) 0 ys := by
  induction ys generalizing a with
  | nil => simp
  | cons y ys ih =>
    simp only [List.foldl_cons, List.length_cons]
    rw [ih (10 * a + (y.toNat - 48)), ih (10 * 0 + (y.toNat - 48))]
    ring

theorem digitsToNat_append (xs ys : List Char) :
    digitsToNat (xs ++ ys) = digitsToNat xs * 10 ^ ys.length + digitsToNat ys := by
  unfold digitsToNat
  rw [List.foldl_append, foldl_digits]

theorem digitsToNat_cons (c : Char) (cs : List Char) :
    digitsToNat (c :: cs) = (c.toNat - 48) * 10 ^ cs.length + digitsToNat cs := by
  have := digitsToNat_append [c] cs
  simpa [digitsToNat] using this

theorem digitsToNat_toDigitsCore (fuel n : Nat) (acc : List Char) (hf : n < fuel) :
    digitsToNat (Nat.toDigitsCore 10 fuel n acc) = n * 10 ^ acc.length + digitsToNat acc := by
  induction fuel generalizing n acc with
  | zero => omega
  | succ f ih =>
    simp only [Nat.toDigitsCore]
    have hv := digitChar_value (n % 10) (Nat.mod_lt _ (by decide))
    split
    · rename_i h0
      rw [digitsToNat_cons, hv]
      have : n = n % 10 := by omega
      rw [← this]
    · rename_i h0
      have hlt : n / 10 < f := by omega
      rw [ih _ _ hlt, digitsToNat_cons, hv, List.length_cons, pow_succ]
      have := Nat.div_add_mod n 10
      conv_rhs => rw [← this]
      ring

theorem digitsToNat_toDigits (n : Nat) : digitsToNat (Nat.toDigits 10 n) = n := by
  unfold Nat.toDigits
  rw [digitsToNat_toDigitsCore _ _ _ (Nat.lt_succ_self n)]
  simp [digitsToNat]

theorem toDigitsCore_ne_nil (fuel n : Nat) (acc : List Char) (h : 0 < fuel) :
    Nat.toDigitsCore 10 fuel n acc ≠ [] := by
  induction fuel generalizing n acc with
  | zero => omega
  | succ f ih =>
    simp only [Nat.toDigitsCore]
    split
    · simp
    · rename_i h0
      cases f with
      | zero => simp [Nat.toDigitsCore]
      | succ g => exact ih _ _ (Nat.succ_pos g)

theorem toDigits_ne_nil (n : Nat) : Nat.toDigits 10 n ≠ [] :=
  toDigitsCore_ne_nil _ _ _ (Nat.succ_pos n)

theorem padDigits_isDigit (w n : Nat) : (padDigits w n).all Char.isDigit = true := by
  rw [List.all_eq_true]
  intro c hc
  unfold padDigits at hc
  rcases List.mem_append.1 hc with h | h
  · rw [List.eq_of_mem_replicate h]; decide
  · exact toDigits_isDigit n c h

theorem digitsToNat_replicate_zero (k : Nat) : digitsToNat (List.replicate k '0') = 0 := by
  induction k with
  | zero => rfl
  | succ k ih => rw [List.replicate_succ, digitsToNat_cons, ih]; simp

theorem digitsToNat_padDigits (w n : Nat) : digitsToNat (padDigits w n) = n := by
  unfold padDigits
  rw [digitsToNat_append, digitsToNat_replicate_zero, digitsToNat_toDigits]; simp

theorem padDigits_length (w n : Nat) : w ≤ (padDigits w n).length := by
  unfold padDigits
  simp only [List.length_append, List.length_replicate]
  omega

/-! ## Reading a number in fixed notation -/

theorem extractZeros_eq (l : List Char) (found : Bool) :
    IStream.extractZeros l found
      = (found || decide (l.head? = some '0'), l.dropWhile (fun c => c = '0')) := by
  induction l generalizing found with
  | nil => simp [IStream.extractZeros]
  | cons c cs ih =>
    by_cases hc : c = '0'
    · simp [IStream.extractZeros, hc, ih, List.dropWhile]
    · simp [IStream.extractZeros, hc, List.dropWhile]

theorem dropWhile_append_stop (p : Char → Bool) (a : List Char) (b : Char) (c : List Char)
    (hb : p b = false) :
    List.dropWhile p (a ++ b :: c) = List.dropWhile p a ++ b :: c := by
  induction a with
  | nil => simp [List.dropWhile, hb]
  | cons x xs ih =>
    by_cases hx : p x = true
    · simp [List.dropWhile, hx, ih]
    · simp [List.dropWhile, hx]

theorem takeWhile_append_stop (p : Char → Bool) (a : List Char) (b : Char) (c : List Char)
    (ha : a.all p = true) (hb : p b = false) :
    List.takeWhile p (a ++ b :: c) = a := by
  induction a with
  | nil => simp [List.takeWhile, hb]
  | cons x xs ih =>
    simp only [List.all_cons, Bool.and_eq_true] at ha
    simp [List.takeWhile, ha.1, ih ha.2]

theorem dropWhile_append_stop_all (p : Char → Bool) (a : List Char) (b : Char) (c : List Char)
    (ha : a.all p = true) (hb : p b = false) :
    List.dropWhile p (a ++ b :: c) = b :: c := by
  induction a with
  | nil => simp [List.dropWhile, hb]
  | cons x xs ih =>
    simp only [List.all_cons, Bool.and_eq_true] at ha
    simp [List.dropWhile, ha.1, ih ha.2]

theorem takeWhile_all (p : Char → Bool) (a : List Char) (ha : a.all p = true) :
    List.takeWhile p a = a := by
  induction a with
  | nil => rfl
  | cons x xs ih =>
    simp only [List.all_cons, Bool.and_eq_true] at ha
    simp [List.takeWhile, ha.1, ih ha.2]

theorem dropWhile_all (p : Char → Bool) (a : List Char) (ha : a.all p = true) :
    List.dropWhile p a = [] := by
  induction a with
  | nil => rfl
  | cons x xs ih =>
    simp only [List.all_cons, Bool.and_eq_true] at ha
    simp [List.dropWhile, ha.1, ih ha.2]

theorem isDigit_not_sign (c : Char) (h : c.isDigit = true) :
    c ≠ '+' ∧ c ≠ '-' ∧ c ≠ '.' ∧ c ≠ 'e' ∧ c ≠ 'E' ∧ isspace c = false := by
  refine ⟨?_, ?_, ?_, ?_, ?_, ?_⟩ <;> first
    | (intro hc; rw [hc] at h; exact absurd h (by decide))
    | (simp only [Char.isDigit, Bool.and_eq_true, decide_eq_true_eq] at h
       have h1 := h.1
       have h2 := h.2
       simp only [isspace, Bool.or_eq_false_iff, decide_eq_false_iff_not]
       refine ⟨⟨⟨⟨⟨?_, ?_⟩, ?_⟩, ?_⟩, ?_⟩, ?_⟩ <;>
         (intro hc; rw [hc] at h1 h2; revert h1 h2; decide))

theorem extractMain_digits (ds rest xtrc : List Char) (mant dec sci : Bool)
    (hds : ds.all Char.isDigit = true) (hne : ds ≠ []) :
    IStream.extractMain (ds ++ rest) xtrc mant dec sci false
      = IStream.extractMain rest (xtrc ++ ds) true dec sci false := by
  induction ds generalizing xtrc mant with
  | nil => exact absurd rfl hne
  | cons c cs ih =>
    simp only [List.all_cons, Bool.and_eq_true] at hds
    by_cases hcs : cs = []
    · subst hcs
      simp [IStream.extractMain, hds.1]
    · rw [List.cons_append, IStream.extractMain]
      simp only [Bool.false_and, Bool.false_eq_true, if_false, hds.1, if_true]
      rw [ih _ _ hds.2 hcs]
      simp

theorem extractMain_digits_end (ds xtrc : List Char) (mant dec sci : Bool)
    (hds : ds.all Char.isDigit = true) :
    IStream.extractMain ds xtrc mant dec sci false = (xtrc ++ ds, []) := by
  by_cases hne : ds = []
  · subst hne; simp [IStream.extractMain]
  · have := extractMain_digits ds [] xtrc mant dec sci hds hne
    rw [List.append_nil] at this
    rw [this]; simp [IStream.extractMain]

theorem digitsToNat_dropZeros (l : List Char) :
    digitsToNat (l.dropWhile (fun c => c = '0')) = digitsToNat l := by
  induction l with
  | nil => rfl
  | cons c cs ih =>
    by_cases hc : c = '0'
    · simp only [List.dropWhile, hc, decide_True, ih]
      rw [digitsToNat_cons]; simp
    · simp [List.dropWhile, hc]

theorem strtodAll_fixed (sign ip fp : List Char)
    (hsign : sign = [] ∨ sign = ['-'] ∨ sign = ['+'])
    (hip : ip.all Char.isDigit = true) (hfp : fp.all Char.isDigit = true)
    (hne : ip ≠ [] ∨ fp ≠ []) :
    strtodAll (sign ++ ip ++ '.' :: fp)
      = some (Double.ofDecimal (decide (sign = ['-'])) (digitsToNat (ip ++ fp))
          (0 - (fp.length : Int))) := by
  have hdot : Char.isDigit '.' = false := by decide
  have hbody : ∀ neg : Bool,
      (if ((List.takeWhile Char.isDigit (ip ++ '.' :: fp)).isEmpty
            && (match List.dropWhile Char.isDigit (ip ++ '.' :: fp) with
                | c :: rest =>
                    if c = '.' then (rest.takeWhile Char.isDigit, rest.dropWhile Char.isDigit)
                    else ([], c :: rest)
                | [] => ([], [])).1.isEmpty) = true then none
       else
        match strtodExponent
            (match List.dropWhile Char.isDigit (ip ++ '.' :: fp) with
                | c :: rest =>
                    if c = '.' then (rest.takeWhile Char.isDigit, rest.dropWhile Char.isDigit)
                    else ([], c :: rest)
                | [] => ([], [])).2 with
        | none => none
        | some ex =>
            some (Double.ofDecimal neg
              (digitsToNat (List.takeWhile Char.isDigit (ip ++ '.' :: fp) ++
                (match List.dropWhile Char.isDigit (ip ++ '.' :: fp) with
                | c :: rest =>
                    if c = '.' then (rest.takeWhile Char.isDigit, rest.dropWhile Char.isDigit)
                    else ([], c :: rest)
                | [] => ([], [])).1))
              (ex - ((match List.dropWhile Char.isDigit (ip ++ '.' :: fp) with
                | c :: rest =>
                    if c = '.' then (rest.takeWhile Char.isDigit, rest.dropWhile Char.isDigit)
                    else ([], c :: rest)
                | [] => ([], [])).1.length : Int))))
      = some (Double.ofDecimal neg (digitsToNat (ip ++ fp)) (0 - (fp.length : Int))) := by
    intro neg
    rw [takeWhile_append_stop _ ip '.' fp hip hdot, dropWhile_append_stop_all _ ip '.' fp hip hdot]
    simp only [if_true, takeWhile_all _ fp hfp, dropWhile_all _ fp hfp, strtodExponent]
    have : (ip.isEmpty && fp.isEmpty) = false := by
      rcases hne with h | h
      · cases ip with
        | nil => exact absurd rfl h
        | cons _ _ => rfl
      · cases fp with
        | nil => exact absurd rfl h
        | cons _ _ => simp
    simp [this]
  cases ip with
  | nil =>
    rcases hsign with h | h | h <;> subst h
    · have := hbody false
      simpa [strtodAll] using this
    · have := hbody true
      simpa [strtodAll] using this
    · have := hbody false
      simpa [strtodAll] using this
  | cons d ds =>
    have hd : d.isDigit = true := by
      simp only [List.all_cons, Bool.and_eq_true] at hip; exact hip.1
    obtain ⟨h1, h2, -, -, -, -⟩ := isDigit_not_sign d hd
    rcases hsign with h | h | h <;> subst h
    · have := hbody false
      simpa [strtodAll, h1, h2] using this
    · have := hbody true
      simpa [strtodAll] using this
    · have := hbody false
      simpa [strtodAll] using this

/-- The leading zeros of a run of digits, as `_M_extract_float` records
them: a single `0` when there is one or more. -/
theorem extractFloat_fixed (sign ip fp : List Char)
    (hsign : sign = [] ∨ sign = ['-'] ∨ sign = ['+'])
    (hip : ip.all Char.isDigit = true) (hne : ip ≠ [])
    (hfp : fp.all Char.isDigit = true) :
    IStream.extractFloat (sign ++ ip ++ '.' :: fp)
      = (sign ++ ((if ip.head? = some '0' then ['0'] else [])
            ++ ip.dropWhile (fun c => c = '0')) ++ '.' :: fp, []) := by
  obtain ⟨d, ds, rfl⟩ := List.exists_cons_of_ne_nil hne
  have hd : d.isDigit = true := by
    simp only [List.all_cons, Bool.and_eq_true] at hip; exact hip.1
  obtain ⟨h1, h2, -, -, -, -⟩ := isDigit_not_sign d hd
  have hdz : ∀ l : List Char, l.all Char.isDigit = true →
      (l.dropWhile (fun c => c = '0')).all Char.isDigit = true := by
    intro l hl
    rw [List.all_eq_true] at hl ⊢
    intro c hc
    exact hl c ((List.dropWhile_sublist _).subset hc)
  have hmain : ∀ sg : List Char,
      (match IStream.extractZeros (d :: ds ++ '.' :: fp) false with
        | (zero, afterZeros) =>
          IStream.extractMain afterZeros (if zero = true then sg ++ ['0'] else sg) zero
            false false false)
      = (sg ++ ((if (d :: ds).head? = some '0' then ['0'] else [])
            ++ (d :: ds).dropWhile (fun c => c = '0')) ++ '.' :: fp, []) := by
    intro sg
    rw [extractZeros_eq]
    have hstop : (fun c : Char => decide (c = '0')) '.' = false := by decide
    rw [dropWhile_append_stop _ (d :: ds) '.' fp hstop]
    have hnz := hdz (d :: ds) hip
    have hdot : ∀ (x : List Char) (m : Bool),
        IStream.extractMain ('.' :: fp) x m false false false = (x ++ '.' :: fp, []) := by
      intro x m
      rw [IStream.extractMain]
      simp only [Bool.false_and, Bool.false_eq_true, if_false]
      have : Char.isDigit '.' = false := by decide
      simp only [this, Bool.false_eq_true, if_false, decide_True, Bool.not_false, Bool.and_self,
        if_true]
      rw [extractMain_digits_end _ _ _ _ _ hfp]
      simp
    by_cases hnil : (d :: ds).dropWhile (fun c => c = '0') = []
    · rw [hnil, List.nil_append]
      dsimp only
      rw [hdot]
      by_cases hz : d = '0'
      · simp [hz]
      · simp [List.dropWhile, hz] at hnil
    · dsimp only
      rw [extractMain_digits _ _ _ _ _ _ hnz hnil, hdot]
      by_cases hz : d = '0'
      · simp [hz]
      · simp [hz]
  rcases hsign with h | h | h <;> subst h
  · have := hmain []
    simp only [List.nil_append] at this ⊢
    simp only [IStream.extractFloat, List.cons_append, h1, h2, decide_False, Bool.or_self,
      Bool.false_eq_true, if_false]
    simpa using this
  · have := hmain ['-']
    simp only [IStream.extractFloat, List.cons_append, List.nil_append, decide_True,
      Bool.or_true, if_true]
    simpa using this
  · have := hmain ['+']
    simp only [IStream.extractFloat, List.cons_append, List.nil_append, decide_True,
      Bool.true_or, if_true]
    simpa using this

/-- Reading, after a blank, a number written in fixed notation up to the end
of the input: the stream ends with `eofbit` only, and the value is the
`double` nearest to the decimal read. -/
theorem getDouble_fixed (sign ip fp : List Char) (value : Double)
    (hsign : sign = [] ∨ sign = ['-'] ∨ sign = ['+'])
    (hip : ip.all Char.isDigit = true) (hne : ip ≠ [])
    (hfp : fp.all Char.isDigit = true)
    (hfin : (Double.ofDecimal (decide (sign = ['-'])) (digitsToNat (ip ++ fp))
              (0 - (fp.length : Int))).isFinite = true) :
    IStream.getDouble (IStream.ofText (' ' :: (sign ++ ip ++ '.' :: fp))) value
      = ({ buf := [], eofbit := true, failbit := false, skipws := true },
         Double.ofDecimal (decide (sign = ['-'])) (digitsToNat (ip ++ fp))
              (0 - (fp.length : Int))) := by
  obtain ⟨d, ds, rfl⟩ := List.exists_cons_of_ne_nil hne
  have hd : d.isDigit = true := by
    simp only [List.all_cons, Bool.and_eq_true] at hip; exact hip.1
  obtain ⟨-, -, -, -, -, hsp⟩ := isDigit_not_sign d hd
  have hdrop : List.dropWhile isspace (' ' :: (sign ++ (d :: ds) ++ '.' :: fp))
      = sign ++ (d :: ds) ++ '.' :: fp := by
    rcases hsign with h | h | h <;> subst h
    · have hb : isspace ' ' = true := by decide
      simp only [List.nil_append, List.cons_append, List.dropWhile, hb, hsp]
      rfl
    · have hb : isspace ' ' = true := by decide
      have hm : isspace '-' = false := by decide
      simp only [List.cons_append, List.nil_append, List.dropWhile, hb, hm]
      rfl
    · have hb : isspace ' ' = true := by decide
      have hm : isspace '+' = false := by decide
      simp only [List.cons_append, List.nil_append, List.dropWhile, hb, hm]
      rfl
  have hcons : ∃ c t, sign ++ (d :: ds) ++ '.' :: fp = c :: t := by
    rcases hsign with h | h | h <;> subst h <;> simp
  obtain ⟨c, t, hct⟩ := hcons
  have hsentry : IStream.sentry (IStream.ofText (' ' :: (sign ++ (d :: ds) ++ '.' :: fp)))
      = ({ buf := sign ++ (d :: ds) ++ '.' :: fp, eofbit := false, failbit := false,
           skipws := true }, true) := by
    simp only [IStream.sentry, IStream.ofText, IStream.good, hdrop]
    rw [hct]; simp
  have hcol : ((if (d :: ds).head? = some '0' then ['0'] else [])
      ++ (d :: ds).dropWhile (fun c => c = '0')).all Char.isDigit = true := by
    rw [List.all_eq_true] at hip ⊢
    intro x hx
    rcases List.mem_append.1 hx with h | h
    · split at h
      · rw [List.mem_singleton.1 h]; decide
      · cases h
    · exact hip x ((List.dropWhile_sublist _).subset h)
  have hcolne : ((if (d :: ds).head? = some '0' then ['0'] else [])
      ++ (d :: ds).dropWhile (fun c => c = '0')) ≠ [] := by
    by_cases hz : d = '0'
    · simp [hz]
    · simp [List.dropWhile, hz]
  have hval : digitsToNat (((if (d :: ds).head? = some '0' then ['0'] else [])
      ++ (d :: ds).dropWhile (fun c => c = '0')) ++ fp) = digitsToNat ((d :: ds) ++ fp) := by
    rw [digitsToNat_append, digitsToNat_append _ fp, digitsToNat_append,
      digitsToNat_dropZeros]
    split <;> simp [digitsToNat]
  unfold IStream.getDouble
  rw [hsentry]
  simp only [extractFloat_fixed sign (d :: ds) fp hsign hip hne hfp,
    strtodAll_fixed sign _ fp hsign hcol hfp (Or.inl hcolne), hval]
  revert hfin
  cases Double.ofDecimal (decide (sign = ['-'])) (digitsToNat ((d :: ds) ++ fp))
      (0 - (fp.length : Int)) with
  | finite s m e => intro _; simp
  | inf n => intro h; simp [Double.isFinite] at h
  | nan sn => intro h; simp [Double.isFinite] at h

/-! ## Rounding -/

theorem pow2_eq (n : Nat) : pow2 n = 2 ^ n := by
  induction n with
  | zero => rfl
  | succ n ih => rw [pow2, ih, pow_succ]; ring

theorem pow10_eq (n : Nat) : pow10 n = 10 ^ n := by
  induction n with
  | zero => rfl
  | succ n ih => rw [pow10, ih, pow_succ]; ring

theorem pow2_pos (n : Nat) : 0 < pow2 n := by rw [pow2_eq]; positivity

/-- The nearest integer is within one half: `|2 k d - 2 n| ≤ d`. -/
theorem roundHalfEven_bound (n d : Nat) (hd : 0 < d) :
    2 * (roundHalfEven n d * d) ≤ 2 * n + d ∧ 2 * n ≤ 2 * (roundHalfEven n d * d) + d := by
  have hdm := Nat.div_add_mod n d
  have hlt := Nat.mod_lt n hd
  have hmul : d * (n / d) = n / d * d := Nat.mul_comm _ _
  unfold roundHalfEven
  simp only
  split
  · constructor <;> omega
  · split
    · rw [Nat.add_mul]; constructor <;> omega
    · split
      · constructor <;> omega
      · rw [Nat.add_mul]; constructor <;> omega

/-- An integer strictly within one half of `n / d` is the nearest integer. -/
theorem roundHalfEven_unique (n d k : Nat) (hd : 0 < d)
    (h1 : 2 * (k * d) < 2 * n + d) (h2 : 2 * n < 2 * (k * d) + d) :
    roundHalfEven n d = k := by
  have hdm := Nat.div_add_mod n d
  have hlt := Nat.mod_lt n hd
  have hmul : d * (n / d) = n / d * d := Nat.mul_comm _ _
  -- `k` is `n / d` or `n / d + 1`
  have hk : k = n / d ∨ k = n / d + 1 := by
    have hle : n / d ≤ k := by
      by_contra hc
      have : k + 1 ≤ n / d := by omega
      have := Nat.mul_le_mul_right d this
      rw [Nat.add_mul] at this
      omega
    have hge : k ≤ n / d + 1 := by
      by_contra hc
      have : n / d + 2 ≤ k := by omega
      have := Nat.mul_le_mul_right d this
      rw [Nat.add_mul] at this
      omega
    omega
  unfold roundHalfEven
  simp only
  rcases hk with hk | hk
  · subst hk
    have : 2 * (n % d) < d := by omega
    simp [this]
  · subst hk
    rw [Nat.add_mul] at h1 h2
    have h3 : ¬ 2 * (n % d) < d := by omega
    have h4 : d < 2 * (n % d) := by omega
    simp [h3, h4]

theorem log2Fuel_spec (fuel n : Nat) (hn : 0 < n) (hf : n ≤ fuel) :
    2 ^ log2Fuel fuel n ≤ n ∧ n < 2 ^ (log2Fuel fuel n + 1) := by
  induction fuel generalizing n with
  | zero => omega
  | succ f ih =>
    unfold log2Fuel
    split
    · constructor <;> simp <;> omega
    · rename_i h2
      have hpos : 0 < n / 2 := by omega
      have hle : n / 2 ≤ f := by omega
      obtain ⟨a, b⟩ := ih (n / 2) hpos hle
      constructor
      · rw [pow_succ]; omega
      · rw [pow_succ]; omega

theorem ilog2_spec (n : Nat) (hn : 0 < n) : 2 ^ ilog2 n ≤ n ∧ n < 2 ^ (ilog2 n + 1) :=
  log2Fuel_spec n n hn (Nat.le_refl n)

theorem cast_pow2 (k : Nat) : ((pow2 k : Nat) : ℚ) = (2 : ℚ) ^ (k : Int) := by
  rw [pow2_eq]; push_cast; rw [zpow_natCast]

theorem zpow2_of_nonneg (e : Int) (he : 0 ≤ e) : (2 : ℚ) ^ e = ((pow2 e.toNat : Nat) : ℚ) := by
  rw [cast_pow2, Int.toNat_of_nonneg he]

theorem zpow2_of_neg (e : Int) (he : e < 0) :
    (2 : ℚ) ^ e = 1 / ((pow2 (-e).toNat : Nat) : ℚ) := by
  rw [cast_pow2, Int.toNat_of_nonneg (by omega), zpow_neg, one_div, inv_inv]

theorem cast_pow10 (k : Nat) : ((pow10 k : Nat) : ℚ) = (10 : ℚ) ^ (k : Int) := by
  rw [pow10_eq]; push_cast; rw [zpow_natCast]

/-- The nearest integer, in the rationals: within one half of `n / d`. -/
theorem roundHalfEven_abs (n d : Nat) (hd : 0 < d) :
    |((roundHalfEven n d : Nat) : ℚ) - (n : ℚ) / d| ≤ 1 / 2 := by
  obtain ⟨h1, h2⟩ := roundHalfEven_bound n d hd
  have hdq : (0 : ℚ) < d := by exact_mod_cast hd
  have h1q : (2 : ℚ) * ((roundHalfEven n d : Nat) * d) ≤ 2 * n + d := by exact_mod_cast h1
  have h2q : (2 : ℚ) * n ≤ 2 * ((roundHalfEven n d : Nat) * d) + d := by exact_mod_cast h2
  have e : (n : ℚ) / d * d = n := div_mul_cancel₀ _ (ne_of_gt hdq)
  rw [abs_le]
  constructor
  · apply le_of_mul_le_mul_right _ hdq
    rw [sub_mul, e]
    linarith
  · apply le_of_mul_le_mul_right _ hdq
    rw [sub_mul, e]
    linarith

/-- An integer strictly within one half of `n / d` is the nearest integer. -/
theorem roundHalfEven_eq_of_abs (n d k : Nat) (hd : 0 < d)
    (h : |((k : Nat) : ℚ) - (n : ℚ) / d| < 1 / 2) : roundHalfEven n d = k := by
  have hdq : (0 : ℚ) < d := by exact_mod_cast hd
  rw [abs_lt] at h
  obtain ⟨h1, h2⟩ := h
  have e : (n : ℚ) / d * d = n := div_mul_cancel₀ _ (ne_of_gt hdq)
  apply roundHalfEven_unique n d k hd
  · have : (2 : ℚ) * (k * d) < 2 * n + d := by
      have := mul_lt_mul_of_pos_right h2 hdq
      rw [sub_mul, e] at this
      linarith
    exact_mod_cast this
  · have : (2 : ℚ) * n < 2 * (k * d) + d := by
      have := mul_lt_mul_of_pos_right h1 hdq
      rw [sub_mul, e] at this
      linarith
    exact_mod_cast this

theorem roundDiv2_abs (n d : Nat) (e : Int) (hd : 0 < d) :
    |((roundDiv2 n d e : Nat) : ℚ) - (n : ℚ) / d / (2 : ℚ) ^ e| ≤ 1 / 2 := by
  have hdq : (0 : ℚ) < d := by exact_mod_cast hd
  unfold roundDiv2
  split
  · rename_i he
    have hp := pow2_pos e.toNat
    have := roundHalfEven_abs n (d * pow2 e.toNat) (Nat.mul_pos hd hp)
    rw [zpow2_of_nonneg e he]
    rw [Nat.cast_mul] at this
    rwa [div_div]
  · rename_i he
    have hp := pow2_pos (-e).toNat
    have := roundHalfEven_abs (n * pow2 (-e).toNat) d hd
    rw [zpow2_of_neg e (by omega)]
    rw [Nat.cast_mul] at this
    have hpq : (0 : ℚ) < (pow2 (-e).toNat : Nat) := by exact_mod_cast hp
    have e2 : (n : ℚ) / d / (1 / ((pow2 (-e).toNat : Nat) : ℚ))
        = (n : ℚ) * ((pow2 (-e).toNat : Nat) : ℚ) / d := by
      field_simp
    rwa [e2]

theorem roundDiv2_eq_of_abs (n d k : Nat) (e : Int) (hd : 0 < d)
    (h : |((k : Nat) : ℚ) - (n : ℚ) / d / (2 : ℚ) ^ e| < 1 / 2) : roundDiv2 n d e = k := by
  have hdq : (0 : ℚ) < d := by exact_mod_cast hd
  unfold roundDiv2
  split
  · rename_i he
    have hp := pow2_pos e.toNat
    apply roundHalfEven_eq_of_abs _ _ _ (Nat.mul_pos hd hp)
    rw [zpow2_of_nonneg e he] at h
    rw [Nat.cast_mul]
    rwa [div_div] at h
  · rename_i he
    have hp := pow2_pos (-e).toNat
    apply roundHalfEven_eq_of_abs _ _ _ hd
    rw [zpow2_of_neg e (by omega)] at h
    rw [Nat.cast_mul]
    have hpq : (0 : ℚ) < (pow2 (-e).toNat : Nat) := by exact_mod_cast hp
    have e2 : (n : ℚ) / d / (1 / ((pow2 (-e).toNat : Nat) : ℚ))
        = (n : ℚ) * ((pow2 (-e).toNat : Nat) : ℚ) / d := by
      field_simp
    rwa [e2] at h

theorem roundScaled10_abs (n d : Nat) (k : Int) (hd : 0 < d) :
    |((roundScaled10 n d k : Nat) : ℚ) - (n : ℚ) / d * (10 : ℚ) ^ k| ≤ 1 / 2 := by
  have hdq : (0 : ℚ) < d := by exact_mod_cast hd
  unfold roundScaled10
  split
  · rename_i hk
    have := roundHalfEven_abs (n * pow10 k.toNat) d hd
    rw [Nat.cast_mul, cast_pow10, Int.toNat_of_nonneg hk] at this
    have e2 : (n : ℚ) / d * (10 : ℚ) ^ k = (n : ℚ) * (10 : ℚ) ^ k / d := by ring
    rwa [e2]
  · rename_i hk
    have hp : 0 < pow10 (-k).toNat := by rw [pow10_eq]; positivity
    have := roundHalfEven_abs n (d * pow10 (-k).toNat) (Nat.mul_pos hd hp)
    rw [Nat.cast_mul, cast_pow10, Int.toNat_of_nonneg (by omega), zpow_neg] at this
    have h10 : (0 : ℚ) < (10 : ℚ) ^ k := zpow_pos (by norm_num) k
    have e2 : (n : ℚ) / d * (10 : ℚ) ^ k = (n : ℚ) / (d * ((10 : ℚ) ^ k)⁻¹) := by
      field_simp
    rwa [e2]

theorem roundScaled10_eq_of_abs (n d j : Nat) (k : Int) (hd : 0 < d)
    (h : |((j : Nat) : ℚ) - (n : ℚ) / d * (10 : ℚ) ^ k| < 1 / 2) :
    roundScaled10 n d k = j := by
  have hdq : (0 : ℚ) < d := by exact_mod_cast hd
  unfold roundScaled10
  split
  · rename_i hk
    apply roundHalfEven_eq_of_abs _ _ _ hd
    rw [Nat.cast_mul, cast_pow10, Int.toNat_of_nonneg hk]
    have e2 : (n : ℚ) / d * (10 : ℚ) ^ k = (n : ℚ) * (10 : ℚ) ^ k / d := by ring
    rwa [e2] at h
  · rename_i hk
    have hp : 0 < pow10 (-k).toNat := by rw [pow10_eq]; positivity
    apply roundHalfEven_eq_of_abs _ _ _ (Nat.mul_pos hd hp)
    rw [Nat.cast_mul, cast_pow10, Int.toNat_of_nonneg (by omega), zpow_neg]
    have h10 : (0 : ℚ) < (10 : ℚ) ^ k := zpow_pos (by norm_num) k
    have e2 : (n : ℚ) / d * (10 : ℚ) ^ k = (n : ℚ) / (d * ((10 : ℚ) ^ k)⁻¹) := by
      field_simp
    rwa [e2] at h

theorem two_zpow_pos (e : Int) : (0 : ℚ) < (2 : ℚ) ^ e := zpow_pos (by norm_num) e

theorem two_zpow_succ (e : Int) : (2 : ℚ) ^ (e + 1) = 2 * (2 : ℚ) ^ e := by
  rw [zpow_add₀ (by norm_num : (2 : ℚ) ≠ 0), zpow_one]; ring

theorem two_zpow_pred (e : Int) : (2 : ℚ) ^ (e - 1) = (2 : ℚ) ^ e / 2 := by
  rw [zpow_sub₀ (by norm_num : (2 : ℚ) ≠ 0), zpow_one]

/-- The exponent found by `floorLog2Q` brackets `n / d` between two
consecutive powers of two. -/
theorem floorLog2Q_spec (n d : Nat) (hn : 0 < n) (hd : 0 < d) :
    (2 : ℚ) ^ floorLog2Q n d ≤ (n : ℚ) / d ∧ (n : ℚ) / d < (2 : ℚ) ^ (floorLog2Q n d + 1) := by
  have hnq : (0 : ℚ) < n := by exact_mod_cast hn
  have hdq : (0 : ℚ) < d := by exact_mod_cast hd
  obtain ⟨a1, a2⟩ := ilog2_spec n hn
  obtain ⟨b1, b2⟩ := ilog2_spec d hd
  have a1q : (2 : ℚ) ^ (ilog2 n : Int) ≤ n := by
    rw [zpow_natCast]; exact_mod_cast a1
  have a2q : (n : ℚ) < 2 * (2 : ℚ) ^ (ilog2 n : Int) := by
    rw [zpow_natCast, ← pow_succ']; exact_mod_cast a2
  have b1q : (2 : ℚ) ^ (ilog2 d : Int) ≤ d := by
    rw [zpow_natCast]; exact_mod_cast b1
  have b2q : (d : ℚ) < 2 * (2 : ℚ) ^ (ilog2 d : Int) := by
    rw [zpow_natCast, ← pow_succ']; exact_mod_cast b2
  have hA := two_zpow_pos (ilog2 n : Int)
  have hB := two_zpow_pos (ilog2 d : Int)
  have hk : (2 : ℚ) ^ ((ilog2 n : Int) - (ilog2 d : Int))
      = (2 : ℚ) ^ (ilog2 n : Int) / (2 : ℚ) ^ (ilog2 d : Int) :=
    zpow_sub₀ (by norm_num) _ _
  -- the two outer bounds
  have hlo : (2 : ℚ) ^ ((ilog2 n : Int) - (ilog2 d : Int)) / 2 < (n : ℚ) / d := by
    rw [hk, div_div, div_lt_div_iff₀ (by positivity) hdq]
    nlinarith
  have hhi : (n : ℚ) / d < 2 * (2 : ℚ) ^ ((ilog2 n : Int) - (ilog2 d : Int)) := by
    rw [hk, ← mul_div_assoc, div_lt_div_iff₀ hdq hB]
    nlinarith
  -- the test of `floorLog2Q` compares `n / d` with `2 ^ k`
  have htest : floorLog2Q n d =
      if (2 : ℚ) ^ ((ilog2 n : Int) - (ilog2 d : Int)) ≤ (n : ℚ) / d
      then (ilog2 n : Int) - (ilog2 d : Int) else (ilog2 n : Int) - (ilog2 d : Int) - 1 := by
    unfold floorLog2Q
    simp only
    split
    · rename_i hk0
      have hiff : d * pow2 ((ilog2 n : Int) - (ilog2 d : Int)).toNat ≤ n
          ↔ (2 : ℚ) ^ ((ilog2 n : Int) - (ilog2 d : Int)) ≤ (n : ℚ) / d := by
        rw [zpow2_of_nonneg _ hk0, le_div_iff₀ hdq, mul_comm]
        exact_mod_cast Iff.rfl
      by_cases hc : d * pow2 ((ilog2 n : Int) - (ilog2 d : Int)).toNat ≤ n
      · rw [if_pos hc, if_pos (hiff.1 hc)]
      · rw [if_neg hc, if_neg (mt hiff.2 hc)]
    · rename_i hk0
      have hp := pow2_pos (-((ilog2 n : Int) - (ilog2 d : Int))).toNat
      have hpq : (0 : ℚ) < ((pow2 (-((ilog2 n : Int) - (ilog2 d : Int))).toNat : Nat) : ℚ) := by
        exact_mod_cast hp
      have hiff : d ≤ n * pow2 (-((ilog2 n : Int) - (ilog2 d : Int))).toNat
          ↔ (2 : ℚ) ^ ((ilog2 n : Int) - (ilog2 d : Int)) ≤ (n : ℚ) / d := by
        rw [zpow2_of_neg _ (by omega), le_div_iff₀ hdq, div_mul_eq_mul_div, one_mul,
          div_le_iff₀ hpq]
        exact_mod_cast Iff.rfl
      by_cases hc : d ≤ n * pow2 (-((ilog2 n : Int) - (ilog2 d : Int))).toNat
      · rw [if_pos hc, if_pos (hiff.1 hc)]
      · rw [if_neg hc, if_neg (mt hiff.2 hc)]
  rw [htest]
  split
  · rename_i h
    refine ⟨h, ?_⟩
    rw [two_zpow_succ]; exact hhi
  · rename_i h
    rw [sub_add_cancel, two_zpow_pred]
    exact ⟨le_of_lt hlo, lt_of_not_le h⟩

/-- The bracketing exponent is unique. -/
theorem floorLog2Q_eq (n d : Nat) (l : Int) (hn : 0 < n) (hd : 0 < d)
    (h1 : (2 : ℚ) ^ l ≤ (n : ℚ) / d) (h2 : (n : ℚ) / d < (2 : ℚ) ^ (l + 1)) :
    floorLog2Q n d = l := by
  obtain ⟨s1, s2⟩ := floorLog2Q_spec n d hn hd
  have c1 : (2 : ℚ) ^ l < (2 : ℚ) ^ (floorLog2Q n d + 1) := lt_of_le_of_lt h1 s2
  have c2 : (2 : ℚ) ^ floorLog2Q n d < (2 : ℚ) ^ (l + 1) := lt_of_le_of_lt s1 h2
  rw [zpow_lt_zpow_iff_right₀ (by norm_num)] at c1 c2
  omega

/-- A finite value in units of `2^e0`, in the rationals. -/
theorem scaled_cast (s : Bool) (m : Nat) (e e0 : Int) (h : e0 ≤ e) :
    ((Double.scaled s m e e0 : Int) : ℚ)
      = Double.toRat (Double.finite s m e) / (2 : ℚ) ^ e0 := by
  have hp : ((pow2 (e - e0).toNat : Nat) : ℚ) = (2 : ℚ) ^ e / (2 : ℚ) ^ e0 := by
    rw [cast_pow2, Int.toNat_of_nonneg (by omega), zpow_sub₀ (by norm_num)]
  unfold Double.scaled Double.toRat
  cases s
  · simp only [Bool.false_eq_true, if_false]
    push_cast
    rw [hp]; ring
  · simp only [if_true]
    push_cast
    rw [hp]; ring

/-- The `==` of `double` holds exactly between equal numbers. -/
theorem eq_iff_sameNumber (a b : Double) : Double.eq a b = true ↔ Double.sameNumber a b := by
  cases a with
  | nan sn => cases b <;> simp [Double.eq, Double.sameNumber]
  | inf n1 => cases b <;> simp [Double.eq, Double.sameNumber]
  | finite s1 m1 e1 =>
    cases b with
    | nan sn => simp [Double.eq, Double.sameNumber]
    | inf n2 => simp [Double.eq, Double.sameNumber]
    | finite s2 m2 e2 =>
      simp only [Double.eq, Double.sameNumber, decide_eq_true_eq]
      have h1 := scaled_cast s1 m1 e1 (min e1 e2) (min_le_left _ _)
      have h2 := scaled_cast s2 m2 e2 (min e1 e2) (min_le_right _ _)
      have hpos := two_zpow_pos (min e1 e2)
      constructor
      · intro h
        have : ((Double.scaled s1 m1 e1 (min e1 e2) : Int) : ℚ)
            = ((Double.scaled s2 m2 e2 (min e1 e2) : Int) : ℚ) := by rw [h]
        rw [h1, h2, div_left_inj' (ne_of_gt hpos)] at this
        exact this
      · intro h
        have : ((Double.scaled s1 m1 e1 (min e1 e2) : Int) : ℚ)
            = ((Double.scaled s2 m2 e2 (min e1 e2) : Int) : ℚ) := by rw [h1, h2, h]
        exact_mod_cast this

/-- The value of a finite `double`, as a fraction of naturals. -/
theorem finite_value (m : Nat) (e : Int) :
    (((if 0 ≤ e then m * pow2 e.toNat else m : Nat) : ℚ))
        / ((if 0 ≤ e then 1 else pow2 (-e).toNat : Nat) : ℚ)
      = (m : ℚ) * (2 : ℚ) ^ e := by
  by_cases he : 0 ≤ e
  · simp only [he, if_true, Nat.cast_mul, Nat.cast_one, div_one]
    rw [zpow2_of_nonneg e he]
  · simp only [he, if_false]
    rw [zpow2_of_neg e (by omega)]
    ring

theorem roundQ_of_pos (neg : Bool) (n d : Nat) (hn : 0 < n) :
    Double.roundQ neg n d =
      if roundDiv2 n d (max (floorLog2Q n d - 52) (-1074)) = pow2 53 then
        (if 971 < max (floorLog2Q n d - 52) (-1074) + 1 then Double.inf neg
         else Double.finite neg (pow2 52) (max (floorLog2Q n d - 52) (-1074) + 1))
      else if 971 < max (floorLog2Q n d - 52) (-1074) then Double.inf neg
      else Double.finite neg (roundDiv2 n d (max (floorLog2Q n d - 52) (-1074)))
            (max (floorLog2Q n d - 52) (-1074)) := by
  unfold Double.roundQ
  rw [if_neg (by omega)]

/-- A finite result of `roundQ`, for an input that is not in the subnormal
range: the sign is kept, the significand has 53 bits, and the value is within
half a unit in the last place of the input. -/
theorem roundQ_finite_spec (neg s : Bool) (n d m : Nat) (e : Int) (hn : 0 < n) (hd : 0 < d)
    (hl : -1074 ≤ floorLog2Q n d - 52)
    (h : Double.roundQ neg n d = Double.finite s m e) :
    s = neg ∧ 2 ^ 52 ≤ m ∧ m < 2 ^ 53 ∧ floorLog2Q n d - 52 ≤ e ∧ e ≤ 971 ∧
      |(m : ℚ) - (n : ℚ) / d / (2 : ℚ) ^ e| ≤ 1 / 2 := by
  rw [roundQ_of_pos neg n d hn, max_eq_left hl] at h
  obtain ⟨s1, s2⟩ := floorLog2Q_spec n d hn hd
  have hab := roundDiv2_abs n d (floorLog2Q n d - 52) hd
  have hpos := two_zpow_pos (floorLog2Q n d - 52)
  -- `y = (n / d) / 2^e0` lies in `[2^52, 2^53)`
  have hy1 : (2 : ℚ) ^ (52 : Nat) ≤ (n : ℚ) / d / (2 : ℚ) ^ (floorLog2Q n d - 52) := by
    rw [le_div_iff₀ hpos, ← zpow_natCast, ← zpow_add₀ (by norm_num : (2 : ℚ) ≠ 0)]
    have : ((52 : Nat) : Int) + (floorLog2Q n d - 52) = floorLog2Q n d := by push_cast; ring
    rw [this]; exact s1
  have hy2 : (n : ℚ) / d / (2 : ℚ) ^ (floorLog2Q n d - 52) < (2 : ℚ) ^ (53 : Nat) := by
    rw [div_lt_iff₀ hpos, ← zpow_natCast, ← zpow_add₀ (by norm_num : (2 : ℚ) ≠ 0)]
    have : ((53 : Nat) : Int) + (floorLog2Q n d - 52) = floorLog2Q n d + 1 := by push_cast; ring
    rw [this]; exact s2
  rw [abs_le] at hab
  have hm1 : 2 ^ 52 ≤ roundDiv2 n d (floorLog2Q n d - 52) := by
    have : ((2 ^ 52 : Nat) : ℚ) < (roundDiv2 n d (floorLog2Q n d - 52) : ℚ) + 1 := by
      push_cast; linarith [hab.1]
    have : 2 ^ 52 < roundDiv2 n d (floorLog2Q n d - 52) + 1 := by exact_mod_cast this
    omega
  have hm2 : roundDiv2 n d (floorLog2Q n d - 52) ≤ 2 ^ 53 := by
    have : (roundDiv2 n d (floorLog2Q n d - 52) : ℚ) < ((2 ^ 53 : Nat) : ℚ) + 1 := by
      push_cast; linarith [hab.2]
    have : roundDiv2 n d (floorLog2Q n d - 52) < 2 ^ 53 + 1 := by exact_mod_cast this
    omega
  split at h
  · rename_i hc
    split at h
    · cases h
    · rename_i ho
      injection h with h1 h2 h3
      subst h1 h2 h3
      refine ⟨rfl, ?_, ?_, by omega, by omega, ?_⟩
      · rw [pow2_eq]
      · rw [pow2_eq]; norm_num
      · rw [two_zpow_succ, pow2_eq]
        rw [hc, pow2_eq] at hab
        have e2 : (n : ℚ) / d / (2 * (2 : ℚ) ^ (floorLog2Q n d - 52))
            = (n : ℚ) / d / (2 : ℚ) ^ (floorLog2Q n d - 52) / 2 := by
          rw [div_div, div_div, div_div]; ring_nf
        rw [e2, abs_le]
        push_cast at hab ⊢
        constructor <;> linarith [hab.1, hab.2]
  · rename_i hc
    split at h
    · cases h
    · rename_i ho
      injection h with h1 h2 h3
      subst h1 h2 h3
      rw [pow2_eq] at hc
      refine ⟨rfl, hm1, by omega, le_refl _, by omega, ?_⟩
      rw [abs_le]; exact hab

/-- Recognising the result of `roundQ`: a 53-bit significand within less than
one half of the scaled input, in the binade of the input. -/
theorem roundQ_eq_of_near (neg : Bool) (n d m : Nat) (e : Int) (hn : 0 < n) (hd : 0 < d)
    (hm : m < 2 ^ 53) (he1 : -1074 ≤ e) (he2 : e ≤ 971)
    (hb1 : (2 : ℚ) ^ (52 + e) ≤ (n : ℚ) / d) (hb2 : (n : ℚ) / d < (2 : ℚ) ^ (52 + e + 1))
    (hnear : |(m : ℚ) - (n : ℚ) / d / (2 : ℚ) ^ e| < 1 / 2) :
    Double.roundQ neg n d = Double.finite neg m e := by
  have hL := floorLog2Q_eq n d (52 + e) hn hd hb1 hb2
  have he0 : max (floorLog2Q n d - 52) (-1074) = e := by
    rw [hL]; rw [max_eq_left (by omega)]; ring
  have hm0 := roundDiv2_eq_of_abs n d m e hd hnear
  rw [roundQ_of_pos neg n d hn, he0, hm0]
  have : m ≠ pow2 53 := by rw [pow2_eq]; omega
  rw [if_neg this, if_neg (by omega)]


theorem roundHalfEven_zero (d : Nat) (hd : 0 < d) : roundHalfEven 0 d = 0 := by
  unfold roundHalfEven
  simp [hd]

/-- Writing the `double` nearest to `cents / 100` with two fractional digits
and rounding the decimal written back to a `double` gives the same `double`. -/
theorem fixed2_round_trip_value (neg s : Bool) (cents m : Nat) (e : Int)
    (h : Double.roundQ neg cents 100 = Double.finite s m e) :
    Double.roundQ neg
        (roundScaled10 (if 0 ≤ e then m * pow2 e.toNat else m)
          (if 0 ≤ e then 1 else pow2 (-e).toNat) 2) 100
      = Double.finite s m e := by
  have hdpos : 0 < (if 0 ≤ e then 1 else pow2 (-e).toNat) := by
    split
    · exact Nat.one_pos
    · exact pow2_pos _
  by_cases hc0 : cents = 0
  · subst hc0
    have h0 : Double.roundQ neg 0 100 = Double.finite neg 0 (-1074) := by
      unfold Double.roundQ; rw [if_pos rfl]
    have hm0 : m = 0 := by
      rw [h0] at h; injection h with _ h2 _; exact h2.symm
    have hn0 : (if 0 ≤ e then m * pow2 e.toNat else m) = 0 := by
      rw [hm0]; split <;> simp
    have : roundScaled10 (if 0 ≤ e then m * pow2 e.toNat else m)
        (if 0 ≤ e then 1 else pow2 (-e).toNat) 2 = 0 := by
      rw [hn0]
      unfold roundScaled10
      rw [if_pos (by norm_num), Nat.zero_mul]
      exact roundHalfEven_zero _ hdpos
    rw [this]; exact h
  · have hcpos : 0 < cents := Nat.pos_of_ne_zero hc0
    have hcq : (1 : ℚ) ≤ cents := by exact_mod_cast hcpos
    obtain ⟨s1, s2⟩ := floorLog2Q_spec cents 100 hcpos (by norm_num)
    -- the input is at least 1/100, far from the subnormal range
    have hL : -7 ≤ floorLog2Q cents 100 := by
      have hx : (2 : ℚ) ^ (-7 : Int) < (cents : ℚ) / (100 : Nat) := by
        rw [lt_div_iff₀ (by norm_num)]
        have : (2 : ℚ) ^ (-7 : Int) = 1 / 128 := by norm_num [zpow_neg]
        rw [this]; push_cast; linarith
      have := lt_trans hx s2
      rw [zpow_lt_zpow_iff_right₀ (by norm_num)] at this
      omega
    obtain ⟨hs, hm1, hm2, he1, he2, hab⟩ :=
      roundQ_finite_spec neg s cents 100 m e hcpos (by norm_num) (by omega) h
    subst hs
    have hv := finite_value m e
    have hpe := two_zpow_pos e
    have hN := roundScaled10_abs (if 0 ≤ e then m * pow2 e.toNat else m)
      (if 0 ≤ e then 1 else pow2 (-e).toNat) 2 hdpos
    rw [hv] at hN
    have h100 : (10 : ℚ) ^ (2 : Int) = 100 := by norm_num
    rw [h100] at hN
    have hmq1 : (2 : ℚ) ^ (52 : Nat) ≤ m := by exact_mod_cast hm1
    have hmq2 : (m : ℚ) + 1 ≤ (2 : ℚ) ^ (53 : Nat) := by exact_mod_cast hm2
    -- `|cents - 100 v| ≤ 50 * 2^e`
    have hcv : |(cents : ℚ) - (m : ℚ) * (2 : ℚ) ^ e * 100| ≤ 50 * (2 : ℚ) ^ e := by
      have e1 : (cents : ℚ) - (m : ℚ) * (2 : ℚ) ^ e * 100
          = -(((m : ℚ) - (cents : ℚ) / (100 : Nat) / (2 : ℚ) ^ e) * (100 * (2 : ℚ) ^ e)) := by
        field_simp
        ring
      rw [e1, abs_neg, abs_mul, abs_of_pos (by positivity : (0 : ℚ) < 100 * (2 : ℚ) ^ e)]
      calc |(m : ℚ) - (cents : ℚ) / (100 : Nat) / (2 : ℚ) ^ e| * (100 * (2 : ℚ) ^ e)
          ≤ 1 / 2 * (100 * (2 : ℚ) ^ e) :=
            mul_le_mul_of_nonneg_right hab (by positivity)
        _ = 50 * (2 : ℚ) ^ e := by ring
    by_cases hsmall : e ≤ -7
    · -- the decimal written is `cents` itself
      have hpe7 : (2 : ℚ) ^ e ≤ 1 / 128 := by
        have := zpow_le_zpow_right₀ (by norm_num : (1 : ℚ) ≤ 2) hsmall
        have e7 : (2 : ℚ) ^ (-7 : Int) = 1 / 128 := by norm_num [zpow_neg]
        rwa [e7] at this
      have hN2 : roundScaled10 (if 0 ≤ e then m * pow2 e.toNat else m)
          (if 0 ≤ e then 1 else pow2 (-e).toNat) 2 = cents := by
        apply roundScaled10_eq_of_abs _ _ _ _ hdpos
        rw [hv, h100]
        calc |(cents : ℚ) - (m : ℚ) * (2 : ℚ) ^ e * 100| ≤ 50 * (2 : ℚ) ^ e := hcv
          _ < 1 / 2 := by linarith
      rw [hN2]; exact h
    · -- the decimal written is within 1/200 of the value, well inside its binade
      have he6 : -6 ≤ e := by omega
      have hpe6 : 1 / 64 ≤ (2 : ℚ) ^ e := by
        have := zpow_le_zpow_right₀ (by norm_num : (1 : ℚ) ≤ 2) he6
        have e6 : (2 : ℚ) ^ (-6 : Int) = 1 / 64 := by norm_num [zpow_neg]
        rwa [e6] at this
      rw [abs_le] at hN
      have hI0 : (2 : ℚ) ^ (52 + e) = ((pow2 (52 + e).toNat : Nat) : ℚ) :=
        zpow2_of_nonneg _ (by omega)
      have h52 : (2 : ℚ) ^ (52 + e) = (2 : ℚ) ^ (52 : Nat) * (2 : ℚ) ^ e := by
        rw [zpow_add₀ (by norm_num : (2 : ℚ) ≠ 0)]; norm_num
      have h53 : (2 : ℚ) ^ (52 + e + 1) = (2 : ℚ) ^ (53 : Nat) * (2 : ℚ) ^ e := by
        rw [two_zpow_succ, h52]; ring
      generalize hNdef : roundScaled10 (if 0 ≤ e then m * pow2 e.toNat else m)
          (if 0 ≤ e then 1 else pow2 (-e).toNat) 2 = N at hN ⊢
      -- `N ≥ 100 * 2^(52+e)`, an integer
      have hNlo : 100 * pow2 (52 + e).toNat ≤ N := by
        have : ((100 * pow2 (52 + e).toNat : Nat) : ℚ) < (N : ℚ) + 1 := by
          push_cast
          rw [← hI0, h52]
          nlinarith [hN.1, mul_le_mul_of_nonneg_right hmq1 (le_of_lt hpe)]
        have : 100 * pow2 (52 + e).toNat < N + 1 := by exact_mod_cast this
        omega
      have hNpos : 0 < N := lt_of_lt_of_le (Nat.mul_pos (by norm_num) (pow2_pos _)) hNlo
      have hNloq : 100 * (2 : ℚ) ^ (52 + e) ≤ N := by
        rw [hI0]; exact_mod_cast hNlo
      apply roundQ_eq_of_near _ N 100 m e hNpos (by norm_num) hm2 (by omega) he2
      · rw [le_div_iff₀ (by norm_num)]; push_cast; linarith
      · rw [div_lt_iff₀ (by norm_num), h53]; push_cast
        nlinarith [hN.2, mul_le_mul_of_nonneg_right hmq2 (le_of_lt hpe)]
      · have e1 : (m : ℚ) - (N : ℚ) / (100 : Nat) / (2 : ℚ) ^ e
            = -(((N : ℚ) - (m : ℚ) * (2 : ℚ) ^ e * 100) / (100 * (2 : ℚ) ^ e)) := by
          field_simp
          ring
        rw [e1, abs_neg, abs_div, abs_of_pos (by positivity : (0 : ℚ) < 100 * (2 : ℚ) ^ e),
          div_lt_iff₀ (by positivity)]
        have : |(N : ℚ) - (m : ℚ) * (2 : ℚ) ^ e * 100| ≤ 1 / 2 := abs_le.2 hN
        nlinarith


/-- The sign `num_put` writes before the digits. -/
theorem formatDouble_fixed (stream : OStream) (s : Bool) (m : Nat) (e : Int)
    (hfix : stream.floatfield = FloatField.fixed) :
    OStream.formatDouble stream (Double.finite s m e)
      = (if s then ['-'] else if stream.showpos then ['+'] else [])
        ++ formatFixed (if 0 ≤ e then m * pow2 e.toNat else m)
            (if 0 ≤ e then 1 else pow2 (-e).toNat) stream.precision stream.showpoint := by
  simp only [OStream.formatDouble, hfix]

/-- The parts of a text in the style `%f`: the digits before the point are
all but the last `prec` of the padded digits. -/
theorem formatFixed_parts (n d prec : Nat) :
    ((padDigits (prec + 1) (roundScaled10 n d prec)).take
        ((padDigits (prec + 1) (roundScaled10 n d prec)).length - prec)) ≠ [] ∧
    ((padDigits (prec + 1) (roundScaled10 n d prec)).take
        ((padDigits (prec + 1) (roundScaled10 n d prec)).length - prec)).all Char.isDigit = true ∧
    ((padDigits (prec + 1) (roundScaled10 n d prec)).drop
        ((padDigits (prec + 1) (roundScaled10 n d prec)).length - prec)).all Char.isDigit = true ∧
    ((padDigits (prec + 1) (roundScaled10 n d prec)).drop
        ((padDigits (prec + 1) (roundScaled10 n d prec)).length - prec)).length = prec := by
  generalize hds : padDigits (prec + 1) (roundScaled10 n d prec) = ds
  have hlen : prec + 1 ≤ ds.length := by rw [← hds]; exact padDigits_length _ _
  have hdig : ds.all Char.isDigit = true := by rw [← hds]; exact padDigits_isDigit _ _
  rw [List.all_eq_true] at hdig
  refine ⟨?_, ?_, ?_, ?_⟩
  · intro h
    have := congrArg List.length h
    rw [List.length_take] at this
    simp at this
    omega
  · rw [List.all_eq_true]
    intro c hc
    exact hdig c (List.mem_of_mem_take hc)
  · rw [List.all_eq_true]
    intro c hc
    exact hdig c (List.mem_of_mem_drop hc)
  · rw [List.length_drop]; omega

theorem operatorEq_self (r : Book) (hfin : Double.isFinite r._price = true) :
    Book.operatorEq r r = true := by
  rw [operatorEq_eq_true_iff]
  refine ⟨rfl, rfl, rfl, ?_⟩
  cases hp : r._price with
  | finite s m e => simp [Double.eq]
  | inf n => rw [hp] at hfin; simp [Double.isFinite] at hfin
  | nan sn => rw [hp] at hfin; simp [Double.isFinite] at hfin

/-- Reading back the price text written in fixed notation with precision 2
for the `double` nearest to `cents / 100`. -/
theorem getDouble_formatDouble_fixed2 (stream : OStream) (neg s : Bool) (cents m : Nat)
    (e : Int) (value : Double)
    (hfix : stream.floatfield = FloatField.fixed) (hprec : stream.precision = 2)
    (h : Double.ofDecimal neg cents (-2) = Double.finite s m e) :
    IStream.getDouble
        (IStream.ofText (' ' :: OStream.formatDouble stream (Double.finite s m e))) value
      = ({ buf := [], eofbit := true, failbit := false, skipws := true },
         Double.finite s m e) := by
  have h' : Double.roundQ neg cents 100 = Double.finite s m e := by
    have : Double.ofDecimal neg cents (-2) = Double.roundQ neg cents 100 := by
      simp [Double.ofDecimal, pow10]
    rw [← this]; exact h
  have hrt := fixed2_round_trip_value neg s cents m e h'
  have hs : s = neg := by
    by_cases hc : cents = 0
    · subst hc
      have h0 : Double.roundQ neg 0 100 = Double.finite neg 0 (-1074) := by
        unfold Double.roundQ; rw [if_pos rfl]
      rw [h0] at h'; injection h' with h1 _ _; exact h1.symm
    · rw [roundQ_of_pos neg cents 100 (Nat.pos_of_ne_zero hc)] at h'
      split at h'
      · split at h'
        · cases h'
        · injection h' with h1 _ _; exact h1.symm
      · split at h'
        · cases h'
        · injection h' with h1 _ _; exact h1.symm
  subst hs
  rw [formatDouble_fixed stream s m e hfix, hprec]
  generalize hn : (if 0 ≤ e then m * pow2 e.toNat else m) = n at hrt ⊢
  generalize hd : (if 0 ≤ e then 1 else pow2 (-e).toNat) = d at hrt ⊢
  obtain ⟨p1, p2, p3, p4⟩ := formatFixed_parts n d 2
  simp only [Nat.cast_ofNat] at p1 p2 p3 p4
  have hff : formatFixed n d 2 stream.showpoint
      = (padDigits (2 + 1) (roundScaled10 n d 2)).take
          ((padDigits (2 + 1) (roundScaled10 n d 2)).length - 2)
        ++ '.' :: (padDigits (2 + 1) (roundScaled10 n d 2)).drop
          ((padDigits (2 + 1) (roundScaled10 n d 2)).length - 2) := by
    simp [formatFixed]
  have hsign : ((if s then ['-'] else if stream.showpos then ['+'] else []) : List Char) = []
      ∨ ((if s then ['-'] else if stream.showpos then ['+'] else []) : List Char) = ['-']
      ∨ ((if s then ['-'] else if stream.showpos then ['+'] else []) : List Char) = ['+'] := by
    cases s <;> cases stream.showpos <;> simp
  have hneg : decide (((if s then ['-'] else if stream.showpos then ['+'] else []) : List Char)
      = ['-']) = s := by
    cases s <;> cases stream.showpos <;> simp
  have hval : Double.ofDecimal s
      (digitsToNat ((padDigits (2 + 1) (roundScaled10 n d 2)).take
          ((padDigits (2 + 1) (roundScaled10 n d 2)).length - 2)
        ++ (padDigits (2 + 1) (roundScaled10 n d 2)).drop
          ((padDigits (2 + 1) (roundScaled10 n d 2)).length - 2)))
      (0 - (((padDigits (2 + 1) (roundScaled10 n d 2)).drop
          ((padDigits (2 + 1) (roundScaled10 n d 2)).length - 2)).length : Int))
      = Double.finite s m e := by
    rw [List.take_append_drop, digitsToNat_padDigits, p4]
    have : Double.ofDecimal s (roundScaled10 n d 2) (0 - ((2 : Nat) : Int))
        = Double.roundQ s (roundScaled10 n d 2) 100 := by
      simp [Double.ofDecimal, pow10]
    rw [this]; exact hrt
  have key := getDouble_fixed _ _ _ value hsign p2 p1 p3
    (by rw [hneg, hval]; rfl)
  rw [hneg, hval] at key
  rw [hff, ← List.append_assoc]
  exact key

/-- On a stream set to `std::fixed` with precision 2 (as `main`
sets `std::cout`), for every record whose price is finite and is the `double`
nearest to a decimal with at most two fractional digits, and whose text
fields are arbitrary, decoding the text written by `operator<<` succeeds and
yields a record `==` to the original. -/
theorem operatorExtract_operatorInsert_fixed2 (dflt old r : Book) (stream : OStream) (neg : Bool) (cents : Nat)
    (hout : stream.out = []) (hfix : stream.floatfield = FloatField.fixed)
    (hprec : stream.precision = 2)
    (hprice : r._price = Double.ofDecimal neg cents (-2))
    (hfin : Double.isFinite r._price = true) :
    (operatorExtract dflt (IStream.ofText (operatorInsert stream r).out) old).1.toBool = true ∧
    Book.operatorEq
      (operatorExtract dflt (IStream.ofText (operatorInsert stream r).out) old).2 r = true := by
  rw [operatorExtract_operatorInsert dflt old stream r hout]
  cases hp : r._price with
  | inf n => rw [hp] at hfin; simp [Double.isFinite] at hfin
  | nan sn => rw [hp] at hfin; simp [Double.isFinite] at hfin
  | finite s m e =>
    rw [hp] at hprice
    rw [getDouble_formatDouble_fixed2 stream neg s cents m e dflt._price hfix hprec hprice.symm]
    simp only [IStream.toBool, Bool.not_false, if_true, true_and]
    have : ({ r with _price := Double.finite s m e } : Book) = r := by
      cases r; simp only at hp; subst hp; rfl
    rw [this]
    exact operatorEq_self r hfin

/-- The shape of the price text on a stream set to `std::fixed`. -/
theorem formatDouble_fixed_shape (stream : OStream) (s : Bool) (m : Nat) (e : Int)
    (hfix : stream.floatfield = FloatField.fixed) :
    isFixedPoint stream.precision (OStream.formatDouble stream (Double.finite s m e)) := by
  rw [formatDouble_fixed stream s m e hfix]
  generalize (if 0 ≤ e then m * pow2 e.toNat else m) = n
  generalize (if 0 ≤ e then 1 else pow2 (-e).toNat) = d
  obtain ⟨p1, p2, p3, p4⟩ := formatFixed_parts n d stream.precision
  refine ⟨(if s then ['-'] else if stream.showpos then ['+'] else []), _, _, ?_,
    p1, p2, p3, p4, ?_⟩
  · cases s <;> cases stream.showpos <;> simp
  · unfold formatFixed
    by_cases h0 : (stream.precision = 0 && !stream.showpoint) = true
    · right
      simp only [Bool.and_eq_true, decide_eq_true_eq] at h0
      refine ⟨h0.1, ?_⟩
      simp [h0.1, h0.2]
    · left
      simp only [h0]
      simp [List.append_assoc]


/-- C3, amended.  On a stream set to `std::fixed` with precision 2 (as `main`
sets `std::cout`), for every record whose price is finite and is the `double`
nearest to a decimal with at most two fractional digits, and whose text
fields are arbitrary strings, decoding with `operator>>` the text written by
`operator<<` succeeds and yields a record `==` to the original. -/
theorem C3_round_trip_fixed2 (dflt old r : Book) (stream : OStream) (neg : Bool) (cents : Nat)
    (hout : stream.out = []) (hfix : stream.floatfield = FloatField.fixed)
    (hprec : stream.precision = 2)
    (hprice : r._price = Double.ofDecimal neg cents (-2))
    (hfin : Double.isFinite r._price = true) :
    (operatorExtract dflt (IStream.ofText (operatorInsert stream r).out) old).1.toBool = true ∧
    Book.operatorEq
      (operatorExtract dflt (IStream.ofText (operatorInsert stream r).out) old).2 r = true :=
  operatorExtract_operatorInsert_fixed2 dflt old r stream neg cents hout hfix hprec hprice hfin

/-- When the sentry lets the extraction proceed, the previous value of the
variable plays no part. -/
theorem getDouble_value_irrelevant (s : IStream) (v w : Double)
    (h : (IStream.sentry s).2 = true) : IStream.getDouble s v = IStream.getDouble s w := by
  unfold IStream.getDouble
  cases hs : IStream.sentry s with
  | mk s1 ok =>
    rw [hs] at h
    simp only at h
    subst h
    rfl

theorem C3_round_trip_fixed2_witness :
    (operatorExtract (Book.Book [] [] [] (Double.finite false 0 (-1074)))
        (IStream.ofText (operatorInsert (OStream.configuredByMain OStream.fresh)
          (Book.Book "Say \"hi\", they said".toList "A\\B, C".toList "978 9\"".toList
            (Double.ofDecimal false 9111 (-2)))).out)
        (Book.Book [] [] [] (Double.finite false 0 (-1074)))).1.toBool = true ∧
    Book.operatorEq
      (operatorExtract (Book.Book [] [] [] (Double.finite false 0 (-1074)))
        (IStream.ofText (operatorInsert (OStream.configuredByMain OStream.fresh)
          (Book.Book "Say \"hi\", they said".toList "A\\B, C".toList "978 9\"".toList
            (Double.ofDecimal false 9111 (-2)))).out)
        (Book.Book [] [] [] (Double.finite false 0 (-1074)))).2
      (Book.Book "Say \"hi\", they said".toList "A\\B, C".toList "978 9\"".toList
        (Double.ofDecimal false 9111 (-2))) = true :=
  C3_round_trip_fixed2 (Book.Book [] [] [] (Double.finite false 0 (-1074)))
    (Book.Book [] [] [] (Double.finite false 0 (-1074)))
    (Book.Book "Say \"hi\", they said".toList "A\\B, C".toList "978 9\"".toList
      (Double.ofDecimal false 9111 (-2)))
    (OStream.configuredByMain OStream.fresh) false 9111 rfl rfl rfl rfl (by decide)

/-- C3, as stated, fails on a stream where nothing is configured: the price
1234567.89 has two decimal places, `operator<<` writes it with the stream's
default six significant digits as `1.23457e+06`, and `operator>>` reads
1234570 back, whatever the default-constructed record and the record held
before: the decoded record is not `==` to the original. -/
theorem C3_default_stream_counterexample :
    (operatorInsert OStream.fresh
        (Book.Book "T".toList "A".toList "I".toList (Double.ofDecimal false 123456789 (-2)))).out
      = "\"I\", \"T\", \"A\", 1.23457e+06".toList ∧
    (∀ dflt old : Book,
      operatorExtract dflt (IStream.ofText "\"I\", \"T\", \"A\", 1.23457e+06".toList) old
        = ({ buf := [], eofbit := true, failbit := false, skipws := true },
           Book.Book "T".toList "A".toList "I".toList (Double.ofDecimal false 1234570 0))) ∧
    Book.operatorEq
        (Book.Book "T".toList "A".toList "I".toList (Double.ofDecimal false 1234570 0))
        (Book.Book "T".toList "A".toList "I".toList (Double.ofDecimal false 123456789 (-2)))
      = false := by
  have h1 : (operatorInsert OStream.fresh
        (Book.Book "T".toList "A".toList "I".toList (Double.ofDecimal false 123456789 (-2)))).out
      = "\"I\", \"T\", \"A\", 1.23457e+06".toList := by decide
  refine ⟨h1, ?_, by decide⟩
  intro dflt old
  rw [← h1, operatorExtract_operatorInsert dflt old _ _ rfl]
  have hg : IStream.getDouble
      (IStream.ofText (' ' :: OStream.formatDouble OStream.fresh
        (Book.Book "T".toList "A".toList "I".toList
          (Double.ofDecimal false 123456789 (-2)))._price)) dflt._price
      = ({ buf := [], eofbit := true, failbit := false, skipws := true },
         Double.ofDecimal false 1234570 0) := by
    rw [getDouble_value_irrelevant _ dflt._price (Double.nan false) (by decide)]
    decide
  rw [hg]
  simp only [IStream.toBool, Bool.not_false, if_true]
  rfl

/-- C8, as stated, fails: `Record( "9789998287532", "Over in the Meadow",
"Ezra Jack Keats", 91.11 )` passes the ISBN as the title, the title as the
author and the author as the ISBN, so `operator<<` writes the three texts in
another order than the claimed line, on a stream in its default state and on
one set up as `main` does. -/
theorem C8_scenario_counterexample :
    (operatorInsert OStream.fresh
        (Book.Book "9789998287532".toList "Over in the Meadow".toList "Ezra Jack Keats".toList
          (Double.ofDecimal false 9111 (-2)))).out
      = "\"Ezra Jack Keats\", \"9789998287532\", \"Over in the Meadow\", 91.11".toList ∧
    (operatorInsert (OStream.configuredByMain OStream.fresh)
        (Book.Book "9789998287532".toList "Over in the Meadow".toList "Ezra Jack Keats".toList
          (Double.ofDecimal false 9111 (-2)))).out
      = "\"Ezra Jack Keats\", \"9789998287532\", \"Over in the Meadow\", 91.11".toList ∧
    "\"Ezra Jack Keats\", \"9789998287532\", \"Over in the Meadow\", 91.11".toList
      ≠ "\"9789998287532\", \"Over in the Meadow\", \"Ezra Jack Keats\", 91.11".toList := by
  decide

/-- C8, amended.  Encoding the record constructed with the arguments in the
constructor's order, `Book( "Over in the Meadow", "Ezra Jack Keats",
"9789998287532", 91.11 )`, writes exactly
`"9789998287532", "Over in the Meadow", "Ezra Jack Keats", 91.11` (on a stream
in its default state and on one set up as `main` does), and decoding that text
succeeds and yields a record `==` to the constructed one. -/
theorem C8_scenario (dflt old : Book) :
    (operatorInsert OStream.fresh
        (Book.Book "Over in the Meadow".toList "Ezra Jack Keats".toList "9789998287532".toList
          (Double.ofDecimal false 9111 (-2)))).out
      = "\"9789998287532\", \"Over in the Meadow\", \"Ezra Jack Keats\", 91.11".toList ∧
    (operatorInsert (OStream.configuredByMain OStream.fresh)
        (Book.Book "Over in the Meadow".toList "Ezra Jack Keats".toList "9789998287532".toList
          (Double.ofDecimal false 9111 (-2)))).out
      = "\"9789998287532\", \"Over in the Meadow\", \"Ezra Jack Keats\", 91.11".toList ∧
    (operatorExtract dflt
        (IStream.ofText
          "\"9789998287532\", \"Over in the Meadow\", \"Ezra Jack Keats\", 91.11".toList)
        old).1.toBool = true ∧
    Book.operatorEq
      (operatorExtract dflt
        (IStream.ofText
          "\"9789998287532\", \"Over in the Meadow\", \"Ezra Jack Keats\", 91.11".toList)
        old).2
      (Book.Book "Over in the Meadow".toList "Ezra Jack Keats".toList "9789998287532".toList
        (Double.ofDecimal false 9111 (-2))) = true := by
  have h2 : (operatorInsert (OStream.configuredByMain OStream.fresh)
        (Book.Book "Over in the Meadow".toList "Ezra Jack Keats".toList "9789998287532".toList
          (Double.ofDecimal false 9111 (-2)))).out
      = "\"9789998287532\", \"Over in the Meadow\", \"Ezra Jack Keats\", 91.11".toList := by
    decide
  refine ⟨by decide, h2, ?_⟩
  rw [← h2]
  exact operatorExtract_operatorInsert_fixed2 dflt old _ _ false 9111 rfl rfl rfl rfl
    (by decide)

theorem not_fixed_of_no_point (prec : Nat) (text : List Char) (hp : prec ≠ 0)
    (h : '.' ∉ text) : ¬ isFixedPoint prec text := by
  rintro ⟨sign, ip, fp, -, -, -, -, -, h1 | ⟨h0, -⟩⟩
  · apply h
    rw [h1]; simp
  · exact hp h0

/-- C10, as stated, fails on a stream where the caller has configured nothing:
the price 5.0 is written `5`, not `5.00`, and the price 1e10 is written in
scientific notation, `1e+10`. -/
theorem C10_default_stream_counterexample :
    (operatorInsert OStream.fresh
        (Book.Book "T".toList "A".toList "I".toList (Double.ofDecimal false 5 0))).out
      = "\"I\", \"T\", \"A\", 5".toList ∧
    ¬ isFixedPoint 2 (OStream.formatDouble OStream.fresh (Double.ofDecimal false 5 0)) ∧
    (operatorInsert OStream.fresh
        (Book.Book "T".toList "A".toList "I".toList (Double.ofDecimal false 1 10))).out
      = "\"I\", \"T\", \"A\", 1e+10".toList ∧
    ¬ isFixedPoint 2 (OStream.formatDouble OStream.fresh (Double.ofDecimal false 1 10)) := by
  have f1 : OStream.formatDouble OStream.fresh (Double.ofDecimal false 5 0) = "5".toList := by
    decide
  have f2 : OStream.formatDouble OStream.fresh (Double.ofDecimal false 1 10)
      = "1e+10".toList := by decide
  refine ⟨by decide, ?_, by decide, ?_⟩
  · rw [f1]; exact not_fixed_of_no_point 2 _ (by decide) (by decide)
  · rw [f2]; exact not_fixed_of_no_point 2 _ (by decide) (by decide)

/-- C10, amended.  `operator<<` writes the price as the stream formats a
`double` under its own format state; on a stream set to `std::fixed` a finite
price is written in fixed-point decimal notation with the stream's precision
as the number of fractional digits. -/
theorem C10_price_fixed_point (stream : OStream) (book : Book)
    (hfix : stream.floatfield = FloatField.fixed)
    (hfin : Double.isFinite book._price = true) :
    (operatorInsert stream book).out =
      stream.out ++ recordLine book._isbn book._title book._author
        (OStream.formatDouble stream book._price) ∧
    isFixedPoint stream.precision (OStream.formatDouble stream book._price) := by
  constructor
  · rw [operatorInsert_out]
    simp [recordLine, OStream.quotedText, escapeSpec_eq]
  · cases hp : book._price with
    | finite s m e => exact formatDouble_fixed_shape stream s m e hfix
    | inf n => rw [hp] at hfin; simp [Double.isFinite] at hfin
    | nan sn => rw [hp] at hfin; simp [Double.isFinite] at hfin

theorem C10_price_fixed_point_witness :
    ((operatorInsert (OStream.configuredByMain OStream.fresh)
        (Book.Book "T".toList "A".toList "I".toList (Double.ofDecimal false 5 0))).out =
      (OStream.configuredByMain OStream.fresh).out ++
        recordLine "I".toList "T".toList "A".toList
          (OStream.formatDouble (OStream.configuredByMain OStream.fresh)
            (Double.ofDecimal false 5 0)) ∧
     isFixedPoint 2
        (OStream.formatDouble (OStream.configuredByMain OStream.fresh)
          (Double.ofDecimal false 5 0))) ∧
    OStream.formatDouble (OStream.configuredByMain OStream.fresh) (Double.ofDecimal false 5 0)
      = "5.00".toList :=
  ⟨C10_price_fixed_point (OStream.configuredByMain OStream.fresh)
    (Book.Book "T".toList "A".toList "I".toList (Double.ofDecimal false 5 0)) rfl (by decide),
   by decide⟩


/-- C5. `operator==` is true exactly when the ISBNs, the titles and the
authors are identical and the two prices are the same number, exactly, with
no tolerance (the `==` of `double`: a NaN price equals nothing). -/
theorem C5_operatorEq_iff (a b : Book) :
    Book.operatorEq a b = true ↔
      a._isbn = b._isbn ∧ a._title = b._title ∧ a._author = b._author ∧
        Double.sameNumber a._price b._price := by
  rw [operatorEq_eq_true_iff, eq_iff_sameNumber]

theorem stringSpaceship_self (s : List Char) :
    stringSpaceship s s = weak_ordering.equivalent :=
  (stringSpaceship_eq_equivalent_iff s s).2 rfl

/-- With identical texts, `operator<=>` is decided by the price step alone. -/
theorem operatorSpaceship_same_texts (i t a : List Char) (p q : Double) :
    Book.operatorSpaceship ⟨i, t, a, p⟩ ⟨i, t, a, q⟩ =
      if floating_point_is_equal p q then weak_ordering.equivalent
      else if Double.lt p q then weak_ordering.less else weak_ordering.greater := by
  simp [Book.operatorSpaceship, stringSpaceship_self]

/-- C14. With identical ISBN, title and author: the prices 10.00000 and
10.00009 are `equivalent` in both argument orders; the prices 10.0000 and
10.0002 give `less` with 10.0000 on the left and `greater` with it on the
right. -/
theorem C14_tolerance_boundary (isbn title author : List Char) :
    Book.operatorSpaceship ⟨isbn, title, author, Double.ofDecimal false 1000000 (-5)⟩
        ⟨isbn, title, author, Double.ofDecimal false 1000009 (-5)⟩
      = weak_ordering.equivalent ∧
    Book.operatorSpaceship ⟨isbn, title, author, Double.ofDecimal false 1000009 (-5)⟩
        ⟨isbn, title, author, Double.ofDecimal false 1000000 (-5)⟩
      = weak_ordering.equivalent ∧
    Book.operatorSpaceship ⟨isbn, title, author, Double.ofDecimal false 100000 (-4)⟩
        ⟨isbn, title, author, Double.ofDecimal false 100002 (-4)⟩
      = weak_ordering.less ∧
    Book.operatorSpaceship ⟨isbn, title, author, Double.ofDecimal false 100002 (-4)⟩
        ⟨isbn, title, author, Double.ofDecimal false 100000 (-4)⟩
      = weak_ordering.greater := by
  simp only [operatorSpaceship_same_texts]
  decide

/-- C17. Each modifier leaves the record with the one field replaced by the
new value and the other three unchanged; the record it returns is the record
after the assignment, so a chain of modifiers accumulates on the same record. -/
theorem C17_modifiers (r : Book) (i t a : List Char) (p : Double) :
    (Book.setIsbn r i = { r with _isbn := i } ∧
      (Book.setIsbn r i)._isbn = i ∧ (Book.setIsbn r i)._title = r._title ∧
      (Book.setIsbn r i)._author = r._author ∧ (Book.setIsbn r i)._price = r._price) ∧
    ((Book.setTitle r t)._title = t ∧ (Book.setTitle r t)._isbn = r._isbn ∧
      (Book.setTitle r t)._author = r._author ∧ (Book.setTitle r t)._price = r._price) ∧
    ((Book.setAuthor r a)._author = a ∧ (Book.setAuthor r a)._isbn = r._isbn ∧
      (Book.setAuthor r a)._title = r._title ∧ (Book.setAuthor r a)._price = r._price) ∧
    ((Book.setPrice r p)._price = p ∧ (Book.setPrice r p)._isbn = r._isbn ∧
      (Book.setPrice r p)._title = r._title ∧ (Book.setPrice r p)._author = r._author) ∧
    Book.setPrice (Book.setAuthor (Book.setTitle (Book.setIsbn r i) t) a) p
      = ⟨i, t, a, p⟩ :=
  ⟨⟨rfl, rfl, rfl, rfl, rfl⟩, ⟨rfl, rfl, rfl, rfl⟩, ⟨rfl, rfl, rfl, rfl⟩, ⟨rfl, rfl, rfl, rfl⟩,
    rfl⟩

/-- A text orders before every proper extension of it. -/
theorem lexCompare_prefix (s : List Char) (c : Char) (rest : List Char) :
    lexCompare s (s ++ c :: rest) = weak_ordering.less := by
  induction s with
  | nil => rfl
  | cons x xs ih => simp [lexCompare, ih]

/-- C18. With the same ISBN, an empty title orders before a non-empty one;
in general a text that is a proper prefix of another (the empty text
included) orders before it under `std::string`'s `<=>`; and the comparison is
by character code, so `Z` orders before `a`. -/
theorem C18_prefix_and_case (isbn author author2 : List Char) (p q : Double)
    (c : Char) (rest s : List Char) :
    Book.operatorSpaceship ⟨isbn, [], author, p⟩ ⟨isbn, c :: rest, author2, q⟩
      = weak_ordering.less ∧
    stringSpaceship s (s ++ c :: rest) = weak_ordering.less ∧
    stringSpaceship [] (c :: rest) = weak_ordering.less ∧
    stringSpaceship "Z".toList "a".toList = weak_ordering.less ∧
    stringSpaceship "a".toList "Z".toList = weak_ordering.greater := by
  refine ⟨?_, ?_, ?_, by decide, by decide⟩
  · have h : stringSpaceship [] (c :: rest) = weak_ordering.less := by
      rw [stringSpaceship_eq_lexCompare]; rfl
    simp [Book.operatorSpaceship, stringSpaceship_self, h]
  · rw [stringSpaceship_eq_lexCompare]; exact lexCompare_prefix s c rest
  · rw [stringSpaceship_eq_lexCompare]; rfl

theorem sameNumber_refl (a : Double) (h : Double.isNaN a = false) : Double.sameNumber a a := by
  cases a with
  | nan sn => simp [Double.isNaN] at h
  | inf n => simp [Double.sameNumber]
  | finite s m e => simp [Double.sameNumber]

theorem sameNumber_symm (a b : Double) (h : Double.sameNumber a b) : Double.sameNumber b a := by
  cases a <;> cases b <;> simp_all [Double.sameNumber]

theorem sameNumber_trans (a b c : Double) (h1 : Double.sameNumber a b)
    (h2 : Double.sameNumber b c) : Double.sameNumber a c := by
  cases a <;> cases b <;> cases c <;> simp_all [Double.sameNumber]

/-- C16, as stated, fails: a record whose price is a NaN is not `==` to
itself, because no `double` comparison with a NaN holds. -/
theorem C16_nan_not_reflexive :
    Book.operatorEq (Book.Book "T".toList "A".toList "I".toList (Double.nan false))
      (Book.Book "T".toList "A".toList "I".toList (Double.nan false)) = false := by
  decide

/-- C16, amended.  `operator==` is symmetric and transitive on all records,
and `r == r` is true for every record whose price is not a NaN. -/
theorem C16_operatorEq_equivalence (r s t : Book) :
    (Double.isNaN r._price = false → Book.operatorEq r r = true) ∧
    (Book.operatorEq r s = true → Book.operatorEq s r = true) ∧
    (Book.operatorEq r s = true → Book.operatorEq s t = true → Book.operatorEq r t = true) := by
  refine ⟨?_, ?_, ?_⟩
  · intro h
    rw [operatorEq_eq_true_iff, eq_iff_sameNumber]
    exact ⟨rfl, rfl, rfl, sameNumber_refl _ h⟩
  · simp only [operatorEq_eq_true_iff, eq_iff_sameNumber]
    rintro ⟨h1, h2, h3, h4⟩
    exact ⟨h1.symm, h2.symm, h3.symm, sameNumber_symm _ _ h4⟩
  · simp only [operatorEq_eq_true_iff, eq_iff_sameNumber]
    rintro ⟨h1, h2, h3, h4⟩ ⟨k1, k2, k3, k4⟩
    exact ⟨h1.trans k1, h2.trans k2, h3.trans k3, sameNumber_trans _ _ _ h4 k4⟩

/-! ## Failure of the extractors -/

theorem dropWhile_isspace_of_all (l : List Char) (h : l.all isspace = true) :
    l.dropWhile isspace = [] := dropWhile_all isspace l h

/-- The sentry refuses a stream that is not good, and one with `skipws` set
and only whitespace left; either way `failbit` is set. -/
theorem sentry_refuses (s : IStream)
    (h : s.good = false ∨ (s.skipws = true ∧ s.exhausted = true)) :
    (IStream.sentry s).2 = false ∧ (IStream.sentry s).1.failbit = true ∧
      (IStream.sentry s).1.skipws = s.skipws := by
  unfold IStream.sentry
  by_cases hg : s.good = true
  · rcases h with h | ⟨h1, h2⟩
    · rw [hg] at h; cases h
    · simp [hg, h1, dropWhile_isspace_of_all s.buf h2]
  · simp [hg]

theorem sentry_skipws (s : IStream) : (IStream.sentry s).1.skipws = s.skipws := by
  unfold IStream.sentry
  split
  · split
    · split <;> rfl
    · rfl
  · rfl

theorem sentry_ok_good (s : IStream) (h : (IStream.sentry s).2 = true) :
    (IStream.sentry s).1.eofbit = false ∧ (IStream.sentry s).1.failbit = false := by
  unfold IStream.sentry at h ⊢
  by_cases hg : s.good = true
  · have hg' := hg
    simp only [IStream.good, Bool.and_eq_true, Bool.not_eq_true'] at hg'
    rw [if_pos hg] at h ⊢
    by_cases hs : s.skipws = true
    · rw [if_pos hs] at h ⊢
      split at h
      · simp at h
      · rename_i c rest hd
        simp only [hd]; exact hg'
    · rw [if_neg hs]; exact hg'
  · rw [if_neg hg] at h; simp at h

theorem getChar_refuses (s : IStream)
    (h : s.good = false ∨ (s.skipws = true ∧ s.exhausted = true)) :
    (IStream.getChar s).1.failbit = true := by
  obtain ⟨h1, h2, -⟩ := sentry_refuses s h
  unfold IStream.getChar
  cases hs : IStream.sentry s with
  | mk s1 ok =>
    rw [hs] at h1 h2
    simp only at h1 h2
    subst h1
    exact h2

theorem getChar_skipws (s : IStream) : (IStream.getChar s).1.skipws = s.skipws := by
  have := sentry_skipws s
  unfold IStream.getChar
  cases hs : IStream.sentry s with
  | mk s1 ok =>
    rw [hs] at this
    cases ok
    · exact this
    · simp only
      split <;> exact this

theorem getChar_some_good (s s1 : IStream) (c : Char)
    (h : IStream.getChar s = (s1, some c)) : s1.good = true := by
  unfold IStream.getChar at h
  cases hs : IStream.sentry s with
  | mk s0 ok =>
    rw [hs] at h
    cases ok
    · simp at h
    · have hg := sentry_ok_good s (by rw [hs])
      rw [hs] at hg
      simp only at h hg
      split at h
      · simp at h
      · rename_i d rest hb
        simp only [Prod.mk.injEq, Option.some.injEq] at h
        rw [← h.1]
        simp [IStream.good, hg.1, hg.2]

theorem getWord_refuses (s : IStream) (str : List Char)
    (h : s.good = false ∨ (s.skipws = true ∧ s.exhausted = true)) :
    (IStream.getWord s str).1.failbit = true := by
  obtain ⟨h1, h2, -⟩ := sentry_refuses s h
  unfold IStream.getWord
  cases hs : IStream.sentry s with
  | mk s1 ok =>
    rw [hs] at h1 h2
    simp only at h1 h2
    subst h1
    exact h2

theorem getWord_skipws (s : IStream) (str : List Char) :
    (IStream.getWord s str).1.skipws = s.skipws := by
  have := sentry_skipws s
  unfold IStream.getWord
  cases hs : IStream.sentry s with
  | mk s1 ok =>
    rw [hs] at this
    cases ok <;> exact this

theorem getQuoted_refuses (s : IStream) (str : List Char)
    (h : s.good = false ∨ (s.skipws = true ∧ s.exhausted = true)) :
    (IStream.getQuoted s str).1.failbit = true := by
  have hc := getChar_refuses s h
  unfold IStream.getQuoted
  cases hg : IStream.getChar s with
  | mk s1 oc =>
    rw [hg] at hc
    cases oc with
    | none => exact hc
    | some c =>
      have := getChar_some_good s s1 c hg
      simp only [IStream.good, Bool.and_eq_true, Bool.not_eq_true'] at this
      simp only at hc
      rw [this.2] at hc
      cases hc

theorem getQuoted_skipws (s : IStream) (str : List Char) :
    (IStream.getQuoted s str).1.skipws = s.skipws := by
  have hc := getChar_skipws s
  unfold IStream.getQuoted
  cases hg : IStream.getChar s with
  | mk s1 oc =>
    rw [hg] at hc
    simp only at hc
    cases oc with
    | none => exact hc
    | some c =>
      simp only
      split
      · exact hc
      · split
        · rw [getWord_skipws]; exact hc
        · split <;> exact hc

theorem getDouble_refuses (s : IStream) (v : Double)
    (h : s.good = false ∨ (s.skipws = true ∧ s.exhausted = true)) :
    (IStream.getDouble s v).1.failbit = true := by
  obtain ⟨h1, h2, -⟩ := sentry_refuses s h
  unfold IStream.getDouble
  cases hs : IStream.sentry s with
  | mk s1 ok =>
    rw [hs] at h1 h2
    simp only at h1 h2
    subst h1
    exact h2

theorem not_good_of_failbit (s : IStream) (h : s.failbit = true) : s.good = false := by
  simp [IStream.good, h]

theorem operatorExtract_stream (dflt old : Book) (stream : IStream) :
    (operatorExtract dflt stream old).1
      = (IStream.getDouble (priceStream dflt stream) dflt._price).1 := by
  unfold operatorExtract priceStream
  simp only
  split <;> rfl

/-- A failed `operator>>` leaves the record as it was. -/
theorem operatorExtract_failed (dflt old : Book) (stream : IStream)
    (h : (operatorExtract dflt stream old).1.failbit = true) :
    (operatorExtract dflt stream old).1.toBool = false ∧
      (operatorExtract dflt stream old).2 = old := by
  have hb : (operatorExtract dflt stream old).1.toBool = false := by
    simp [IStream.toBool, h]
  refine ⟨hb, ?_⟩
  unfold operatorExtract at hb ⊢
  simp only at hb ⊢
  split
  · rename_i hok
    rw [if_pos hok] at hb
    simp only at hb
    rw [hb] at hok
    cases hok
  · rfl

/-- Once a step of the chain finds the stream refused, the stream as the
price extraction finds it is failed or exhausted. -/
theorem priceStream_refused (dflt : Book) (stream : IStream) (hskip : stream.skipws = true)
    (h : ∃ s ∈ readSteps dflt stream, s.good = false ∨ s.exhausted = true) :
    (priceStream dflt stream).good = false ∨
      ((priceStream dflt stream).skipws = true ∧ (priceStream dflt stream).exhausted = true) := by
  obtain ⟨s, hs, hr⟩ := h
  -- names for the intermediate streams
  have k1 : (IStream.getQuoted stream dflt._isbn).1.skipws = true := by
    rw [getQuoted_skipws]; exact hskip
  have k2 : (IStream.getChar (IStream.getQuoted stream dflt._isbn).1).1.skipws = true := by
    rw [getChar_skipws]; exact k1
  have k3 : (IStream.getQuoted (IStream.getChar (IStream.getQuoted stream dflt._isbn).1).1
      dflt._title).1.skipws = true := by
    rw [getQuoted_skipws]; exact k2
  have k4 : (IStream.getChar (IStream.getQuoted (IStream.getChar
      (IStream.getQuoted stream dflt._isbn).1).1 dflt._title).1).1.skipws = true := by
    rw [getChar_skipws]; exact k3
  have k5 : (IStream.getQuoted (IStream.getChar (IStream.getQuoted (IStream.getChar
      (IStream.getQuoted stream dflt._isbn).1).1 dflt._title).1).1 dflt._author).1.skipws
      = true := by
    rw [getQuoted_skipws]; exact k4
  have k6 : (priceStream dflt stream).skipws = true := by
    unfold priceStream; rw [getChar_skipws]; exact k5
  have widen : ∀ t : IStream, t.skipws = true → (t.good = false ∨ t.exhausted = true) →
      (t.good = false ∨ (t.skipws = true ∧ t.exhausted = true)) := by
    intro t ht h
    rcases h with h | h
    · exact Or.inl h
    · exact Or.inr ⟨ht, h⟩
  have f1 : (stream.good = false ∨ stream.exhausted = true) →
      (IStream.getQuoted stream dflt._isbn).1.good = false := fun h =>
    not_good_of_failbit _ (getQuoted_refuses _ _ (widen _ hskip h))
  have f2 : (IStream.getQuoted stream dflt._isbn).1.good = false ∨
        (IStream.getQuoted stream dflt._isbn).1.exhausted = true →
      (IStream.getChar (IStream.getQuoted stream dflt._isbn).1).1.good = false := fun h =>
    not_good_of_failbit _ (getChar_refuses _ (widen _ k1 h))
  have f3 : (IStream.getChar (IStream.getQuoted stream dflt._isbn).1).1.good = false ∨
        (IStream.getChar (IStream.getQuoted stream dflt._isbn).1).1.exhausted = true →
      (IStream.getQuoted (IStream.getChar (IStream.getQuoted stream dflt._isbn).1).1
        dflt._title).1.good = false := fun h =>
    not_good_of_failbit _ (getQuoted_refuses _ _ (widen _ k2 h))
  have f4 : (IStream.getQuoted (IStream.getChar (IStream.getQuoted stream dflt._isbn).1).1
        dflt._title).1.good = false ∨
      (IStream.getQuoted (IStream.getChar (IStream.getQuoted stream dflt._isbn).1).1
        dflt._title).1.exhausted = true →
      (IStream.getChar (IStream.getQuoted (IStream.getChar
        (IStream.getQuoted stream dflt._isbn).1).1 dflt._title).1).1.good = false := fun h =>
    not_good_of_failbit _ (getChar_refuses _ (widen _ k3 h))
  have f5 : (IStream.getChar (IStream.getQuoted (IStream.getChar
        (IStream.getQuoted stream dflt._isbn).1).1 dflt._title).1).1.good = false ∨
      (IStream.getChar (IStream.getQuoted (IStream.getChar
        (IStream.getQuoted stream dflt._isbn).1).1 dflt._title).1).1.exhausted = true →
      (IStream.getQuoted (IStream.getChar (IStream.getQuoted (IStream.getChar
        (IStream.getQuoted stream dflt._isbn).1).1 dflt._title).1).1 dflt._author).1.good
        = false := fun h =>
    not_good_of_failbit _ (getQuoted_refuses _ _ (widen _ k4 h))
  have f6 : (IStream.getQuoted (IStream.getChar (IStream.getQuoted (IStream.getChar
        (IStream.getQuoted stream dflt._isbn).1).1 dflt._title).1).1 dflt._author).1.good
        = false ∨
      (IStream.getQuoted (IStream.getChar (IStream.getQuoted (IStream.getChar
        (IStream.getQuoted stream dflt._isbn).1).1 dflt._title).1).1 dflt._author).1.exhausted
        = true →
      (priceStream dflt stream).good = false := fun h =>
    not_good_of_failbit _ (getChar_refuses _ (widen _ k5 h))
  simp only [readSteps, List.mem_cons, List.mem_singleton, List.not_mem_nil, or_false] at hs
  rcases hs with rfl | rfl | rfl | rfl | rfl | rfl | rfl
  · exact Or.inl (f6 (Or.inl (f5 (Or.inl (f4 (Or.inl (f3 (Or.inl (f2 (Or.inl (f1 hr)))))))))))
  · exact Or.inl (f6 (Or.inl (f5 (Or.inl (f4 (Or.inl (f3 (Or.inl (f2 hr)))))))))
  · exact Or.inl (f6 (Or.inl (f5 (Or.inl (f4 (Or.inl (f3 hr)))))))
  · exact Or.inl (f6 (Or.inl (f5 (Or.inl (f4 hr)))))
  · exact Or.inl (f6 (Or.inl (f5 hr)))
  · exact Or.inl (f6 hr)
  · exact widen _ k6 hr

/-- The extraction of the price fails when what is left, after the
whitespace, does not begin with a number. -/
theorem getDouble_not_number (s : IStream) (v : Double) (hskip : s.skipws = true)
    (h : beginsWithNumber (s.buf.dropWhile isspace) = false) :
    (IStream.getDouble s v).1.failbit = true := by
  by_cases hg : s.good = true
  · cases hd : s.buf.dropWhile isspace with
    | nil =>
      apply getDouble_refuses s v (Or.inr ⟨hskip, ?_⟩)
      unfold IStream.exhausted
      rw [List.all_eq_true]
      intro c hc
      by_contra hn
      have : s.buf.dropWhile isspace ≠ [] := by
        intro h0
        have := List.dropWhile_eq_nil_iff.1 h0 c hc
        exact hn this
      exact this hd
    | cons c rest =>
      rw [hd] at h
      unfold beginsWithNumber at h
      unfold IStream.getDouble IStream.sentry
      simp only [hg, hskip, if_true, hd]
      cases hx : strtodAll (IStream.extractFloat (c :: rest)).1 with
      | none => simp [hx]
      | some w => rw [hx] at h; simp at h
  · exact getDouble_refuses s v (Or.inl (by simpa using hg))

/-! ## The default-constructed record plays no part -/

theorem getChar_none_failbit (s s1 : IStream) (h : IStream.getChar s = (s1, none)) :
    s1.failbit = true := by
  unfold IStream.getChar at h
  cases hs : IStream.sentry s with
  | mk s0 ok =>
    rw [hs] at h
    cases ok
    · simp only [Prod.mk.injEq, and_true] at h
      have := sentry_ok_good s
      by_cases hr : s.good = false ∨ (s.skipws = true ∧ s.exhausted = true)
      · have := (sentry_refuses s hr).2.1
        rw [hs] at this; rw [← h]; exact this
      · -- the sentry accepted nothing it should have refused
        exfalso
        simp only [not_or, not_and, Bool.not_eq_false, Bool.not_eq_true] at hr
        unfold IStream.sentry at hs
        rw [if_pos hr.1] at hs
        by_cases hk : s.skipws = true
        · rw [if_pos hk] at hs
          split at hs
          · rename_i hd
            have : s.exhausted = true := by
              unfold IStream.exhausted
              rw [List.all_eq_true]
              intro c hc
              exact List.dropWhile_eq_nil_iff.1 hd c hc
            rw [hr.2 hk] at this; cases this
          · simp at hs
        · rw [if_neg hk] at hs; simp at hs
    · simp only at h
      split at h
      · simp only [Prod.mk.injEq, and_true] at h
        rw [← h]
      · simp at h

theorem getWord_indep (s : IStream) (x y : List Char) :
    (IStream.getWord s x).1 = (IStream.getWord s y).1 ∧
      ((IStream.getWord s x).1.failbit = false →
        (IStream.getWord s x).2 = (IStream.getWord s y).2) := by
  unfold IStream.getWord
  cases hs : IStream.sentry s with
  | mk s1 ok =>
    cases ok
    · refine ⟨rfl, ?_⟩
      intro h
      simp only at h
      by_cases hr : s.good = false ∨ (s.skipws = true ∧ s.exhausted = true)
      · have := (sentry_refuses s hr).2.1
        rw [hs] at this; simp only at this; rw [this] at h; cases h
      · exfalso
        simp only [not_or, not_and, Bool.not_eq_false, Bool.not_eq_true] at hr
        unfold IStream.sentry at hs
        rw [if_pos hr.1] at hs
        by_cases hk : s.skipws = true
        · rw [if_pos hk] at hs
          split at hs
          · simp only [Prod.mk.injEq] at hs
            rw [← hs.1] at h; simp at h
          · simp at hs
        · rw [if_neg hk] at hs; simp at hs
    · exact ⟨rfl, fun _ => rfl⟩

theorem getQuoted_indep (s : IStream) (x y : List Char) :
    (IStream.getQuoted s x).1 = (IStream.getQuoted s y).1 ∧
      ((IStream.getQuoted s x).1.failbit = false →
        (IStream.getQuoted s x).2 = (IStream.getQuoted s y).2) := by
  unfold IStream.getQuoted
  cases hg : IStream.getChar s with
  | mk s1 oc =>
    cases oc with
    | none =>
      refine ⟨rfl, ?_⟩
      intro h
      simp only at h
      rw [getChar_none_failbit s s1 hg] at h; cases h
    | some c =>
      have hgood := getChar_some_good s s1 c hg
      simp only [hgood, Bool.not_true, Bool.false_eq_true, if_false]
      split
      · exact getWord_indep _ x y
      · split <;> exact ⟨rfl, fun _ => rfl⟩

theorem getDouble_indep (s : IStream) (x y : Double) :
    (IStream.getDouble s x).1 = (IStream.getDouble s y).1 ∧
      ((IStream.getDouble s x).1.failbit = false →
        (IStream.getDouble s x).2 = (IStream.getDouble s y).2) := by
  unfold IStream.getDouble
  cases hs : IStream.sentry s with
  | mk s1 ok =>
    cases ok
    · refine ⟨rfl, ?_⟩
      intro h
      simp only at h
      by_cases hr : s.good = false ∨ (s.skipws = true ∧ s.exhausted = true)
      · have := (sentry_refuses s hr).2.1
        rw [hs] at this; simp only at this; rw [this] at h; cases h
      · exfalso
        simp only [not_or, not_and, Bool.not_eq_false, Bool.not_eq_true] at hr
        unfold IStream.sentry at hs
        rw [if_pos hr.1] at hs
        by_cases hk : s.skipws = true
        · rw [if_pos hk] at hs
          split at hs
          · simp only [Prod.mk.injEq] at hs
            rw [← hs.1] at h; simp at h
          · simp at hs
        · rw [if_neg hk] at hs; simp at hs
    · exact ⟨rfl, fun _ => rfl⟩

theorem getChar_failbit (s : IStream) (h : s.failbit = true) :
    (IStream.getChar s).1.failbit = true :=
  getChar_refuses s (Or.inl (not_good_of_failbit s h))

theorem getQuoted_failbit (s : IStream) (x : List Char) (h : s.failbit = true) :
    (IStream.getQuoted s x).1.failbit = true :=
  getQuoted_refuses s x (Or.inl (not_good_of_failbit s h))

theorem getDouble_failbit (s : IStream) (x : Double) (h : s.failbit = true) :
    (IStream.getDouble s x).1.failbit = true :=
  getDouble_refuses s x (Or.inl (not_good_of_failbit s h))

/-- The stream `operator>>` leaves, and the record it produces on success, do
not depend on the default-constructed record nor on the record held before. -/
theorem operatorExtract_indep (dflt dflt2 old old2 : Book) (stream : IStream) :
    (operatorExtract dflt stream old).1 = (operatorExtract dflt2 stream old2).1 ∧
      ((operatorExtract dflt stream old).1.toBool = true →
        (operatorExtract dflt stream old).2 = (operatorExtract dflt2 stream old2).2) := by
  obtain ⟨a1, a2⟩ := getQuoted_indep stream dflt._isbn dflt2._isbn
  generalize hA : IStream.getQuoted stream dflt._isbn = A at a1 a2
  generalize hA2 : IStream.getQuoted stream dflt2._isbn = A2 at a1 a2
  obtain ⟨c1, c2⟩ := getQuoted_indep (IStream.getChar A.1).1 dflt._title dflt2._title
  generalize hC : IStream.getQuoted (IStream.getChar A.1).1 dflt._title = C at c1 c2
  generalize hC2 : IStream.getQuoted (IStream.getChar A.1).1 dflt2._title = C2 at c1 c2
  obtain ⟨e1, e2⟩ := getQuoted_indep (IStream.getChar C.1).1 dflt._author dflt2._author
  generalize hE : IStream.getQuoted (IStream.getChar C.1).1 dflt._author = E at e1 e2
  generalize hE2 : IStream.getQuoted (IStream.getChar C.1).1 dflt2._author = E2 at e1 e2
  obtain ⟨g1, g2⟩ := getDouble_indep (IStream.getChar E.1).1 dflt._price dflt2._price
  generalize hG : IStream.getDouble (IStream.getChar E.1).1 dflt._price = G at g1 g2
  generalize hG2 : IStream.getDouble (IStream.getChar E.1).1 dflt2._price = G2 at g1 g2
  have lhs : operatorExtract dflt stream old
      = if G.1.toBool then (G.1, ⟨A.2, C.2, E.2, G.2⟩) else (G.1, old) := by
    unfold operatorExtract
    simp only [hA, hC, hE, hG]
  have rhs : operatorExtract dflt2 stream old2
      = if G2.1.toBool then (G2.1, ⟨A2.2, C2.2, E2.2, G2.2⟩) else (G2.1, old2) := by
    unfold operatorExtract
    simp only [hA2, ← a1, hC2, ← c1, hE2, ← e1, hG2]
  rw [lhs, rhs, ← g1]
  constructor
  · split <;> rfl
  · intro h
    have hG0 : G.1.toBool = true := by
      split at h
      · assumption
      · assumption
    have fG : G.1.failbit = false := by simpa [IStream.toBool] using hG0
    -- no earlier step had failed
    have fE : E.1.failbit = false := by
      by_contra hc
      have hc' : E.1.failbit = true := by simpa using hc
      have := getDouble_failbit _ dflt._price (getChar_failbit _ hc')
      rw [hG, fG] at this; cases this
    have fC : C.1.failbit = false := by
      by_contra hc
      have hc' : C.1.failbit = true := by simpa using hc
      have := getQuoted_failbit _ dflt._author (getChar_failbit _ hc')
      rw [hE, fE] at this; cases this
    have fA : A.1.failbit = false := by
      by_contra hc
      have hc' : A.1.failbit = true := by simpa using hc
      have := getQuoted_failbit _ dflt._title (getChar_failbit _ hc')
      rw [hC, fC] at this; cases this
    rw [if_pos hG0, if_pos hG0, a2 fA, c2 fC, e2 fE, g2 fG]

/-- For a given default-constructed record, a successful `operator>>` gives
the same stream and record for every other one. -/
theorem operatorExtract_of_success (dflt old dflt2 old2 : Book) (stream : IStream)
    (s : IStream) (r : Book) (h : operatorExtract dflt stream old = (s, r))
    (hs : s.toBool = true) : operatorExtract dflt2 stream old2 = (s, r) := by
  obtain ⟨i1, i2⟩ := operatorExtract_indep dflt dflt2 old old2 stream
  rw [h] at i1 i2
  simp only at i1 i2
  have := i2 hs
  cases hx : operatorExtract dflt2 stream old2 with
  | mk s2 r2 =>
    rw [hx] at i1 this
    simp only at i1 this
    rw [← i1, ← this]

/-! ## Malformed and truncated input -/

/-- When a step of the chain finds the stream not good or exhausted,
`operator>>` fails and keeps the record. -/
theorem operatorExtract_refused (dflt old : Book) (stream : IStream)
    (hskip : stream.skipws = true)
    (h : ∃ s ∈ readSteps dflt stream, s.good = false ∨ s.exhausted = true) :
    (operatorExtract dflt stream old).1.toBool = false ∧
      (operatorExtract dflt stream old).2 = old := by
  apply operatorExtract_failed
  rw [operatorExtract_stream]
  exact getDouble_refuses _ _ (priceStream_refused dflt stream hskip h)

theorem quotedLoop_acc (body acc : List Char) :
    (IStream.quotedLoop body acc).2.2 = (IStream.quotedLoop body []).2.2 := by
  suffices h : ∀ n (body acc acc2 : List Char), body.length ≤ n →
      (IStream.quotedLoop body acc).2.2 = (IStream.quotedLoop body acc2).2.2 from
    h body.length body acc [] (Nat.le_refl _)
  intro n
  induction n with
  | zero =>
    intro body acc acc2 hl
    have : body = [] := List.length_eq_zero.1 (Nat.le_zero.1 hl)
    subst this; simp [IStream.quotedLoop]
  | succ n ih =>
    intro body acc acc2 hl
    cases body with
    | nil => simp [IStream.quotedLoop]
    | cons c rest =>
      by_cases h1 : c = '\\'
      · subst h1
        cases rest with
        | nil => simp [IStream.quotedLoop]
        | cons d rest2 =>
          rw [quotedLoop_escape, quotedLoop_escape]
          exact ih rest2 _ _ (by simp only [List.length_cons] at hl; omega)
      · by_cases h2 : c = '"'
        · subst h2; rw [quotedLoop_delim, quotedLoop_delim]
        · rw [quotedLoop_plain c rest acc h2 h1, quotedLoop_plain c rest acc2 h2 h1]
          exact ih rest _ _ (by simp only [List.length_cons] at hl; omega)

/-- A rest of input without any double quote closes no field. -/
theorem closesQuoted_of_no_quote (body : List Char) (h : '"' ∉ body) :
    closesQuoted body = false := by
  unfold closesQuoted
  suffices hs : ∀ n (body : List Char), body.length ≤ n → '"' ∉ body →
      (IStream.quotedLoop body []).2.2 = false from hs body.length body (Nat.le_refl _) h
  intro n
  induction n with
  | zero =>
    intro body hl _
    have : body = [] := List.length_eq_zero.1 (Nat.le_zero.1 hl)
    subst this; simp [IStream.quotedLoop]
  | succ n ih =>
    intro body hl hq
    cases body with
    | nil => simp [IStream.quotedLoop]
    | cons c rest =>
      have hc : c ≠ '"' := fun e => hq (by rw [e]; simp)
      have hr : '"' ∉ rest := fun e => hq (List.mem_cons_of_mem _ e)
      by_cases h1 : c = '\\'
      · subst h1
        cases rest with
        | nil => simp [IStream.quotedLoop]
        | cons d rest2 =>
          rw [quotedLoop_escape, quotedLoop_acc]
          exact ih rest2 (by simp only [List.length_cons] at hl; omega)
            (fun e => hr (List.mem_cons_of_mem _ e))
      · rw [quotedLoop_plain c rest [] hc h1, quotedLoop_acc]
        exact ih rest (by simp only [List.length_cons] at hl; omega) hr

/-- Reading a quoted field that no double quote closes: the stream fails. -/
theorem getQuoted_unterminated (blank : Bool) (body old : List Char)
    (h : closesQuoted body = false) :
    (IStream.getQuoted
        { buf := (if blank then [' '] else []) ++ '"' :: body,
          eofbit := false, failbit := false, skipws := true } old).1.failbit = true := by
  have hd : List.dropWhile isspace ((if blank then [' '] else []) ++ '"' :: body)
      = '"' :: body := by
    cases blank <;> simp [List.dropWhile, isspace]
  unfold closesQuoted at h
  simp only [IStream.getQuoted, IStream.getChar, IStream.sentry, IStream.good, hd]
  cases hq : IStream.quotedLoop body [] with
  | mk acc r =>
    cases r with
    | mk rest ok =>
      rw [hq] at h
      simp only at h
      subst h
      simp [hq]

theorem operatorExtract_unterminated_isbn (dflt old : Book) (body : List Char)
    (h : closesQuoted body = false) :
    (operatorExtract dflt (IStream.ofText ('"' :: body)) old).1.toBool = false ∧
      (operatorExtract dflt (IStream.ofText ('"' :: body)) old).2 = old := by
  apply operatorExtract_refused dflt old _ rfl
  refine ⟨(IStream.getQuoted (IStream.ofText ('"' :: body)) dflt._isbn).1, ?_, Or.inl ?_⟩
  · simp [readSteps]
  · apply not_good_of_failbit
    have := getQuoted_unterminated false body dflt._isbn h
    simpa [IStream.ofText] using this

theorem operatorExtract_unterminated_title (dflt old : Book) (isbn body : List Char)
    (h : closesQuoted body = false) :
    (operatorExtract dflt
        (IStream.ofText (OStream.quotedText isbn ++ (", ".toList ++ '"' :: body))) old).1.toBool
      = false ∧
    (operatorExtract dflt
        (IStream.ofText (OStream.quotedText isbn ++ (", ".toList ++ '"' :: body))) old).2
      = old := by
  apply operatorExtract_refused dflt old _ rfl
  refine ⟨(IStream.getQuoted (IStream.getChar (IStream.getQuoted
    (IStream.ofText (OStream.quotedText isbn ++ (", ".toList ++ '"' :: body)))
      dflt._isbn).1).1 dflt._title).1, ?_, Or.inl ?_⟩
  · simp [readSteps]
  · apply not_good_of_failbit
    have q1 := getQuoted_quotedText false isbn (", ".toList ++ '"' :: body) dflt._isbn
    simp only [Bool.false_eq_true, if_false, List.nil_append] at q1
    have hs : ", ".toList = [',', ' '] := rfl
    unfold IStream.ofText
    rw [q1, hs]
    simp only [List.cons_append, List.nil_append, getChar_comma]
    have := getQuoted_unterminated true body dflt._title h
    simpa using this

theorem operatorExtract_unterminated_author (dflt old : Book) (isbn title body : List Char)
    (h : closesQuoted body = false) :
    (operatorExtract dflt
        (IStream.ofText (OStream.quotedText isbn ++ (", ".toList ++
          (OStream.quotedText title ++ (", ".toList ++ '"' :: body))))) old).1.toBool
      = false ∧
    (operatorExtract dflt
        (IStream.ofText (OStream.quotedText isbn ++ (", ".toList ++
          (OStream.quotedText title ++ (", ".toList ++ '"' :: body))))) old).2
      = old := by
  apply operatorExtract_refused dflt old _ rfl
  refine ⟨(IStream.getQuoted (IStream.getChar (IStream.getQuoted (IStream.getChar
    (IStream.getQuoted
      (IStream.ofText (OStream.quotedText isbn ++ (", ".toList ++
          (OStream.quotedText title ++ (", ".toList ++ '"' :: body)))))
      dflt._isbn).1).1 dflt._title).1).1 dflt._author).1, ?_, Or.inl ?_⟩
  · simp [readSteps]
  · apply not_good_of_failbit
    have q1 := getQuoted_quotedText false isbn
    simp only [Bool.false_eq_true, if_false, List.nil_append] at q1
    have q2 := getQuoted_quotedText true title
    simp only [if_true, List.singleton_append] at q2
    have hs : ", ".toList = [',', ' '] := rfl
    unfold IStream.ofText
    rw [q1, hs]
    simp only [List.cons_append, List.nil_append, getChar_comma, q2]
    have := getQuoted_unterminated true body dflt._author h
    simpa using this

/-- C11, amended.  When a text field is opened by a double quote that no
unescaped double quote closes before the end of the input (in particular when
no double quote follows at all), `operator>>` fails and keeps the record held
before; this holds for the ISBN, for the title after a well-formed ISBN, and
for the author after a well-formed ISBN and title. -/
theorem C11_unterminated_field_fails (dflt old : Book) (isbn title body : List Char)
    (h : closesQuoted body = false) :
    ((operatorExtract dflt (IStream.ofText ('"' :: body)) old).1.toBool = false ∧
      (operatorExtract dflt (IStream.ofText ('"' :: body)) old).2 = old) ∧
    ((operatorExtract dflt
        (IStream.ofText (OStream.quotedText isbn ++ (", ".toList ++ '"' :: body))) old).1.toBool
        = false ∧
      (operatorExtract dflt
        (IStream.ofText (OStream.quotedText isbn ++ (", ".toList ++ '"' :: body))) old).2
        = old) ∧
    ((operatorExtract dflt
        (IStream.ofText (OStream.quotedText isbn ++ (", ".toList ++
          (OStream.quotedText title ++ (", ".toList ++ '"' :: body))))) old).1.toBool
        = false ∧
      (operatorExtract dflt
        (IStream.ofText (OStream.quotedText isbn ++ (", ".toList ++
          (OStream.quotedText title ++ (", ".toList ++ '"' :: body))))) old).2
        = old) :=
  ⟨operatorExtract_unterminated_isbn dflt old body h,
   operatorExtract_unterminated_title dflt old isbn body h,
   operatorExtract_unterminated_author dflt old isbn title body h⟩

/-- C11, as stated, fails.  A field written with no quotes at all is read as
a plain word: `123, "Title", "Author", 9.99` decodes successfully (with the
ISBN `123,` and the price 0.99).  A first field without its closing quote,
`"123, "Title", "Author", 9.99`, decodes successfully too, the ISBN running to
the next double quote. -/
theorem C11_unquoted_field_accepted :
    (∀ dflt old : Book,
      operatorExtract dflt (IStream.ofText "123, \"Title\", \"Author\", 9.99".toList) old
        = ({ buf := [], eofbit := true, failbit := false, skipws := true },
           { _isbn := "123,".toList, _title := "Title\",".toList,
             _author := "Author\",".toList, _price := Double.ofDecimal false 99 (-2) })) ∧
    (∀ dflt old : Book,
      operatorExtract dflt (IStream.ofText "\"123, \"Title\", \"Author\", 9.99".toList) old
        = ({ buf := [], eofbit := true, failbit := false, skipws := true },
           { _isbn := "123, ".toList, _title := "itle\",".toList,
             _author := "Author\",".toList, _price := Double.ofDecimal false 99 (-2) })) := by
  constructor
  · intro dflt old
    exact operatorExtract_of_success (Book.Book [] [] [] (Double.nan false))
      (Book.Book [] [] [] (Double.nan false)) dflt old _ _ _ (by decide) (by decide)
  · intro dflt old
    exact operatorExtract_of_success (Book.Book [] [] [] (Double.nan false))
      (Book.Book [] [] [] (Double.nan false)) dflt old _ _ _ (by decide) (by decide)

theorem C11_unterminated_field_fails_witness :
    ((operatorExtract (Book.Book [] [] [] (Double.finite false 0 (-1074)))
        (IStream.ofText ('"' :: "123, Title, Author, 9.99".toList))
        (Book.Book "Old Title".toList "Old Author".toList "Old ISBN".toList
          (Double.ofDecimal false 500 (-2)))).1.toBool = false ∧
      (operatorExtract (Book.Book [] [] [] (Double.finite false 0 (-1074)))
        (IStream.ofText ('"' :: "123, Title, Author, 9.99".toList))
        (Book.Book "Old Title".toList "Old Author".toList "Old ISBN".toList
          (Double.ofDecimal false 500 (-2)))).2
        = Book.Book "Old Title".toList "Old Author".toList "Old ISBN".toList
          (Double.ofDecimal false 500 (-2))) :=
  (C11_unterminated_field_fails (Book.Book [] [] [] (Double.finite false 0 (-1074)))
    (Book.Book "Old Title".toList "Old Author".toList "Old ISBN".toList
      (Double.ofDecimal false 500 (-2)))
    "123".toList "Title".toList "123, Title, Author, 9.99".toList (by decide)).1

/-- C12. When the input ends before all four fields have been read (some
extraction of the chain finds nothing but whitespace left), or when what is
left for the price does not begin with a number, `operator>>` leaves the
stream failed and produces no record: the record held before is kept. -/
theorem C12_premature_end_fails (dflt old : Book) (text : List Char)
    (h : (∃ s ∈ readSteps dflt (IStream.ofText text), s.exhausted = true) ∨
      beginsWithNumber ((priceStream dflt (IStream.ofText text)).buf.dropWhile isspace)
        = false) :
    (operatorExtract dflt (IStream.ofText text) old).1.toBool = false ∧
      (operatorExtract dflt (IStream.ofText text) old).2 = old := by
  rcases h with ⟨s, hs, he⟩ | h
  · exact operatorExtract_refused dflt old _ rfl ⟨s, hs, Or.inr he⟩
  · apply operatorExtract_failed
    rw [operatorExtract_stream]
    apply getDouble_not_number _ _ _ h
    unfold priceStream
    rw [getChar_skipws, getQuoted_skipws, getChar_skipws, getQuoted_skipws, getChar_skipws,
      getQuoted_skipws]
    rfl

theorem C12_premature_end_fails_witness :
    ((operatorExtract (Book.Book [] [] [] (Double.finite false 0 (-1074)))
        (IStream.ofText "\"123\", \"Title\"".toList)
        (Book.Book "Old Title".toList "Old Author".toList "Old ISBN".toList
          (Double.ofDecimal false 500 (-2)))).1.toBool = false ∧
      (operatorExtract (Book.Book [] [] [] (Double.finite false 0 (-1074)))
        (IStream.ofText "\"123\", \"Title\"".toList)
        (Book.Book "Old Title".toList "Old Author".toList "Old ISBN".toList
          (Double.ofDecimal false 500 (-2)))).2
        = Book.Book "Old Title".toList "Old Author".toList "Old ISBN".toList
          (Double.ofDecimal false 500 (-2))) ∧
    ((operatorExtract (Book.Book [] [] [] (Double.finite false 0 (-1074)))
        (IStream.ofText "\"123\", \"Title\", \"Author\", abc".toList)
        (Book.Book "Old Title".toList "Old Author".toList "Old ISBN".toList
          (Double.ofDecimal false 500 (-2)))).1.toBool = false ∧
      (operatorExtract (Book.Book [] [] [] (Double.finite false 0 (-1074)))
        (IStream.ofText "\"123\", \"Title\", \"Author\", abc".toList)
        (Book.Book "Old Title".toList "Old Author".toList "Old ISBN".toList
          (Double.ofDecimal false 500 (-2)))).2
        = Book.Book "Old Title".toList "Old Author".toList "Old ISBN".toList
          (Double.ofDecimal false 500 (-2))) :=
  ⟨C12_premature_end_fails (Book.Book [] [] [] (Double.finite false 0 (-1074)))
      (Book.Book "Old Title".toList "Old Author".toList "Old ISBN".toList
        (Double.ofDecimal false 500 (-2)))
      "\"123\", \"Title\"".toList (Or.inl (by decide)),
   C12_premature_end_fails (Book.Book [] [] [] (Double.finite false 0 (-1074)))
      (Book.Book "Old Title".toList "Old Author".toList "Old ISBN".toList
        (Double.ofDecimal false 500 (-2)))
      "\"123\", \"Title\", \"Author\", abc".toList (Or.inr (by decide))⟩

/-! ## Separators -/

/-- Reading a spacer: any character that is not whitespace is taken. -/
theorem getChar_nonspace (c : Char) (rest : List Char) (hc : isspace c = false) :
    IStream.getChar { buf := c :: rest, eofbit := false, failbit := false, skipws := true }
      = ({ buf := rest, eofbit := false, failbit := false, skipws := true }, some c) := by
  simp [IStream.getChar, IStream.sentry, IStream.good, List.dropWhile, hc]

/-- A blank before the price changes nothing. -/
theorem getDouble_blank (p : List Char) (v : Double) :
    IStream.getDouble (IStream.ofText (' ' :: p)) v = IStream.getDouble (IStream.ofText p) v := by
  have hb : isspace ' ' = true := by decide
  have hs : IStream.sentry (IStream.ofText (' ' :: p)) = IStream.sentry (IStream.ofText p) := by
    simp only [IStream.sentry, IStream.ofText, IStream.good, List.dropWhile, hb, Bool.not_false,
      Bool.and_self, if_true]
  unfold IStream.getDouble
  rw [hs]

/-- Decoding three quoted fields separated by any three characters that are
not whitespace, each optionally followed by a blank: the fields are recovered,
and the price is what the extractor of `double` makes of the rest. -/
theorem operatorExtract_separatedLine (dflt old : Book) (i t a p : List Char)
    (c1 c2 c3 : Char) (b1 b2 b3 : Bool)
    (h1 : isspace c1 = false) (h2 : isspace c2 = false) (h3 : isspace c3 = false) :
    operatorExtract dflt
        (IStream.ofText (separatedLine (c1 :: (if b1 then [' '] else []))
          (c2 :: (if b2 then [' '] else [])) (c3 :: (if b3 then [' '] else [])) i t a p)) old =
      (if (IStream.getDouble (IStream.ofText p) dflt._price).1.toBool
       then ((IStream.getDouble (IStream.ofText p) dflt._price).1,
             { _isbn := i, _title := t, _author := a,
               _price := (IStream.getDouble (IStream.ofText p) dflt._price).2 })
       else ((IStream.getDouble (IStream.ofText p) dflt._price).1, old)) := by
  have hp : IStream.getDouble
      { buf := (if b3 then [' '] else []) ++ p, eofbit := false, failbit := false,
        skipws := true } dflt._price = IStream.getDouble (IStream.ofText p) dflt._price := by
    cases b3
    · rfl
    · exact getDouble_blank p dflt._price
  unfold operatorExtract separatedLine IStream.ofText
  have q1 := getQuoted_quotedText false i
  simp only [Bool.false_eq_true, if_false, List.nil_append] at q1
  have q2 := getQuoted_quotedText b1 t
  have q3 := getQuoted_quotedText b2 a
  simp only [List.cons_append, q1, getChar_nonspace _ _ h1, q2, getChar_nonspace _ _ h2, q3,
    getChar_nonspace _ _ h3, hp]
  rfl

theorem operatorExtract_separatedLine_fixed (dflt old : Book) (i t a sign ip fp : List Char)
    (c1 c2 c3 : Char) (b1 b2 b3 : Bool)
    (h1 : isspace c1 = false) (h2 : isspace c2 = false) (h3 : isspace c3 = false)
    (hsign : sign = [] ∨ sign = ['-'] ∨ sign = ['+'])
    (hip : ip.all Char.isDigit = true) (hne : ip ≠ [])
    (hfp : fp.all Char.isDigit = true)
    (hfin : (Double.ofDecimal (decide (sign = ['-'])) (digitsToNat (ip ++ fp))
              (0 - (fp.length : Int))).isFinite = true) :
    operatorExtract dflt
        (IStream.ofText (separatedLine (c1 :: (if b1 then [' '] else []))
          (c2 :: (if b2 then [' '] else [])) (c3 :: (if b3 then [' '] else [])) i t a
          (sign ++ ip ++ '.' :: fp))) old =
      ({ buf := [], eofbit := true, failbit := false, skipws := true },
       { _isbn := i, _title := t, _author := a,
         _price := Double.ofDecimal (decide (sign = ['-'])) (digitsToNat (ip ++ fp))
              (0 - (fp.length : Int)) }) := by
  rw [operatorExtract_separatedLine dflt old i t a _ c1 c2 c3 b1 b2 b3 h1 h2 h3,
    ← getDouble_blank, getDouble_fixed sign ip fp dflt._price hsign hip hne hfp hfin]
  rfl

theorem isspace_comma : isspace ',' = false := by decide

/-- C13. For all text fields and every price written as a decimal number,
decoding the line with bare commas as separators succeeds and yields the
same four field values as decoding the line with a comma and a blank; and
whatever stands in the place of the price, the two decodings have the same
outcome. -/
theorem C13_bare_comma_separators (dflt old : Book) (i t a sign ip fp : List Char)
    (hsign : sign = [] ∨ sign = ['-'] ∨ sign = ['+'])
    (hip : ip.all Char.isDigit = true) (hne : ip ≠ [])
    (hfp : fp.all Char.isDigit = true)
    (hfin : (Double.ofDecimal (decide (sign = ['-'])) (digitsToNat (ip ++ fp))
              (0 - (fp.length : Int))).isFinite = true) :
    operatorExtract dflt
        (IStream.ofText (separatedLine [','] [','] [','] i t a (sign ++ ip ++ '.' :: fp))) old =
      ({ buf := [], eofbit := true, failbit := false, skipws := true },
       { _isbn := i, _title := t, _author := a,
         _price := Double.ofDecimal (decide (sign = ['-'])) (digitsToNat (ip ++ fp))
              (0 - (fp.length : Int)) }) ∧
    operatorExtract dflt
        (IStream.ofText (separatedLine [',', ' '] [',', ' '] [',', ' '] i t a
          (sign ++ ip ++ '.' :: fp))) old =
      ({ buf := [], eofbit := true, failbit := false, skipws := true },
       { _isbn := i, _title := t, _author := a,
         _price := Double.ofDecimal (decide (sign = ['-'])) (digitsToNat (ip ++ fp))
              (0 - (fp.length : Int)) }) ∧
    (∀ p : List Char,
      operatorExtract dflt (IStream.ofText (separatedLine [','] [','] [','] i t a p)) old =
      operatorExtract dflt
        (IStream.ofText (separatedLine [',', ' '] [',', ' '] [',', ' '] i t a p)) old) := by
  refine ⟨?_, ?_, ?_⟩
  · exact operatorExtract_separatedLine_fixed dflt old i t a sign ip fp ',' ',' ',' false false
      false isspace_comma isspace_comma isspace_comma hsign hip hne hfp hfin
  · exact operatorExtract_separatedLine_fixed dflt old i t a sign ip fp ',' ',' ',' true true
      true isspace_comma isspace_comma isspace_comma hsign hip hne hfp hfin
  · intro p
    have e1 := operatorExtract_separatedLine dflt old i t a p ',' ',' ',' false false false
      isspace_comma isspace_comma isspace_comma
    have e2 := operatorExtract_separatedLine dflt old i t a p ',' ',' ',' true true true
      isspace_comma isspace_comma isspace_comma
    simp only [Bool.false_eq_true, if_false, if_true] at e1 e2
    rw [e1, e2]

theorem C13_bare_comma_separators_witness :
    operatorExtract (Book.Book [] [] [] (Double.finite false 0 (-1074)))
        (IStream.ofText (separatedLine [','] [','] [','] "9789998287532".toList
          "Over in the Meadow".toList "Ezra Jack Keats".toList
          ([] ++ "91".toList ++ '.' :: "11".toList)))
        (Book.Book [] [] [] (Double.finite false 0 (-1074))) =
      ({ buf := [], eofbit := true, failbit := false, skipws := true },
       { _isbn := "9789998287532".toList, _title := "Over in the Meadow".toList,
         _author := "Ezra Jack Keats".toList,
         _price := Double.ofDecimal (decide (([] : List Char) = ['-']))
            (digitsToNat ("91".toList ++ "11".toList)) (0 - (("11".toList.length : Nat) : Int)) }) ∧
    separatedLine [','] [','] [','] "9789998287532".toList
          "Over in the Meadow".toList "Ezra Jack Keats".toList
          ([] ++ "91".toList ++ '.' :: "11".toList)
      = "\"9789998287532\",\"Over in the Meadow\",\"Ezra Jack Keats\",91.11".toList :=
  ⟨(C13_bare_comma_separators (Book.Book [] [] [] (Double.finite false 0 (-1074)))
      (Book.Book [] [] [] (Double.finite false 0 (-1074)))
      "9789998287532".toList "Over in the Meadow".toList "Ezra Jack Keats".toList
      [] "91".toList "11".toList (Or.inl rfl) (by decide) (by decide) (by decide)
      (by decide)).1,
   by decide⟩

/-- C20. `operator>>` takes any character that is not whitespace as a
separator: for all text fields, every price written as a decimal number and
every three such characters, decoding `"i"c1"t"c2"a"c3 p` succeeds and yields
the same four field values as decoding the comma-separated line; and whatever
stands in the place of the price, the two decodings have the same outcome. -/
theorem C20_any_separator (dflt old : Book) (i t a sign ip fp : List Char) (c1 c2 c3 : Char)
    (h1 : isspace c1 = false) (h2 : isspace c2 = false) (h3 : isspace c3 = false)
    (hsign : sign = [] ∨ sign = ['-'] ∨ sign = ['+'])
    (hip : ip.all Char.isDigit = true) (hne : ip ≠ [])
    (hfp : fp.all Char.isDigit = true)
    (hfin : (Double.ofDecimal (decide (sign = ['-'])) (digitsToNat (ip ++ fp))
              (0 - (fp.length : Int))).isFinite = true) :
    operatorExtract dflt
        (IStream.ofText (separatedLine [c1] [c2] [c3, ' '] i t a (sign ++ ip ++ '.' :: fp))) old =
      ({ buf := [], eofbit := true, failbit := false, skipws := true },
       { _isbn := i, _title := t, _author := a,
         _price := Double.ofDecimal (decide (sign = ['-'])) (digitsToNat (ip ++ fp))
              (0 - (fp.length : Int)) }) ∧
    operatorExtract dflt
        (IStream.ofText (separatedLine [',', ' '] [',', ' '] [',', ' '] i t a
          (sign ++ ip ++ '.' :: fp))) old =
      ({ buf := [], eofbit := true, failbit := false, skipws := true },
       { _isbn := i, _title := t, _author := a,
         _price := Double.ofDecimal (decide (sign = ['-'])) (digitsToNat (ip ++ fp))
              (0 - (fp.length : Int)) }) ∧
    (∀ p : List Char,
      operatorExtract dflt (IStream.ofText (separatedLine [c1] [c2] [c3, ' '] i t a p)) old =
      operatorExtract dflt
        (IStream.ofText (separatedLine [',', ' '] [',', ' '] [',', ' '] i t a p)) old) := by
  refine ⟨?_, ?_, ?_⟩
  · exact operatorExtract_separatedLine_fixed dflt old i t a sign ip fp c1 c2 c3 false false
      true h1 h2 h3 hsign hip hne hfp hfin
  · exact operatorExtract_separatedLine_fixed dflt old i t a sign ip fp ',' ',' ',' true true
      true isspace_comma isspace_comma isspace_comma hsign hip hne hfp hfin
  · intro p
    have e1 := operatorExtract_separatedLine dflt old i t a p c1 c2 c3 false false true
      h1 h2 h3
    have e2 := operatorExtract_separatedLine dflt old i t a p ',' ',' ',' true true true
      isspace_comma isspace_comma isspace_comma
    simp only [Bool.false_eq_true, if_false, if_true] at e1 e2
    rw [e1, e2]

theorem C20_any_separator_witness :
    operatorExtract (Book.Book [] [] [] (Double.finite false 0 (-1074)))
        (IStream.ofText (separatedLine [';'] ['x'] ['!', ' '] "9789998287532".toList
          "Over in the Meadow".toList "Ezra Jack Keats".toList
          ([] ++ "91".toList ++ '.' :: "11".toList)))
        (Book.Book [] [] [] (Double.finite false 0 (-1074))) =
      ({ buf := [], eofbit := true, failbit := false, skipws := true },
       { _isbn := "9789998287532".toList, _title := "Over in the Meadow".toList,
         _author := "Ezra Jack Keats".toList,
         _price := Double.ofDecimal (decide (([] : List Char) = ['-']))
            (digitsToNat ("91".toList ++ "11".toList)) (0 - (("11".toList.length : Nat) : Int)) }) ∧
    separatedLine [';'] ['x'] ['!', ' '] "9789998287532".toList
          "Over in the Meadow".toList "Ezra Jack Keats".toList
          ([] ++ "91".toList ++ '.' :: "11".toList)
      = "\"9789998287532\";\"Over in the Meadow\"x\"Ezra Jack Keats\"! 91.11".toList :=
  ⟨(C20_any_separator (Book.Book [] [] [] (Double.finite false 0 (-1074)))
      (Book.Book [] [] [] (Double.finite false 0 (-1074)))
      "9789998287532".toList "Over in the Meadow".toList "Ezra Jack Keats".toList
      [] "91".toList "11".toList ';' 'x' '!' (by decide) (by decide) (by decide)
      (Or.inl rfl) (by decide) (by decide) (by decide) (by decide)).1,
   by decide⟩

/-! ## Monotonicity of rounding -/

/-- At a tie the nearest integer chosen is the even one. -/
theorem roundHalfEven_tie_even (n d : Nat) (hd : 0 < d)
    (h : 2 * (roundHalfEven n d * d) = 2 * n + d ∨ 2 * n = 2 * (roundHalfEven n d * d) + d) :
    roundHalfEven n d % 2 = 0 := by
  have hdm := Nat.div_add_mod n d
  have hlt := Nat.mod_lt n hd
  have hmul : d * (n / d) = n / d * d := Nat.mul_comm _ _
  unfold roundHalfEven at h ⊢
  simp only at h ⊢
  split
  · rename_i h1
    rw [if_pos h1] at h
    omega
  · rename_i h1
    rw [if_neg h1] at h
    split
    · rename_i h2
      rw [if_pos h2, Nat.add_mul] at h
      omega
    · rename_i h2
      split
      · assumption
      · omega

/-- The nearest integer is monotone in the rational it rounds. -/
theorem roundHalfEven_mono (n d n2 d2 : Nat) (hd : 0 < d) (hd2 : 0 < d2)
    (h : (n : ℚ) / d ≤ (n2 : ℚ) / d2) : roundHalfEven n d ≤ roundHalfEven n2 d2 := by
  by_contra hc
  have hlt : roundHalfEven n2 d2 + 1 ≤ roundHalfEven n d := by omega
  have a1 := roundHalfEven_abs n d hd
  have a2 := roundHalfEven_abs n2 d2 hd2
  rw [abs_le] at a1 a2
  have hq : ((roundHalfEven n2 d2 : Nat) : ℚ) + 1 ≤ ((roundHalfEven n d : Nat) : ℚ) := by
    exact_mod_cast hlt
  -- both are ties, and the two integers are consecutive
  have e1 : ((roundHalfEven n d : Nat) : ℚ) - (n : ℚ) / d = 1 / 2 := by linarith [a1.2, a2.1]
  have e2 : ((roundHalfEven n2 d2 : Nat) : ℚ) - (n2 : ℚ) / d2 = -(1 / 2) := by
    linarith [a1.2, a2.1]
  have e3 : ((roundHalfEven n d : Nat) : ℚ) = ((roundHalfEven n2 d2 : Nat) : ℚ) + 1 := by
    linarith [a1.2, a2.1]
  have hdq : (0 : ℚ) < d := by exact_mod_cast hd
  have hdq2 : (0 : ℚ) < d2 := by exact_mod_cast hd2
  have t1 : 2 * (roundHalfEven n d * d) = 2 * n + d := by
    have : (2 : ℚ) * ((roundHalfEven n d : Nat) * d) = 2 * n + d := by
      have hx : (n : ℚ) / d * d = n := div_mul_cancel₀ _ (ne_of_gt hdq)
      have := congrArg (fun z => z * (d : ℚ)) e1
      simp only [sub_mul, hx] at this
      linarith
    exact_mod_cast this
  have t2 : 2 * n2 = 2 * (roundHalfEven n2 d2 * d2) + d2 := by
    have : (2 : ℚ) * n2 = 2 * ((roundHalfEven n2 d2 : Nat) * d2) + d2 := by
      have hx : (n2 : ℚ) / d2 * d2 = n2 := div_mul_cancel₀ _ (ne_of_gt hdq2)
      have := congrArg (fun z => z * (d2 : ℚ)) e2
      simp only [sub_mul, hx] at this
      linarith
    exact_mod_cast this
  have p1 := roundHalfEven_tie_even n d hd (Or.inl t1)
  have p2 := roundHalfEven_tie_even n2 d2 hd2 (Or.inr t2)
  have e4 : roundHalfEven n d = roundHalfEven n2 d2 + 1 := by exact_mod_cast e3
  omega

/-- `roundDiv2` as a nearest integer of one fraction. -/
theorem roundDiv2_eq (n d : Nat) (e : Int) :
    roundDiv2 n d e = roundHalfEven (if 0 ≤ e then n else n * pow2 (-e).toNat)
      (if 0 ≤ e then d * pow2 e.toNat else d) := by
  unfold roundDiv2
  split <;> rfl

theorem roundDiv2_frac (n d : Nat) (e : Int) (hd : 0 < d) :
    (((if 0 ≤ e then n else n * pow2 (-e).toNat : Nat) : ℚ))
        / ((if 0 ≤ e then d * pow2 e.toNat else d : Nat) : ℚ)
      = (n : ℚ) / d / (2 : ℚ) ^ e := by
  have hdq : (0 : ℚ) < d := by exact_mod_cast hd
  by_cases he : 0 ≤ e
  · simp only [he, if_true, Nat.cast_mul]
    rw [zpow2_of_nonneg e he, div_div]
  · simp only [he, if_false, Nat.cast_mul]
    rw [zpow2_of_neg e (by omega)]
    have hp : (0 : ℚ) < ((pow2 (-e).toNat : Nat) : ℚ) := by exact_mod_cast pow2_pos _
    field_simp

theorem roundDiv2_mono (n d n2 d2 : Nat) (e : Int) (hd : 0 < d) (hd2 : 0 < d2)
    (h : (n : ℚ) / d ≤ (n2 : ℚ) / d2) : roundDiv2 n d e ≤ roundDiv2 n2 d2 e := by
  rw [roundDiv2_eq, roundDiv2_eq]
  apply roundHalfEven_mono
  · split
    · exact Nat.mul_pos hd (pow2_pos _)
    · exact hd
  · split
    · exact Nat.mul_pos hd2 (pow2_pos _)
    · exact hd2
  · rw [roundDiv2_frac n d e hd, roundDiv2_frac n2 d2 e hd2]
    exact div_le_div_of_nonneg_right h (le_of_lt (two_zpow_pos e))

/-- The exponent `floorLog2Q` finds is monotone. -/
theorem floorLog2Q_mono (n d n2 d2 : Nat) (hn : 0 < n) (hd : 0 < d) (hn2 : 0 < n2)
    (hd2 : 0 < d2) (h : (n : ℚ) / d ≤ (n2 : ℚ) / d2) :
    floorLog2Q n d ≤ floorLog2Q n2 d2 := by
  obtain ⟨s1, -⟩ := floorLog2Q_spec n d hn hd
  obtain ⟨-, t2⟩ := floorLog2Q_spec n2 d2 hn2 hd2
  have : (2 : ℚ) ^ floorLog2Q n d < (2 : ℚ) ^ (floorLog2Q n2 d2 + 1) :=
    lt_of_le_of_lt (le_trans s1 h) t2
  rw [zpow_lt_zpow_iff_right₀ (by norm_num)] at this
  omega


/-- The significand before normalisation has at most 54 bits' worth: it is at
most `2^53`. -/
theorem mantissa_le (n d : Nat) (hn : 0 < n) (hd : 0 < d) :
    roundDiv2 n d (max (floorLog2Q n d - 52) (-1074)) ≤ 2 ^ 53 := by
  obtain ⟨-, s2⟩ := floorLog2Q_spec n d hn hd
  have hab := roundDiv2_abs n d (max (floorLog2Q n d - 52) (-1074)) hd
  have hpos := two_zpow_pos (max (floorLog2Q n d - 52) (-1074))
  have hy : (n : ℚ) / d / (2 : ℚ) ^ (max (floorLog2Q n d - 52) (-1074)) < (2 : ℚ) ^ (53 : Nat) := by
    rw [div_lt_iff₀ hpos, ← zpow_natCast, ← zpow_add₀ (by norm_num : (2 : ℚ) ≠ 0)]
    apply lt_of_lt_of_le s2
    apply zpow_le_zpow_right₀ (by norm_num)
    have := le_max_left (floorLog2Q n d - 52) (-1074)
    push_cast
    omega
  rw [abs_le] at hab
  have : (roundDiv2 n d (max (floorLog2Q n d - 52) (-1074)) : ℚ) < ((2 ^ 53 : Nat) : ℚ) + 1 := by
    push_cast; linarith [hab.2]
  have : roundDiv2 n d (max (floorLog2Q n d - 52) (-1074)) < 2 ^ 53 + 1 := by exact_mod_cast this
  omega

/-- Outside the subnormal range the significand has at least 53 bits. -/
theorem mantissa_ge (n d : Nat) (hn : 0 < n) (hd : 0 < d)
    (hl : -1074 ≤ floorLog2Q n d - 52) :
    2 ^ 52 ≤ roundDiv2 n d (max (floorLog2Q n d - 52) (-1074)) := by
  rw [max_eq_left hl]
  obtain ⟨s1, -⟩ := floorLog2Q_spec n d hn hd
  have hab := roundDiv2_abs n d (floorLog2Q n d - 52) hd
  have hpos := two_zpow_pos (floorLog2Q n d - 52)
  have hy1 : (2 : ℚ) ^ (52 : Nat) ≤ (n : ℚ) / d / (2 : ℚ) ^ (floorLog2Q n d - 52) := by
    rw [le_div_iff₀ hpos, ← zpow_natCast, ← zpow_add₀ (by norm_num : (2 : ℚ) ≠ 0)]
    have : ((52 : Nat) : Int) + (floorLog2Q n d - 52) = floorLog2Q n d := by push_cast; ring
    rw [this]; exact s1
  rw [abs_le] at hab
  have : ((2 ^ 52 : Nat) : ℚ) < (roundDiv2 n d (floorLog2Q n d - 52) : ℚ) + 1 := by
    push_cast; linarith [hab.1]
  have : 2 ^ 52 < roundDiv2 n d (floorLog2Q n d - 52) + 1 := by exact_mod_cast this
  omega

/-- The result of `roundQ` against the rounded value `M * 2^E` computed with
an unbounded exponent: an infinity when that value reaches `2^1024`, and
otherwise the finite number of that value. -/
theorem roundQ_value (neg : Bool) (n d : Nat) (hn : 0 < n) (hd : 0 < d) :
    (Double.roundQ neg n d = Double.inf neg ∧
      (2 : ℚ) ^ (1024 : Int)
        ≤ (roundDiv2 n d (max (floorLog2Q n d - 52) (-1074)) : ℚ)
            * (2 : ℚ) ^ (max (floorLog2Q n d - 52) (-1074))) ∨
    (∃ m e, Double.roundQ neg n d = Double.finite neg m e ∧
      (m : ℚ) * (2 : ℚ) ^ e
        = (roundDiv2 n d (max (floorLog2Q n d - 52) (-1074)) : ℚ)
            * (2 : ℚ) ^ (max (floorLog2Q n d - 52) (-1074)) ∧
      (roundDiv2 n d (max (floorLog2Q n d - 52) (-1074)) : ℚ)
            * (2 : ℚ) ^ (max (floorLog2Q n d - 52) (-1074)) < (2 : ℚ) ^ (1024 : Int)) := by
  have hle := mantissa_le n d hn hd
  rw [roundQ_of_pos neg n d hn]
  generalize hE : max (floorLog2Q n d - 52) (-1074) = E at hle ⊢
  generalize hM : roundDiv2 n d E = M at hle ⊢
  have hpE := two_zpow_pos E
  have h1024 : ∀ k : Int, (2 : ℚ) ^ (1024 : Int) = (2 : ℚ) ^ (1024 - k) * (2 : ℚ) ^ k := by
    intro k
    rw [← zpow_add₀ (by norm_num : (2 : ℚ) ≠ 0)]; congr 1; ring
  by_cases hc : M = pow2 53
  · rw [if_pos hc]
    have hMq : (M : ℚ) = (2 : ℚ) ^ (53 : Int) := by
      rw [hc, cast_pow2]; norm_num
    by_cases ho : 971 < E + 1
    · rw [if_pos ho]
      left
      refine ⟨rfl, ?_⟩
      rw [hMq, ← zpow_add₀ (by norm_num : (2 : ℚ) ≠ 0)]
      exact zpow_le_zpow_right₀ (by norm_num) (by omega)
    · rw [if_neg ho]
      right
      refine ⟨pow2 52, E + 1, rfl, ?_, ?_⟩
      · rw [hMq, cast_pow2, two_zpow_succ]
        have : (2 : ℚ) ^ (53 : Int) = 2 * (2 : ℚ) ^ ((52 : Nat) : Int) := by norm_num
        rw [this]; ring
      · rw [hMq, ← zpow_add₀ (by norm_num : (2 : ℚ) ≠ 0)]
        exact zpow_lt_zpow_right₀ (by norm_num) (by omega)
  · rw [if_neg hc]
    have hMlt : M < 2 ^ 53 := by
      rw [pow2_eq] at hc; omega
    have hMq : (M : ℚ) < (2 : ℚ) ^ (53 : Int) := by
      have : (M : ℚ) < ((2 ^ 53 : Nat) : ℚ) := by exact_mod_cast hMlt
      have e : ((2 ^ 53 : Nat) : ℚ) = (2 : ℚ) ^ (53 : Int) := by norm_num
      rw [e] at this; exact this
    by_cases ho : 971 < E
    · rw [if_pos ho]
      left
      refine ⟨rfl, ?_⟩
      -- the exponent is above the subnormal one, so the significand is normal
      have hl : -1074 ≤ floorLog2Q n d - 52 := by
        by_contra hcon
        rw [max_eq_right (by omega)] at hE
        omega
      have hge := mantissa_ge n d hn hd hl
      rw [hE, hM] at hge
      have hgq : (2 : ℚ) ^ (52 : Int) ≤ (M : ℚ) := by
        have : ((2 ^ 52 : Nat) : ℚ) ≤ (M : ℚ) := by exact_mod_cast hge
        have e : ((2 ^ 52 : Nat) : ℚ) = (2 : ℚ) ^ (52 : Int) := by norm_num
        rw [e] at this; exact this
      calc (2 : ℚ) ^ (1024 : Int) = (2 : ℚ) ^ (52 : Int) * (2 : ℚ) ^ (972 : Int) := by
            rw [← zpow_add₀ (by norm_num : (2 : ℚ) ≠ 0)]; norm_num
        _ ≤ (M : ℚ) * (2 : ℚ) ^ (972 : Int) :=
            mul_le_mul_of_nonneg_right hgq (le_of_lt (two_zpow_pos _))
        _ ≤ (M : ℚ) * (2 : ℚ) ^ E :=
            mul_le_mul_of_nonneg_left (zpow_le_zpow_right₀ (by norm_num) (by omega))
              (by positivity)
    · rw [if_neg ho]
      right
      refine ⟨M, E, rfl, rfl, ?_⟩
      calc (M : ℚ) * (2 : ℚ) ^ E < (2 : ℚ) ^ (53 : Int) * (2 : ℚ) ^ E :=
            mul_lt_mul_of_pos_right hMq hpE
        _ ≤ (2 : ℚ) ^ (53 : Int) * (2 : ℚ) ^ (971 : Int) :=
            mul_le_mul_of_nonneg_left (zpow_le_zpow_right₀ (by norm_num) (by omega))
              (by positivity)
        _ = (2 : ℚ) ^ (1024 : Int) := by
            rw [← zpow_add₀ (by norm_num : (2 : ℚ) ≠ 0)]; norm_num

/-- The rounded value is monotone in the number rounded. -/
theorem roundedValue_mono (n d n2 d2 : Nat) (hn : 0 < n) (hd : 0 < d) (hn2 : 0 < n2)
    (hd2 : 0 < d2) (h : (n : ℚ) / d ≤ (n2 : ℚ) / d2) :
    (roundDiv2 n d (max (floorLog2Q n d - 52) (-1074)) : ℚ)
        * (2 : ℚ) ^ (max (floorLog2Q n d - 52) (-1074))
      ≤ (roundDiv2 n2 d2 (max (floorLog2Q n2 d2 - 52) (-1074)) : ℚ)
        * (2 : ℚ) ^ (max (floorLog2Q n2 d2 - 52) (-1074)) := by
  have hL := floorLog2Q_mono n d n2 d2 hn hd hn2 hd2 h
  have hEle : max (floorLog2Q n d - 52) (-1074) ≤ max (floorLog2Q n2 d2 - 52) (-1074) :=
    max_le_max (by omega) (le_refl _)
  rcases eq_or_lt_of_le hEle with heq | hlt
  · rw [← heq]
    have := roundDiv2_mono n d n2 d2 (max (floorLog2Q n d - 52) (-1074)) hd hd2 h
    have hq : (roundDiv2 n d (max (floorLog2Q n d - 52) (-1074)) : ℚ)
        ≤ (roundDiv2 n2 d2 (max (floorLog2Q n d - 52) (-1074)) : ℚ) := by exact_mod_cast this
    exact mul_le_mul_of_nonneg_right hq (le_of_lt (two_zpow_pos _))
  · have hle := mantissa_le n d hn hd
    have hl2 : -1074 ≤ floorLog2Q n2 d2 - 52 := by
      by_contra hcon
      rw [max_eq_right (by omega : floorLog2Q n2 d2 - 52 ≤ -1074)] at hlt
      have := le_max_right (floorLog2Q n d - 52) (-1074)
      omega
    have hge := mantissa_ge n2 d2 hn2 hd2 hl2
    generalize max (floorLog2Q n d - 52) (-1074) = E at hle hlt ⊢
    generalize max (floorLog2Q n2 d2 - 52) (-1074) = E2 at hge hlt ⊢
    have hMq : (roundDiv2 n d E : ℚ) ≤ (2 : ℚ) ^ (53 : Int) := by
      have : (roundDiv2 n d E : ℚ) ≤ ((2 ^ 53 : Nat) : ℚ) := by exact_mod_cast hle
      have e : ((2 ^ 53 : Nat) : ℚ) = (2 : ℚ) ^ (53 : Int) := by norm_num
      rw [e] at this; exact this
    have hMq2 : (2 : ℚ) ^ (52 : Int) ≤ (roundDiv2 n2 d2 E2 : ℚ) := by
      have : ((2 ^ 52 : Nat) : ℚ) ≤ (roundDiv2 n2 d2 E2 : ℚ) := by exact_mod_cast hge
      have e : ((2 ^ 52 : Nat) : ℚ) = (2 : ℚ) ^ (52 : Int) := by norm_num
      rw [e] at this; exact this
    calc (roundDiv2 n d E : ℚ) * (2 : ℚ) ^ E
        ≤ (2 : ℚ) ^ (53 : Int) * (2 : ℚ) ^ E :=
          mul_le_mul_of_nonneg_right hMq (le_of_lt (two_zpow_pos _))
      _ = (2 : ℚ) ^ (52 : Int) * (2 : ℚ) ^ (E + 1) := by
          rw [← zpow_add₀ (by norm_num : (2 : ℚ) ≠ 0),
            ← zpow_add₀ (by norm_num : (2 : ℚ) ≠ 0)]
          congr 1; ring
      _ ≤ (2 : ℚ) ^ (52 : Int) * (2 : ℚ) ^ E2 :=
          mul_le_mul_of_nonneg_left (zpow_le_zpow_right₀ (by norm_num) (by omega))
            (by positivity)
      _ ≤ (roundDiv2 n2 d2 E2 : ℚ) * (2 : ℚ) ^ E2 :=
          mul_le_mul_of_nonneg_right hMq2 (le_of_lt (two_zpow_pos _))


/-! ## Order of `double` against the order of the numbers -/

theorem le_finite_iff (s1 s2 : Bool) (m1 m2 : Nat) (e1 e2 : Int) :
    Double.le (Double.finite s1 m1 e1) (Double.finite s2 m2 e2) = true ↔
      Double.toRat (Double.finite s1 m1 e1) ≤ Double.toRat (Double.finite s2 m2 e2) := by
  simp only [Double.le, decide_eq_true_eq]
  have h1 := scaled_cast s1 m1 e1 (min e1 e2) (min_le_left _ _)
  have h2 := scaled_cast s2 m2 e2 (min e1 e2) (min_le_right _ _)
  have hpos := two_zpow_pos (min e1 e2)
  rw [← div_le_div_iff_of_pos_right hpos, ← h1, ← h2]
  exact_mod_cast Iff.rfl

theorem lt_finite_iff (s1 s2 : Bool) (m1 m2 : Nat) (e1 e2 : Int) :
    Double.lt (Double.finite s1 m1 e1) (Double.finite s2 m2 e2) = true ↔
      Double.toRat (Double.finite s1 m1 e1) < Double.toRat (Double.finite s2 m2 e2) := by
  simp only [Double.lt, decide_eq_true_eq]
  have h1 := scaled_cast s1 m1 e1 (min e1 e2) (min_le_left _ _)
  have h2 := scaled_cast s2 m2 e2 (min e1 e2) (min_le_right _ _)
  have hpos := two_zpow_pos (min e1 e2)
  rw [← div_lt_div_iff_of_pos_right hpos, ← h1, ← h2]
  exact_mod_cast Iff.rfl

theorem toRat_finite_false (m : Nat) (e : Int) :
    Double.toRat (Double.finite false m e) = (m : ℚ) * (2 : ℚ) ^ e := by
  simp [Double.toRat]

/-- Rounding to nearest is monotone: a larger positive number rounds to a
`double` that is not smaller. -/
theorem roundQ_le_roundQ (n d n2 d2 : Nat) (hn : 0 < n) (hd : 0 < d) (hn2 : 0 < n2)
    (hd2 : 0 < d2) (h : (n : ℚ) / d ≤ (n2 : ℚ) / d2) :
    Double.le (Double.roundQ false n d) (Double.roundQ false n2 d2) = true := by
  have hm := roundedValue_mono n d n2 d2 hn hd hn2 hd2 h
  rcases roundQ_value false n2 d2 hn2 hd2 with ⟨r2, -⟩ | ⟨m2, e2, r2, v2, b2⟩
  · rw [r2]
    rcases roundQ_value false n d hn hd with ⟨r1, -⟩ | ⟨m1, e1, r1, -, -⟩
    · rw [r1]; rfl
    · rw [r1]; rfl
  · rw [r2]
    rcases roundQ_value false n d hn hd with ⟨-, b1⟩ | ⟨m1, e1, r1, v1, -⟩
    · exact absurd (lt_of_le_of_lt (le_trans b1 hm) b2) (lt_irrefl _)
    · rw [r1, le_finite_iff, toRat_finite_false, toRat_finite_false, v1, v2]
      exact hm

theorem abs_roundQ (neg : Bool) (n d : Nat) :
    Double.abs (Double.roundQ neg n d) = Double.roundQ false n d := by
  unfold Double.roundQ
  simp only
  split
  · rfl
  · split
    · split <;> rfl
    · split <;> rfl

/-- The magnitude of the difference of two finite `double`s with different
values: the nearest `double` to the exact difference. -/
theorem abs_sub_finite (s1 s2 : Bool) (m1 m2 : Nat) (e1 e2 : Int)
    (hne : Double.toRat (Double.finite s1 m1 e1) ≠ Double.toRat (Double.finite s2 m2 e2)) :
    ∃ n d : Nat, 0 < n ∧ 0 < d ∧
      (n : ℚ) / d
        = |Double.toRat (Double.finite s1 m1 e1) - Double.toRat (Double.finite s2 m2 e2)| ∧
      Double.abs (Double.sub (Double.finite s1 m1 e1) (Double.finite s2 m2 e2))
        = Double.roundQ false n d := by
  have h1 := scaled_cast s1 m1 e1 (min e1 e2) (min_le_left _ _)
  have h2 := scaled_cast s2 m2 e2 (min e1 e2) (min_le_right _ _)
  have hpos := two_zpow_pos (min e1 e2)
  have hD : Double.scaled s1 m1 e1 (min e1 e2) - Double.scaled s2 m2 e2 (min e1 e2) ≠ 0 := by
    intro h0
    apply hne
    have : ((Double.scaled s1 m1 e1 (min e1 e2) : Int) : ℚ)
        = ((Double.scaled s2 m2 e2 (min e1 e2) : Int) : ℚ) := by
      have : Double.scaled s1 m1 e1 (min e1 e2) = Double.scaled s2 m2 e2 (min e1 e2) := by
        omega
      rw [this]
    rw [h1, h2, div_left_inj' (ne_of_gt hpos)] at this
    exact this
  generalize hDdef : Double.scaled s1 m1 e1 (min e1 e2) - Double.scaled s2 m2 e2 (min e1 e2)
    = D at hD
  have hval : ((D.natAbs : Nat) : ℚ) * (2 : ℚ) ^ (min e1 e2)
      = |Double.toRat (Double.finite s1 m1 e1) - Double.toRat (Double.finite s2 m2 e2)| := by
    have : ((D.natAbs : Nat) : ℚ) = |((D : Int) : ℚ)| := by
      rw [Nat.cast_natAbs, Int.cast_abs]
    rw [this, ← hDdef]
    push_cast
    rw [h1, h2, ← sub_div, abs_div, abs_of_pos hpos, div_mul_cancel₀ _ (ne_of_gt hpos)]
  have hnpos : 0 < D.natAbs := Int.natAbs_pos.2 hD
  have hsub : Double.sub (Double.finite s1 m1 e1) (Double.finite s2 m2 e2)
      = Double.roundScaled (decide (D < 0)) D.natAbs (min e1 e2) := by
    simp only [Double.sub, hDdef, hD, if_false]
  rw [hsub]
  unfold Double.roundScaled
  by_cases he : 0 ≤ min e1 e2
  · rw [if_pos he, abs_roundQ]
    refine ⟨D.natAbs * pow2 (min e1 e2).toNat, 1,
      Nat.mul_pos hnpos (pow2_pos _), Nat.one_pos, ?_, rfl⟩
    rw [← hval, zpow2_of_nonneg _ he]
    push_cast; ring
  · rw [if_neg he, abs_roundQ]
    refine ⟨D.natAbs, pow2 (-(min e1 e2)).toNat, hnpos, pow2_pos _, ?_, rfl⟩
    rw [← hval, zpow2_of_neg _ (by omega)]
    ring

/-- Subtracting in the other order gives the same magnitude. -/
theorem abs_sub_comm (s1 s2 : Bool) (m1 m2 : Nat) (e1 e2 : Int) :
    Double.abs (Double.sub (Double.finite s1 m1 e1) (Double.finite s2 m2 e2))
      = Double.abs (Double.sub (Double.finite s2 m2 e2) (Double.finite s1 m1 e1)) := by
  simp only [Double.sub]
  rw [min_comm e2 e1]
  generalize Double.scaled s1 m1 e1 (min e1 e2) = A
  generalize Double.scaled s2 m2 e2 (min e1 e2) = B
  by_cases h : A - B = 0
  · have h' : B - A = 0 := by omega
    simp [h, h', Double.abs]
  · have h' : B - A ≠ 0 := by omega
    simp only [h, h', if_false]
    unfold Double.roundScaled
    have hn : (A - B).natAbs = (B - A).natAbs := by omega
    rw [hn]
    split <;> simp only [abs_roundQ]

theorem EPSILON_as_rounding :
    Double.roundQ false 7378697629483821 (pow2 66) = EPSILON := by decide

theorem EPSILON_toRat :
    ((7378697629483821 : Nat) : ℚ) / ((pow2 66 : Nat) : ℚ) = Double.toRat EPSILON := by
  rw [EPSILON_eq, toRat_finite_false, cast_pow2]
  rw [show ((-66 : Int)) = -((66 : Nat) : Int) by norm_num, zpow_neg, zpow_natCast]
  norm_num

theorem EPSILON_above_decimal : (1 : ℚ) / 10000 ≤ Double.toRat EPSILON := by
  rw [EPSILON_eq, toRat_finite_false]
  norm_num

/-- Two finite prices whose exact difference is at most the value of `EPSILON`
pass `floating_point_is_equal`. -/
theorem floating_point_is_equal_of_near (s1 s2 : Bool) (m1 m2 : Nat) (e1 e2 : Int)
    (hle : |Double.toRat (Double.finite s1 m1 e1) - Double.toRat (Double.finite s2 m2 e2)|
      ≤ Double.toRat EPSILON) :
    floating_point_is_equal (Double.finite s1 m1 e1) (Double.finite s2 m2 e2) = true := by
  by_cases hne : Double.toRat (Double.finite s1 m1 e1) = Double.toRat (Double.finite s2 m2 e2)
  · apply floating_point_is_equal_of_eq
    rw [eq_iff_sameNumber]
    exact hne
  · obtain ⟨n, d, hn, hd, hv, hs⟩ := abs_sub_finite s1 s2 m1 m2 e1 e2 hne
    unfold floating_point_is_equal
    rw [hs, ← EPSILON_as_rounding]
    apply roundQ_le_roundQ n d _ _ hn hd (by norm_num) (pow2_pos _)
    rw [hv, EPSILON_toRat]
    exact hle

theorem isFinite_iff {p : Double} :
    p.isFinite = true ↔ ∃ s m e, p = Double.finite s m e := by
  cases p <;> simp [Double.isFinite]

/-- C15. Two records with identical ISBN, title and author whose finite prices
differ by a non-zero amount of at most `1e-4` are not `==`, yet `operator<=>`
returns `equivalent` for them.  The bound is the value of the `double` `1e-4`,
which is not below the decimal `1/10000`. -/
theorem C15_within_tolerance_not_equal (a b : Book)
    (hi : a._isbn = b._isbn) (ht : a._title = b._title) (ha : a._author = b._author)
    (hfa : a._price.isFinite = true) (hfb : b._price.isFinite = true)
    (hne : Double.toRat a._price ≠ Double.toRat b._price)
    (hle : |Double.toRat a._price - Double.toRat b._price| ≤ Double.toRat EPSILON) :
    (1 : ℚ) / 10000 ≤ Double.toRat EPSILON ∧
      Book.operatorEq a b = false ∧
      Book.operatorSpaceship a b = weak_ordering.equivalent := by
  obtain ⟨s1, m1, e1, h1⟩ := isFinite_iff.1 hfa
  obtain ⟨s2, m2, e2, h2⟩ := isFinite_iff.1 hfb
  rw [h1, h2] at hne hle
  refine ⟨EPSILON_above_decimal, ?_, ?_⟩
  · cases hq : Book.operatorEq a b with
    | false => rfl
    | true =>
      have hp := (eq_iff_sameNumber _ _).1 ((operatorEq_eq_true_iff a b).1 hq).2.2.2
      rw [h1, h2] at hp
      exact absurd hp hne
  · rw [operatorSpaceship_eq_equivalent_iff, h1, h2]
    exact ⟨hi, ht, ha, floating_point_is_equal_of_near _ _ _ _ _ _ hle⟩

theorem ten_eq :
    Double.ofDecimal false 1000000 (-5) = Double.finite false 5629499534213120 (-49) := by
  decide

theorem ten_and_a_bit_eq :
    Double.ofDecimal false 1000001 (-5) = Double.finite false 5629505163712654 (-49) := by
  decide

theorem C15_within_tolerance_not_equal_witness :
    (1 : ℚ) / 10000 ≤ Double.toRat EPSILON ∧
      Book.operatorEq
        (Book.Book "T".toList "A".toList "I".toList (Double.ofDecimal false 1000000 (-5)))
        (Book.Book "T".toList "A".toList "I".toList (Double.ofDecimal false 1000001 (-5)))
        = false ∧
      Book.operatorSpaceship
        (Book.Book "T".toList "A".toList "I".toList (Double.ofDecimal false 1000000 (-5)))
        (Book.Book "T".toList "A".toList "I".toList (Double.ofDecimal false 1000001 (-5)))
        = weak_ordering.equivalent :=
  C15_within_tolerance_not_equal
    (Book.Book "T".toList "A".toList "I".toList (Double.ofDecimal false 1000000 (-5)))
    (Book.Book "T".toList "A".toList "I".toList (Double.ofDecimal false 1000001 (-5)))
    (by simp only [Book.Book]) (by simp only [Book.Book]) (by simp only [Book.Book])
    (by decide) (by decide)
    (by
      simp only [Book.Book, ten_eq, ten_and_a_bit_eq, toRat_finite_false]
      norm_num)
    (by
      simp only [Book.Book, ten_eq, ten_and_a_bit_eq, EPSILON_eq, toRat_finite_false]
      rw [abs_le]
      constructor <;> norm_num)


/-! ## The strict part of the ordering -/

theorem lexCompare_less_iff_greater (x y : List Char) :
    lexCompare x y = weak_ordering.less ↔ lexCompare y x = weak_ordering.greater := by
  induction x generalizing y with
  | nil => cases y <;> simp [lexCompare]
  | cons a as ih =>
    cases y with
    | nil => simp [lexCompare]
    | cons b bs =>
      simp only [lexCompare]
      by_cases h1 : a.toNat < b.toNat
      · have h2 : ¬ b.toNat < a.toNat := by omega
        simp [h1, h2]
      · by_cases h2 : b.toNat < a.toNat
        · simp [h1, h2]
        · simp only [h1, h2, if_false]
          exact ih bs

theorem lexCompare_less_trans (x y z : List Char)
    (h1 : lexCompare x y = weak_ordering.less) (h2 : lexCompare y z = weak_ordering.less) :
    lexCompare x z = weak_ordering.less := by
  induction x generalizing y z with
  | nil =>
    cases z with
    | nil => cases y <;> simp [lexCompare] at h1 h2
    | cons c cs => simp [lexCompare]
  | cons a as ih =>
    cases y with
    | nil => simp [lexCompare] at h1
    | cons b bs =>
      cases z with
      | nil => simp [lexCompare] at h2
      | cons c cs =>
        simp only [lexCompare] at h1 h2 ⊢
        by_cases ab : a.toNat < b.toNat
        · by_cases bc : b.toNat < c.toNat
          · have ac : a.toNat < c.toNat := by omega
            simp [ac]
          · by_cases cb : c.toNat < b.toNat
            · simp [bc, cb] at h2
            · have ac : a.toNat < c.toNat := by omega
              simp [ac]
        · by_cases ba : b.toNat < a.toNat
          · simp [ab, ba] at h1
          · simp only [ab, ba, if_false] at h1
            by_cases bc : b.toNat < c.toNat
            · have ac : a.toNat < c.toNat := by omega
              simp [ac]
            · by_cases cb : c.toNat < b.toNat
              · simp [bc, cb] at h2
              · simp only [bc, cb, if_false] at h2
                have ac : ¬ a.toNat < c.toNat := by omega
                have ca : ¬ c.toNat < a.toNat := by omega
                simp only [ac, ca, if_false]
                exact ih bs cs h1 h2

theorem lexCompare_self (x : List Char) : lexCompare x x = weak_ordering.equivalent :=
  (lexCompare_eq_equivalent_iff x x).2 rfl

/-- When `operator<=>` returns a strict result: at the first of ISBN, title
and author that differs, or, with the three identical, at the price step. -/
theorem operatorSpaceship_eq_strict_iff (a b : Book) (r : weak_ordering)
    (hr : r ≠ weak_ordering.equivalent) :
    Book.operatorSpaceship a b = r ↔
      (lexCompare a._isbn b._isbn = r ∨ (a._isbn = b._isbn ∧
        (lexCompare a._title b._title = r ∨ (a._title = b._title ∧
          (lexCompare a._author b._author = r ∨ (a._author = b._author ∧
            (floating_point_is_equal a._price b._price = false ∧
              (if Double.lt a._price b._price then weak_ordering.less
                else weak_ordering.greater) = r))))))) := by
  unfold Book.operatorSpaceship
  simp only [stringSpaceship_eq_lexCompare]
  have hr2 : ¬ weak_ordering.equivalent = r := fun h => hr h.symm
  by_cases h1 : lexCompare a._isbn b._isbn = weak_ordering.equivalent
  · have e1 := (lexCompare_eq_equivalent_iff _ _).1 h1
    by_cases h2 : lexCompare a._title b._title = weak_ordering.equivalent
    · have e2 := (lexCompare_eq_equivalent_iff _ _).1 h2
      by_cases h3 : lexCompare a._author b._author = weak_ordering.equivalent
      · have e3 := (lexCompare_eq_equivalent_iff _ _).1 h3
        simp only [h1, h2, h3, ne_eq, not_true_eq_false, if_false, hr2, false_or]
        simp only [e1, e2, e3, true_and]
        by_cases hp : floating_point_is_equal a._price b._price = true
        · simp [hp, hr2]
        · simp [hp]
      · have n3 : ¬ a._author = b._author :=
          fun h => h3 ((lexCompare_eq_equivalent_iff _ _).2 h)
        simp only [h1, h2, h3, ne_eq, not_true_eq_false, not_false_eq_true, if_false, if_true,
          hr2, false_or, n3, false_and, or_false]
        simp only [e1, e2, true_and]
    · have n2 : ¬ a._title = b._title :=
        fun h => h2 ((lexCompare_eq_equivalent_iff _ _).2 h)
      simp only [h1, h2, ne_eq, not_true_eq_false, not_false_eq_true, if_false, if_true,
        hr2, false_or, n2, false_and, or_false]
      simp only [e1, true_and]
  · have n1 : ¬ a._isbn = b._isbn :=
      fun h => h1 ((lexCompare_eq_equivalent_iff _ _).2 h)
    simp [h1, n1]

theorem lexLevel_trans {x y z : List Char} {A B C : Prop} (hABC : A → B → C)
    (h1 : lexCompare x y = weak_ordering.less ∨ (x = y ∧ A))
    (h2 : lexCompare y z = weak_ordering.less ∨ (y = z ∧ B)) :
    lexCompare x z = weak_ordering.less ∨ (x = z ∧ C) := by
  rcases h1 with h1 | ⟨e1, a⟩
  · rcases h2 with h2 | ⟨e2, b⟩
    · exact Or.inl (lexCompare_less_trans x y z h1 h2)
    · subst e2; exact Or.inl h1
  · rcases h2 with h2 | ⟨e2, b⟩
    · subst e1; exact Or.inl h2
    · exact Or.inr ⟨e1.trans e2, hABC a b⟩

theorem lexLevel_iff {x y : List Char} {A B : Prop} (h : x = y → (A ↔ B)) :
    (lexCompare x y = weak_ordering.less ∨ (x = y ∧ A)) ↔
      (lexCompare y x = weak_ordering.greater ∨ (y = x ∧ B)) := by
  rw [lexCompare_less_iff_greater]
  constructor
  · rintro (h1 | ⟨e, a⟩)
    · exact Or.inl h1
    · exact Or.inr ⟨e.symm, (h e).1 a⟩
  · rintro (h1 | ⟨e, b⟩)
    · exact Or.inl h1
    · exact Or.inr ⟨e.symm, (h e.symm).2 b⟩


/-! ## The price step of the ordering -/

theorem le_trans_double (a b c : Double) (h1 : Double.le a b = true)
    (h2 : Double.le b c = true) : Double.le a c = true := by
  cases a with
  | nan sn => simp [Double.le] at h1
  | inf n1 =>
    cases b with
    | nan sn => simp [Double.le] at h1
    | inf n2 =>
      cases c with
      | nan sn => simp [Double.le] at h2
      | inf n3 => cases n1 <;> cases n2 <;> cases n3 <;> simp [Double.le] at h1 h2 ⊢
      | finite s3 m3 e3 => cases n1 <;> cases n2 <;> simp [Double.le] at h1 h2 ⊢
    | finite s2 m2 e2 =>
      cases c with
      | nan sn => simp [Double.le] at h2
      | inf n3 => cases n1 <;> cases n3 <;> simp [Double.le] at h1 h2 ⊢
      | finite s3 m3 e3 => simpa [Double.le] using h1
  | finite s1 m1 e1 =>
    cases b with
    | nan sn => simp [Double.le] at h1
    | inf n2 =>
      cases c with
      | nan sn => simp [Double.le] at h2
      | inf n3 => cases n2 <;> cases n3 <;> simp [Double.le] at h1 h2 ⊢
      | finite s3 m3 e3 => cases n2 <;> simp [Double.le] at h1 h2
    | finite s2 m2 e2 =>
      cases c with
      | nan sn => simp [Double.le] at h2
      | inf n3 => simpa [Double.le] using h2
      | finite s3 m3 e3 =>
        rw [le_finite_iff] at h1 h2 ⊢
        exact le_trans h1 h2

/-- An infinite difference is not within `EPSILON`. -/
theorem le_inf_EPSILON : Double.le (Double.inf false) EPSILON = false := by decide

/-- If the exact difference of two finite prices is not within the tolerance,
no larger difference is. -/
theorem not_near_of_farther (s1 s2 s3 s4 : Bool) (m1 m2 m3 m4 : Nat) (e1 e2 e3 e4 : Int)
    (h : floating_point_is_equal (Double.finite s1 m1 e1) (Double.finite s2 m2 e2) = false)
    (hd : |Double.toRat (Double.finite s1 m1 e1) - Double.toRat (Double.finite s2 m2 e2)|
      ≤ |Double.toRat (Double.finite s3 m3 e3) - Double.toRat (Double.finite s4 m4 e4)|) :
    floating_point_is_equal (Double.finite s3 m3 e3) (Double.finite s4 m4 e4) = false := by
  have hne : Double.toRat (Double.finite s1 m1 e1) ≠ Double.toRat (Double.finite s2 m2 e2) := by
    intro heq
    have := floating_point_is_equal_of_eq s1 s2 m1 m2 e1 e2 ((eq_iff_sameNumber _ _).2 heq)
    rw [h] at this
    exact Bool.noConfusion this
  have hne2 : Double.toRat (Double.finite s3 m3 e3) ≠ Double.toRat (Double.finite s4 m4 e4) := by
    intro heq
    rw [heq, sub_self, abs_zero] at hd
    exact hne (sub_eq_zero.1 (abs_eq_zero.1 (le_antisymm hd (abs_nonneg _))))
  obtain ⟨n, d, hn, hdp, hv, hs⟩ := abs_sub_finite s1 s2 m1 m2 e1 e2 hne
  obtain ⟨n2, d2, hn2, hdp2, hv2, hs2⟩ := abs_sub_finite s3 s4 m3 m4 e3 e4 hne2
  cases hq : floating_point_is_equal (Double.finite s3 m3 e3) (Double.finite s4 m4 e4) with
  | false => rfl
  | true =>
    exfalso
    unfold floating_point_is_equal at h hq
    rw [hs] at h
    rw [hs2] at hq
    have hmono := roundQ_le_roundQ n d n2 d2 hn hdp hn2 hdp2 (by rw [hv, hv2]; exact hd)
    rw [le_trans_double _ _ _ hmono hq] at h
    exact Bool.noConfusion h

/-- The price step gives `less` transitively. -/
theorem price_less_trans (p q r : Double)
    (h1 : floating_point_is_equal p q = false ∧ Double.lt p q = true)
    (h2 : floating_point_is_equal q r = false ∧ Double.lt q r = true) :
    floating_point_is_equal p r = false ∧ Double.lt p r = true := by
  obtain ⟨n1, l1⟩ := h1
  obtain ⟨n2, l2⟩ := h2
  cases q with
  | nan sn => cases p <;> simp [Double.lt] at l1
  | inf nq =>
    cases nq with
    | true => cases p <;> simp [Double.lt] at l1
    | false => cases r <;> simp [Double.lt] at l2
  | finite s2 m2 e2 =>
    cases p with
    | nan sn => simp [Double.lt] at l1
    | inf np =>
      cases np with
      | false => simp [Double.lt] at l1
      | true =>
        cases r with
        | nan sn => simp [Double.lt] at l2
        | inf nr =>
          cases nr with
          | true => simp [Double.lt] at l2
          | false =>
            simp [floating_point_is_equal, Double.sub, Double.abs, Double.lt, le_inf_EPSILON]
        | finite s3 m3 e3 =>
          simp [floating_point_is_equal, Double.sub, Double.abs, Double.lt, le_inf_EPSILON]
    | finite s1 m1 e1 =>
      cases r with
      | nan sn => simp [Double.lt] at l2
      | inf nr =>
        cases nr with
        | true => simp [Double.lt] at l2
        | false =>
          simp [floating_point_is_equal, Double.sub, Double.abs, Double.lt, le_inf_EPSILON]
      | finite s3 m3 e3 =>
        rw [lt_finite_iff] at l1 l2 ⊢
        refine ⟨not_near_of_farther s1 s2 s1 s3 m1 m2 m1 m3 e1 e2 e1 e3 n1 ?_, lt_trans l1 l2⟩
        rw [abs_of_neg (by linarith), abs_of_neg (by linarith)]
        linarith

/-- Without a NaN difference, the price step gives `less` one way exactly when
it gives `greater` the other way. -/
theorem price_less_iff_greater (p q : Double) (h : (Double.sub p q).isNaN = false) :
    (floating_point_is_equal p q = false ∧
        (if Double.lt p q then weak_ordering.less else weak_ordering.greater)
          = weak_ordering.less) ↔
      (floating_point_is_equal q p = false ∧
        (if Double.lt q p then weak_ordering.less else weak_ordering.greater)
          = weak_ordering.greater) := by
  cases p with
  | nan sn => cases q <;> simp [Double.sub, Double.isNaN] at h
  | inf np =>
    cases q with
    | nan sn => simp [Double.sub, Double.isNaN] at h
    | inf nq =>
      cases np <;> cases nq <;> simp [Double.sub, Double.isNaN] at h <;>
        simp [floating_point_is_equal, Double.sub, Double.abs, Double.lt, le_inf_EPSILON]
    | finite s2 m2 e2 =>
      cases np <;>
        simp [floating_point_is_equal, Double.sub, Double.abs, Double.lt, le_inf_EPSILON]
  | finite s1 m1 e1 =>
    cases q with
    | nan sn => simp [Double.sub, Double.isNaN] at h
    | inf nq =>
      cases nq <;>
        simp [floating_point_is_equal, Double.sub, Double.abs, Double.lt, le_inf_EPSILON]
    | finite s2 m2 e2 =>
      have hsym : floating_point_is_equal (Double.finite s2 m2 e2) (Double.finite s1 m1 e1)
          = floating_point_is_equal (Double.finite s1 m1 e1) (Double.finite s2 m2 e2) := by
        unfold floating_point_is_equal
        rw [abs_sub_comm]
      rw [hsym]
      cases hn : floating_point_is_equal (Double.finite s1 m1 e1) (Double.finite s2 m2 e2) with
      | true => simp
      | false =>
        have hne : Double.toRat (Double.finite s1 m1 e1)
            ≠ Double.toRat (Double.finite s2 m2 e2) := by
          intro heq
          have := floating_point_is_equal_of_eq s1 s2 m1 m2 e1 e2
            ((eq_iff_sameNumber _ _).2 heq)
          rw [hn] at this
          exact Bool.noConfusion this
        by_cases hl : Double.lt (Double.finite s1 m1 e1) (Double.finite s2 m2 e2) = true
        · have hl2 : ¬ Double.lt (Double.finite s2 m2 e2) (Double.finite s1 m1 e1) = true := by
            rw [lt_finite_iff] at hl ⊢
            exact not_lt.2 (le_of_lt hl)
          simp [hl, hl2]
        · have hl2 : Double.lt (Double.finite s2 m2 e2) (Double.finite s1 m1 e1) = true := by
            rw [lt_finite_iff] at hl ⊢
            exact lt_of_le_of_ne (not_lt.1 hl) (Ne.symm hne)
          simp [hl, hl2]

/-- With a NaN difference (a NaN price, or the same infinity twice) the price
step gives `greater` in both orders. -/
theorem price_nan_greater (p q : Double) (h : (Double.sub p q).isNaN = true) :
    floating_point_is_equal p q = false ∧ Double.lt p q = false ∧
      floating_point_is_equal q p = false ∧ Double.lt q p = false := by
  cases p with
  | nan sn => cases q <;> simp [floating_point_is_equal, Double.sub, Double.abs, Double.lt, Double.le]
  | inf np =>
    cases q with
    | nan sn => simp [floating_point_is_equal, Double.sub, Double.abs, Double.lt, Double.le]
    | inf nq =>
      cases np <;> cases nq <;> simp [Double.sub, Double.isNaN] at h <;>
        simp [floating_point_is_equal, Double.sub, Double.abs, Double.lt, Double.le]
    | finite s2 m2 e2 => simp [Double.sub, Double.isNaN] at h
  | finite s1 m1 e1 =>
    cases q with
    | nan sn => simp [floating_point_is_equal, Double.sub, Double.abs, Double.lt, Double.le]
    | inf nq => simp [Double.sub, Double.isNaN] at h
    | finite s2 m2 e2 =>
      exfalso
      simp only [Double.sub] at h
      split at h
      · simp [Double.isNaN] at h
      · unfold Double.roundScaled Double.roundQ at h
        simp only at h
        repeat' split at h
        all_goals simp [Double.isNaN] at h


/-- C19, as stated, fails: with identical texts and a NaN price on one side,
`operator<=>` returns `greater` in both argument orders, so `greater` one way
does not come with `less` the other way; the same happens between two records
whose prices are both `+infinity`. -/
theorem C19_nan_price_counterexample :
    ¬ (Book.operatorSpaceship
          (Book.Book "T".toList "A".toList "I".toList (Double.ofDecimal false 10 0))
          (Book.Book "T".toList "A".toList "I".toList (Double.nan false))
        = weak_ordering.less ↔
       Book.operatorSpaceship
          (Book.Book "T".toList "A".toList "I".toList (Double.nan false))
          (Book.Book "T".toList "A".toList "I".toList (Double.ofDecimal false 10 0))
        = weak_ordering.greater) ∧
    Book.operatorSpaceship
        (Book.Book "T".toList "A".toList "I".toList (Double.ofDecimal false 10 0))
        (Book.Book "T".toList "A".toList "I".toList (Double.nan false))
      = weak_ordering.greater ∧
    Book.operatorSpaceship
        (Book.Book "T".toList "A".toList "I".toList (Double.inf false))
        (Book.Book "T".toList "A".toList "I".toList (Double.inf false))
      = weak_ordering.greater := by
  decide

/-- C19, amended.  The strict part of the ordering is transitive on all
records: `less` then `less` gives `less`.  And `operator<=>(a, b)` is `less`
exactly when `operator<=>(b, a)` is `greater`, provided the two records differ
in ISBN, title or author, or the difference of their prices is not a NaN (no
price is a NaN and the prices are not the same infinity); in the remaining
case both orders give `greater`. -/
theorem C19_strict_order :
    (∀ r1 r2 r3 : Book,
      Book.operatorSpaceship r1 r2 = weak_ordering.less →
      Book.operatorSpaceship r2 r3 = weak_ordering.less →
      Book.operatorSpaceship r1 r3 = weak_ordering.less) ∧
    (∀ a b : Book,
      (a._isbn ≠ b._isbn ∨ a._title ≠ b._title ∨ a._author ≠ b._author ∨
        (Double.sub a._price b._price).isNaN = false) →
      (Book.operatorSpaceship a b = weak_ordering.less ↔
        Book.operatorSpaceship b a = weak_ordering.greater)) ∧
    (∀ a b : Book,
      a._isbn = b._isbn → a._title = b._title → a._author = b._author →
      (Double.sub a._price b._price).isNaN = true →
      Book.operatorSpaceship a b = weak_ordering.greater ∧
        Book.operatorSpaceship b a = weak_ordering.greater) := by
  have hless : ∀ p q : Double,
      (if Double.lt p q then weak_ordering.less else weak_ordering.greater)
        = weak_ordering.less ↔ Double.lt p q = true := by
    intro p q
    cases Double.lt p q <;> simp
  refine ⟨?_, ?_, ?_⟩
  · intro r1 r2 r3 h12 h23
    rw [operatorSpaceship_eq_strict_iff _ _ _ (by decide)] at h12 h23 ⊢
    simp only [hless] at h12 h23 ⊢
    exact lexLevel_trans (lexLevel_trans (lexLevel_trans (price_less_trans _ _ _))) h12 h23
  · intro a b h
    rw [operatorSpaceship_eq_strict_iff _ _ _ (by decide),
      operatorSpaceship_eq_strict_iff _ _ _ (by decide)]
    refine lexLevel_iff (fun e1 => lexLevel_iff (fun e2 => lexLevel_iff (fun e3 => ?_)))
    rcases h with h | h | h | h
    · exact absurd e1 h
    · exact absurd e2 h
    · exact absurd e3 h
    · exact price_less_iff_greater _ _ h
  · intro a b e1 e2 e3 h
    obtain ⟨n1, l1, n2, l2⟩ := price_nan_greater _ _ h
    rw [operatorSpaceship_eq_strict_iff _ _ _ (by decide),
      operatorSpaceship_eq_strict_iff _ _ _ (by decide)]
    simp [e1, e2, e3, n1, n2, l1, l2]

/-! ## The price text -/

theorem isNumeralChar_plain (c : Char) (h : isNumeralChar c = true) :
    c ≠ '"' ∧ c ≠ '\\' ∧ isspace c = false := by
  unfold isNumeralChar at h
  simp only [Bool.or_eq_true, decide_eq_true_eq] at h
  rcases h with ((((h | h) | h) | h) | h) | h
  · have h1 : 48 ≤ c.val ∧ c.val ≤ 57 := by
      simpa [Char.isDigit] using h
    refine ⟨?_, ?_, ?_⟩
    · rintro rfl; revert h; decide
    · rintro rfl; revert h; decide
    · cases hs : isspace c with
      | false => rfl
      | true =>
        exfalso
        unfold isspace at hs
        simp only [Bool.or_eq_true, decide_eq_true_eq] at hs
        rcases hs with ((((hs | hs) | hs) | hs) | hs) | hs <;> (subst hs; revert h; decide)
  all_goals (subst h; decide)


theorem isDigit_numeral (c : Char) (h : c.isDigit = true) : isNumeralChar c = true := by
  simp [isNumeralChar, h]

theorem all_numeral_of_digits (l : List Char) (h : l.all Char.isDigit = true) :
    l.all isNumeralChar = true := by
  rw [List.all_eq_true] at h ⊢
  intro c hc
  exact isDigit_numeral c (h c hc)

theorem all_append_iff (p : Char → Bool) (a b : List Char) :
    (a ++ b).all p = true ↔ a.all p = true ∧ b.all p = true := by
  simp [List.all_append]

theorem formatExponent_numeral (x : Int) (upper : Bool) :
    (formatExponent x upper).all isNumeralChar = true := by
  unfold formatExponent
  rw [all_append_iff]
  refine ⟨?_, all_numeral_of_digits _ (padDigits_isDigit _ _)⟩
  cases upper <;> by_cases hx : x < 0 <;> simp [hx, isNumeralChar]

/-- The style `%f` shows the number rounded to `prec` fractional digits. -/
theorem formatFixed_shows (n d prec : Nat) (alt : Bool) (hd : 0 < d) :
    showsFixed prec ((n : ℚ) / d) (formatFixed n d prec alt) := by
  obtain ⟨p1, p2, p3, p4⟩ := formatFixed_parts n d prec
  refine ⟨_, _, p1, p2, p3, p4, ?_, ?_⟩
  · unfold formatFixed
    by_cases h0 : (prec = 0 && !alt) = true
    · right
      simp only [Bool.and_eq_true, decide_eq_true_eq] at h0
      refine ⟨h0.1, ?_⟩
      simp [h0.1, h0.2]
    · left
      simp only [h0]
      simp [List.append_assoc]
  · unfold decimalValue
    rw [p4, List.take_append_drop, digitsToNat_padDigits]
    have h := roundScaled10_abs n d (prec : Int) hd
    rw [zpow_natCast] at h
    have hp : (0 : ℚ) < (10 : ℚ) ^ prec := by positivity
    have e : ((roundScaled10 n d (prec : Int) : Nat) : ℚ) / (10 : ℚ) ^ prec - (n : ℚ) / d
        = (((roundScaled10 n d (prec : Int) : Nat) : ℚ) - (n : ℚ) / d * (10 : ℚ) ^ prec)
            / (10 : ℚ) ^ prec := by
      field_simp
      ring
    rw [e, abs_div, abs_of_pos hp, div_le_iff₀ hp]
    calc |((roundScaled10 n d (prec : Int) : Nat) : ℚ) - (n : ℚ) / d * (10 : ℚ) ^ prec|
        ≤ 1 / 2 := h
      _ = 1 / (2 * (10 : ℚ) ^ prec) * (10 : ℚ) ^ prec := by field_simp

/-- A text in the style `%f` begins with a digit and is made of digits and at
most one point. -/
theorem formatFixed_form (n d prec : Nat) (alt : Bool) :
    ∃ intPart fracPart : List Char,
      intPart ≠ [] ∧ intPart.all Char.isDigit = true ∧ fracPart.all Char.isDigit = true ∧
      (formatFixed n d prec alt = intPart ++ '.' :: fracPart ∨
        formatFixed n d prec alt = intPart) := by
  obtain ⟨p1, p2, p3, p4⟩ := formatFixed_parts n d prec
  refine ⟨_, _, p1, p2, p3, ?_⟩
  unfold formatFixed
  by_cases h0 : (prec = 0 && !alt) = true
  · right; simp only [h0, if_true]
  · left
    simp only [h0]
    simp [List.append_assoc]

theorem head_digit_of_all (a : List Char) (rest : List Char) (ha : a ≠ [])
    (hd : a.all Char.isDigit = true) :
    ∃ c r, a ++ rest = c :: r ∧ c.isDigit = true := by
  cases a with
  | nil => exact absurd rfl ha
  | cons c cs =>
    refine ⟨c, cs ++ rest, rfl, ?_⟩
    rw [List.all_eq_true] at hd
    exact hd c (List.mem_cons_self _ _)

theorem pointed_numeral (a f : List Char) (ha : a.all Char.isDigit = true)
    (hf : f.all Char.isDigit = true) : (a ++ '.' :: f).all isNumeralChar = true := by
  rw [all_append_iff]
  refine ⟨all_numeral_of_digits _ ha, ?_⟩
  rw [List.all_cons]
  simp only [Bool.and_eq_true]
  exact ⟨by decide, all_numeral_of_digits _ hf⟩

theorem formatFixed_body (n d prec : Nat) (alt : Bool) :
    (∃ c r, formatFixed n d prec alt = c :: r ∧ c.isDigit = true) ∧
      (formatFixed n d prec alt).all isNumeralChar = true := by
  obtain ⟨a, f, ha, hda, hdf, h | h⟩ := formatFixed_form n d prec alt
  · rw [h]
    exact ⟨head_digit_of_all a _ ha hda, pointed_numeral a f hda hdf⟩
  · rw [h]
    have := head_digit_of_all a [] ha hda
    rw [List.append_nil] at this
    exact ⟨this, all_numeral_of_digits _ hda⟩

/-! ### Removing trailing zeros -/

theorem digits_no_point (a : List Char) (ha : a.all Char.isDigit = true) :
    a.contains '.' = false := by
  cases h : a.contains '.' with
  | false => rfl
  | true =>
    exfalso
    rw [List.contains_iff_exists_mem_beq] at h
    obtain ⟨c, hc, hbeq⟩ := h
    rw [List.all_eq_true] at ha
    have hdig := ha c hc
    have : '.' = c := by simpa using hbeq
    subst this
    revert hdig; decide

theorem rstrip_pointed (a f : List Char) :
    ((a ++ '.' :: f).reverse.dropWhile (fun c => decide (c = '0'))).reverse
      = a ++ '.' :: (f.reverse.dropWhile (fun c => decide (c = '0'))).reverse := by
  rw [List.reverse_append, List.reverse_cons, List.append_assoc, List.singleton_append,
    dropWhile_append_stop _ _ _ _ (by decide)]
  simp [List.reverse_append]

theorem rstrip_last (f : List Char) (hf : f.all Char.isDigit = true) :
    ((f.reverse.dropWhile (fun c => decide (c = '0'))).reverse).getLast? ≠ some '.' := by
  rw [List.getLast?_reverse]
  intro h
  have hmem : '.' ∈ f.reverse.dropWhile (fun c => decide (c = '0')) :=
    List.mem_of_mem_head? h
  have hmem2 : '.' ∈ f :=
    List.mem_reverse.1 ((List.dropWhile_sublist _).subset hmem)
  rw [List.all_eq_true] at hf
  have := hf _ hmem2
  revert this; decide

/-- Removing the trailing zeros of digits with a point: the fractional digits
lose their trailing zeros, and the point goes when none remains. -/
theorem stripTrailingZeros_pointed (a f : List Char) (hf : f.all Char.isDigit = true) :
    stripTrailingZeros (a ++ '.' :: f)
      = if (f.reverse.dropWhile (fun c => decide (c = '0'))).reverse = [] then a
        else a ++ '.' :: (f.reverse.dropWhile (fun c => decide (c = '0'))).reverse := by
  have hc : (a ++ '.' :: f).contains '.' = true := by
    rw [List.contains_iff_exists_mem_beq]
    exact ⟨'.', by simp, by simp⟩
  unfold stripTrailingZeros
  simp only [hc, if_true]
  rw [rstrip_pointed]
  by_cases he : (f.reverse.dropWhile (fun c => decide (c = '0'))).reverse = []
  · rw [he]
    simp
  · rw [if_neg he]
    have hl := rstrip_last f hf
    have : (a ++ '.' :: (f.reverse.dropWhile (fun c => decide (c = '0'))).reverse).getLast?
        = ((f.reverse.dropWhile (fun c => decide (c = '0'))).reverse).getLast? := by
      rw [List.getLast?_append, List.getLast?_cons]
      cases hq : ((f.reverse.dropWhile (fun c => decide (c = '0'))).reverse).getLast? with
      | none =>
        exfalso
        exact he (List.getLast?_eq_none_iff.1 hq)
      | some v => simp
    rw [if_neg (by rw [this]; exact hl)]

theorem rstrip_digits (f : List Char) (hf : f.all Char.isDigit = true) :
    ((f.reverse.dropWhile (fun c => decide (c = '0'))).reverse).all Char.isDigit = true := by
  rw [List.all_eq_true] at hf ⊢
  intro c hc
  exact hf c (List.mem_reverse.1 ((List.dropWhile_sublist _).subset (List.mem_reverse.1 hc)))

/-- Removing trailing zeros keeps the leading digit and the alphabet. -/
theorem stripTrailingZeros_body (a f : List Char) (ha : a ≠ [])
    (hda : a.all Char.isDigit = true) (hdf : f.all Char.isDigit = true) (rest : List Char)
    (hr : rest.all isNumeralChar = true) :
    (∃ c r, stripTrailingZeros (a ++ '.' :: f) ++ rest = c :: r ∧ c.isDigit = true) ∧
      (stripTrailingZeros (a ++ '.' :: f) ++ rest).all isNumeralChar = true := by
  rw [stripTrailingZeros_pointed a f hdf]
  split
  · refine ⟨head_digit_of_all a rest ha hda, ?_⟩
    rw [all_append_iff]
    exact ⟨all_numeral_of_digits _ hda, hr⟩
  · refine ⟨?_, ?_⟩
    · have := head_digit_of_all a
        ('.' :: (f.reverse.dropWhile (fun c => decide (c = '0'))).reverse ++ rest) ha hda
      simpa [List.append_assoc] using this
    · rw [all_append_iff]
      exact ⟨pointed_numeral a _ hda (rstrip_digits f hdf), hr⟩


theorem take_one_padDigits (w n : Nat) :
    (padDigits (w + 1) n).take 1 ≠ [] ∧ ((padDigits (w + 1) n).take 1).all Char.isDigit = true ∧
      ((padDigits (w + 1) n).drop 1).all Char.isDigit = true := by
  have hlen := padDigits_length (w + 1) n
  have hdig := padDigits_isDigit (w + 1) n
  rw [List.all_eq_true] at hdig
  refine ⟨?_, ?_, ?_⟩
  · intro h
    cases hq : padDigits (w + 1) n with
    | nil => rw [hq] at hlen; simp at hlen
    | cons c cs => rw [hq] at h; simp at h
  · rw [List.all_eq_true]
    intro c hc
    exact hdig c (List.mem_of_mem_take hc)
  · rw [List.all_eq_true]
    intro c hc
    exact hdig c (List.mem_of_mem_drop hc)

/-- A text in the style `%e` begins with a digit and is a numeral. -/
theorem formatSci_body (n d prec : Nat) (alt upper : Bool) :
    (∃ c r, formatSci n d prec alt upper = c :: r ∧ c.isDigit = true) ∧
      (formatSci n d prec alt upper).all isNumeralChar = true := by
  unfold formatSci
  generalize (if n = 0 then ((0 : Nat), (0 : Int)) else sciDigits n d prec) = q
  obtain ⟨ds, x⟩ := q
  simp only
  obtain ⟨t1, t2, t3⟩ := take_one_padDigits prec ds
  have hx := formatExponent_numeral x upper
  by_cases h0 : (prec = 0 && !alt) = true
  · simp only [h0, if_true]
    refine ⟨head_digit_of_all _ _ t1 t2, ?_⟩
    rw [all_append_iff]
    exact ⟨all_numeral_of_digits _ t2, hx⟩
  · simp only [h0]
    refine ⟨?_, ?_⟩
    · have := head_digit_of_all _ (['.'] ++ (padDigits (prec + 1) ds).drop 1
        ++ formatExponent x upper) t1 t2
      simpa [List.append_assoc] using this
    · rw [all_append_iff]
      refine ⟨?_, hx⟩
      have := pointed_numeral _ _ t2 t3
      simpa [List.append_assoc] using this

/-- A text in the style `%g` begins with a digit and is a numeral. -/
theorem formatGeneral_body (n d prec : Nat) (alt upper : Bool) :
    (∃ c r, formatGeneral n d prec alt upper = c :: r ∧ c.isDigit = true) ∧
      (formatGeneral n d prec alt upper).all isNumeralChar = true := by
  unfold formatGeneral
  simp only
  generalize hp : (if prec = 0 then 1 else prec) = p
  have hp1 : 1 ≤ p := by
    rw [← hp]; split <;> omega
  generalize (if n = 0 then (0 : Int) else (sciDigits n d (p - 1)).2) = x
  split
  · -- the style `%f`
    cases alt with
    | true => simpa using formatFixed_body n d _ true
    | false =>
      simp only [Bool.false_eq_true, if_false]
      obtain ⟨a, f, ha, hda, hdf, h | h⟩ := formatFixed_form n d ((p : Int) - 1 - x).toNat false
      · rw [h]
        have := stripTrailingZeros_body a f ha hda hdf [] rfl
        simpa using this
      · rw [h]
        have hs : stripTrailingZeros a = a := by
          unfold stripTrailingZeros
          rw [digits_no_point a hda]
          simp
        rw [hs]
        have := head_digit_of_all a [] ha hda
        rw [List.append_nil] at this
        exact ⟨this, all_numeral_of_digits _ hda⟩
  · -- the style `%e`
    generalize sciDigits n d (p - 1) = q
    obtain ⟨ds, x2⟩ := q
    simp only
    obtain ⟨w, rfl⟩ : ∃ w, p = w + 1 := ⟨p - 1, by omega⟩
    obtain ⟨t1, t2, t3⟩ := take_one_padDigits w ds
    have hx := formatExponent_numeral x upper
    cases alt with
    | true =>
      simp only [if_true]
      split
      · refine ⟨?_, ?_⟩
        · have := head_digit_of_all _ (['.'] ++ formatExponent x upper) t1 t2
          simpa [List.append_assoc] using this
        · rw [all_append_iff]
          refine ⟨?_, hx⟩
          have := pointed_numeral _ [] t2 rfl
          simpa using this
      · refine ⟨?_, ?_⟩
        · have := head_digit_of_all _ (['.'] ++ (padDigits (w + 1) ds).drop 1
            ++ formatExponent x upper) t1 t2
          simpa [List.append_assoc] using this
        · rw [all_append_iff]
          refine ⟨?_, hx⟩
          have := pointed_numeral _ _ t2 t3
          simpa [List.append_assoc] using this
    | false =>
      simp only [Bool.false_eq_true, if_false]
      have := stripTrailingZeros_body _ _ t1 t2 t3 (formatExponent x upper) hx
      simpa [List.append_assoc] using this

/-! ## The decimal exponent of a number -/

theorem toDigitsCore_length (fuel n : Nat) (acc : List Char) (hf : n < fuel) (hn : 0 < n) :
    ∃ k, (Nat.toDigitsCore 10 fuel n acc).length = acc.length + k + 1 ∧
      10 ^ k ≤ n ∧ n < 10 ^ (k + 1) := by
  induction fuel generalizing n acc with
  | zero => omega
  | succ f ih =>
    simp only [Nat.toDigitsCore]
    split
    · rename_i h0
      refine ⟨0, by simp, by simpa using hn, ?_⟩
      have := Nat.div_add_mod n 10
      have := Nat.mod_lt n (show 0 < 10 by decide)
      omega
    · rename_i h0
      have hlt : n / 10 < f := by omega
      have hpos : 0 < n / 10 := Nat.pos_of_ne_zero h0
      obtain ⟨k, hk1, hk2, hk3⟩ := ih (n / 10) (Nat.digitChar (n % 10) :: acc) hlt hpos
      refine ⟨k + 1, ?_, ?_, ?_⟩
      · rw [hk1, List.length_cons]; omega
      · have := Nat.div_add_mod n 10
        rw [pow_succ]; omega
      · have := Nat.div_add_mod n 10
        have := Nat.mod_lt n (show 0 < 10 by decide)
        rw [pow_succ]; omega

theorem toDigits_length (n : Nat) (hn : 0 < n) :
    ∃ k, (Nat.toDigits 10 n).length = k + 1 ∧ 10 ^ k ≤ n ∧ n < 10 ^ (k + 1) := by
  obtain ⟨k, h1, h2, h3⟩ := toDigitsCore_length (n + 1) n [] (Nat.lt_succ_self n) hn
  exact ⟨k, by simpa [Nat.toDigits] using h1, h2, h3⟩

theorem toDigits_length_le (n w : Nat) (h : n < 10 ^ (w + 1)) :
    (Nat.toDigits 10 n).length ≤ w + 1 := by
  rcases Nat.eq_zero_or_pos n with h0 | hpos
  · subst h0
    simp [Nat.toDigits, Nat.toDigitsCore]
  · obtain ⟨k, h1, h2, -⟩ := toDigits_length n hpos
    have : 10 ^ k < 10 ^ (w + 1) := lt_of_le_of_lt h2 h
    have := (Nat.pow_lt_pow_iff_right (show 1 < 10 by decide)).1 this
    omega

theorem padDigits_length_eq (w n : Nat) (h : n < 10 ^ (w + 1)) :
    (padDigits (w + 1) n).length = w + 1 := by
  have := toDigits_length_le n w h
  unfold padDigits
  simp only [List.length_append, List.length_replicate]
  omega

theorem log10Search_spec (n d fuel j0 : Nat) (h0 : ∀ i, i < j0 → ¬ d ≤ n * pow10 i) :
    (∀ i, i < log10Search n d fuel j0 → ¬ d ≤ n * pow10 i) ∧
      (d ≤ n * pow10 (log10Search n d fuel j0) ∨ log10Search n d fuel j0 = j0 + fuel) := by
  induction fuel generalizing j0 with
  | zero => exact ⟨by simpa [log10Search] using h0, Or.inr (by simp [log10Search])⟩
  | succ f ih =>
    unfold log10Search
    split
    · rename_i h
      exact ⟨h0, Or.inl h⟩
    · rename_i h
      have h1 : ∀ i, i < j0 + 1 → ¬ d ≤ n * pow10 i := by
        intro i hi
        rcases Nat.lt_succ_iff_lt_or_eq.1 hi with hi | hi
        · exact h0 i hi
        · subst hi; exact h
      obtain ⟨a, b⟩ := ih (j0 + 1) h1
      refine ⟨a, ?_⟩
      rcases b with b | b
      · exact Or.inl b
      · right; omega

/-- The integer `floorLog10Q n d` is the decimal exponent of `n / d`. -/
theorem floorLog10Q_spec (n d : Nat) (hn : 0 < n) (hd : 0 < d) :
    (10 : ℚ) ^ (floorLog10Q n d) ≤ (n : ℚ) / d ∧
      (n : ℚ) / d < (10 : ℚ) ^ (floorLog10Q n d + 1) := by
  have hdq : (0 : ℚ) < d := by exact_mod_cast hd
  unfold floorLog10Q
  split
  · rename_i hle
    have hq : 0 < n / d := Nat.div_pos hle hd
    obtain ⟨k, h1, h2, h3⟩ := toDigits_length (n / d) hq
    rw [h1, Nat.add_sub_cancel]
    have hm := Nat.div_mul_le_self n d
    have hlt := Nat.lt_succ_iff.2 (Nat.le_refl (n / d))
    have hn2 : n < (n / d + 1) * d := by
      have := Nat.div_add_mod n d
      have := Nat.mod_lt n hd
      rw [Nat.add_mul, Nat.mul_comm (n / d) d]
      omega
    constructor
    · rw [le_div_iff₀ hdq, zpow_natCast]
      have : 10 ^ k * d ≤ n := le_trans (Nat.mul_le_mul_right d h2) hm
      exact_mod_cast this
    · rw [div_lt_iff₀ hdq]
      have e : ((k : Int) + 1) = ((k + 1 : Nat) : Int) := by push_cast; ring
      rw [e, zpow_natCast]
      have : n < 10 ^ (k + 1) * d :=
        lt_of_lt_of_le hn2 (Nat.mul_le_mul_right d (by omega))
      exact_mod_cast this
  · rename_i hlt
    have hlt : n < d := Nat.lt_of_not_le hlt
    obtain ⟨a, b⟩ := log10Search_spec n d (ilog2 d + 1) 1 (by
      intro i hi
      have : i = 0 := by omega
      subst this
      simp [pow10]
      exact hlt)
    generalize hj : log10Search n d (ilog2 d + 1) 1 = j at a b
    have hj1 : 1 ≤ j := by
      by_contra hc
      have : j = 0 := by omega
      subst this
      rcases b with b | b
      · simp [pow10] at b; omega
      · omega
    have hfound : d ≤ n * pow10 j := by
      rcases b with b | b
      · exact b
      · have hs := (ilog2_spec d hd).2
        have h210 : 2 ^ (ilog2 d + 1) ≤ 10 ^ (ilog2 d + 1) :=
          Nat.pow_le_pow_left (by decide) _
        rw [b, pow10_eq]
        have h3 : 10 ^ (ilog2 d + 1) ≤ 10 ^ (1 + (ilog2 d + 1)) :=
          Nat.pow_le_pow_right (by decide) (by omega)
        calc d ≤ 10 ^ (1 + (ilog2 d + 1)) := by omega
          _ = 1 * 10 ^ (1 + (ilog2 d + 1)) := (Nat.one_mul _).symm
          _ ≤ n * 10 ^ (1 + (ilog2 d + 1)) := Nat.mul_le_mul_right _ hn
    have hprev : ¬ d ≤ n * pow10 (j - 1) := a (j - 1) (by omega)
    rw [pow10_eq] at hfound hprev
    have hp : (0 : ℚ) < (10 : ℚ) ^ j := by positivity
    have hp1 : (0 : ℚ) < (10 : ℚ) ^ (j - 1) := by positivity
    constructor
    · rw [zpow_neg, zpow_natCast, le_div_iff₀ hdq, inv_mul_le_iff₀ hp]
      have : (d : ℚ) ≤ (n : ℚ) * (10 : ℚ) ^ j := by exact_mod_cast hfound
      linarith
    · have e : (-(j : Int) + 1) = -((j - 1 : Nat) : Int) := by
        rw [Nat.cast_sub hj1]; push_cast; ring
      rw [e, zpow_neg, zpow_natCast, div_lt_iff₀ hdq, lt_inv_mul_iff₀ hp1]
      have : (n : ℚ) * (10 : ℚ) ^ (j - 1) < d := by
        have := Nat.lt_of_not_le hprev
        exact_mod_cast this
      linarith


/-- The digits and the exponent of the style `%e`: `prec + 1` significant
digits, the first not zero, that denote the number within half a unit of the
last digit of its exponent. -/
theorem sciDigits_spec (n d prec : Nat) (hn : 0 < n) (hd : 0 < d) :
    pow10 prec ≤ (sciDigits n d prec).1 ∧ (sciDigits n d prec).1 < pow10 (prec + 1) ∧
    |((sciDigits n d prec).1 : ℚ) * (10 : ℚ) ^ ((sciDigits n d prec).2 - (prec : Int))
        - (n : ℚ) / d| ≤ (10 : ℚ) ^ (floorLog10Q n d - (prec : Int)) / 2 ∧
    ((sciDigits n d prec).2 = floorLog10Q n d ∨
      ((sciDigits n d prec).2 = floorLog10Q n d + 1 ∧ (sciDigits n d prec).1 = pow10 prec)) := by
  obtain ⟨hlo, hhi⟩ := floorLog10Q_spec n d hn hd
  have hr := roundScaled10_abs n d ((prec : Int) - floorLog10Q n d) hd
  generalize hx : floorLog10Q n d = x at hlo hhi hr
  generalize hR : roundScaled10 n d ((prec : Int) - x) = R at hr
  have hpx : (0 : ℚ) < (10 : ℚ) ^ ((prec : Int) - x) := zpow_pos (by norm_num) _
  have e1 : (10 : ℚ) ^ x * (10 : ℚ) ^ ((prec : Int) - x) = (10 : ℚ) ^ prec := by
    rw [← zpow_add₀ (by norm_num)]
    have : x + ((prec : Int) - x) = (prec : Int) := by ring
    rw [this, zpow_natCast]
  have e2 : (10 : ℚ) ^ (x + 1) * (10 : ℚ) ^ ((prec : Int) - x) = (10 : ℚ) ^ (prec + 1) := by
    rw [← zpow_add₀ (by norm_num)]
    have : x + 1 + ((prec : Int) - x) = ((prec + 1 : Nat) : Int) := by push_cast; ring
    rw [this, zpow_natCast]
  have hy1 : (10 : ℚ) ^ prec ≤ (n : ℚ) / d * (10 : ℚ) ^ ((prec : Int) - x) := by
    rw [← e1]; exact mul_le_mul_of_nonneg_right hlo (le_of_lt hpx)
  have hy2 : (n : ℚ) / d * (10 : ℚ) ^ ((prec : Int) - x) < (10 : ℚ) ^ (prec + 1) := by
    rw [← e2]; exact mul_lt_mul_of_pos_right hhi hpx
  rw [abs_le] at hr
  have hR1 : 10 ^ prec ≤ R := by
    have : ((10 ^ prec : Nat) : ℚ) < (R : ℚ) + 1 := by push_cast; linarith [hr.1]
    have : 10 ^ prec < R + 1 := by exact_mod_cast this
    omega
  have hR2 : R ≤ 10 ^ (prec + 1) := by
    have : (R : ℚ) < ((10 ^ (prec + 1) : Nat) : ℚ) + 1 := by push_cast; linarith [hr.2]
    have : R < 10 ^ (prec + 1) + 1 := by exact_mod_cast this
    omega
  -- the value written, whether or not the rounding carried
  have hval : |(R : ℚ) * (10 : ℚ) ^ (x - (prec : Int)) - (n : ℚ) / d|
      ≤ (10 : ℚ) ^ (x - (prec : Int)) / 2 := by
    have hq : (0 : ℚ) < (10 : ℚ) ^ (x - (prec : Int)) := zpow_pos (by norm_num) _
    have e3 : (10 : ℚ) ^ ((prec : Int) - x) * (10 : ℚ) ^ (x - (prec : Int)) = 1 := by
      rw [← zpow_add₀ (by norm_num)]
      have : (prec : Int) - x + (x - (prec : Int)) = 0 := by ring
      rw [this, zpow_zero]
    have e4 : (R : ℚ) * (10 : ℚ) ^ (x - (prec : Int)) - (n : ℚ) / d
        = ((R : ℚ) - (n : ℚ) / d * (10 : ℚ) ^ ((prec : Int) - x))
            * (10 : ℚ) ^ (x - (prec : Int)) := by
      rw [sub_mul, mul_assoc, e3, mul_one]
    rw [e4, abs_mul, abs_of_pos hq]
    have : |(R : ℚ) - (n : ℚ) / d * (10 : ℚ) ^ ((prec : Int) - x)| ≤ 1 / 2 := abs_le.2 hr
    calc |(R : ℚ) - (n : ℚ) / d * (10 : ℚ) ^ ((prec : Int) - x)| * (10 : ℚ) ^ (x - (prec : Int))
        ≤ 1 / 2 * (10 : ℚ) ^ (x - (prec : Int)) := mul_le_mul_of_nonneg_right this (le_of_lt hq)
      _ = (10 : ℚ) ^ (x - (prec : Int)) / 2 := by ring
  unfold sciDigits
  simp only [hx, hR]
  by_cases hc : R = pow10 (prec + 1)
  · simp only [hc, if_true]
    refine ⟨le_refl _, ?_, ?_, by simp⟩
    · rw [pow10_eq, pow10_eq]
      exact Nat.pow_lt_pow_right (by decide) (Nat.lt_succ_self _)
    · have e5 : ((pow10 prec : Nat) : ℚ) * (10 : ℚ) ^ (x + 1 - (prec : Int))
          = ((pow10 (prec + 1) : Nat) : ℚ) * (10 : ℚ) ^ (x - (prec : Int)) := by
        rw [cast_pow10, cast_pow10, ← zpow_add₀ (by norm_num), ← zpow_add₀ (by norm_num)]
        congr 1
        push_cast; ring
      rw [e5, ← hc]
      exact hval
  · simp only [hc, if_false]
    refine ⟨by rw [pow10_eq]; exact hR1, ?_, hval, by simp⟩
    rw [pow10_eq] at hc ⊢
    omega

/-! ## The number a price text denotes -/

theorem formatExponent_isExponentText (x : Int) (upper : Bool) :
    isExponentText x (formatExponent x upper) ∧ formatExponent x upper ≠ [] := by
  refine ⟨Or.inr ⟨if upper then 'E' else 'e', if x < 0 then '-' else '+', padDigits 2 x.natAbs,
    rfl, ?_, padDigits_length 2 _, padDigits_isDigit 2 _, ?_⟩, by simp [formatExponent]⟩
  · cases upper <;> simp
  · rw [digitsToNat_padDigits]
    by_cases hx : x < 0
    · right
      simp only [hx, if_true, true_and]
      omega
    · left
      simp only [hx, if_false, true_and]
      omega

theorem digitsToNat_lt (l : List Char) (h : l.all Char.isDigit = true) :
    digitsToNat l < 10 ^ l.length := by
  induction l with
  | nil => simp [digitsToNat]
  | cons c cs ih =>
    simp only [List.all_cons, Bool.and_eq_true] at h
    rw [digitsToNat_cons, List.length_cons, pow_succ]
    have hc : c.toNat - 48 ≤ 9 := by
      have : 48 ≤ c.val ∧ c.val ≤ 57 := by simpa [Char.isDigit] using h.1
      have h2 : c.toNat ≤ 57 := by
        have h3 := this.2
        rw [UInt32.le_def] at h3
        exact h3
      omega
    have := ih h.2
    nlinarith

theorem rstrip_zeros (f : List Char) :
    ∃ k, f = (f.reverse.dropWhile (fun c => decide (c = '0'))).reverse
      ++ List.replicate k '0' := by
  refine ⟨(f.reverse.takeWhile (fun c => decide (c = '0'))).length, ?_⟩
  have h := List.takeWhile_append_dropWhile (fun c => decide (c = '0')) f.reverse
  have hz : f.reverse.takeWhile (fun c => decide (c = '0'))
      = List.replicate (f.reverse.takeWhile (fun c => decide (c = '0'))).length '0' := by
    rw [List.eq_replicate_iff]
    refine ⟨rfl, ?_⟩
    intro b hb
    simpa using List.mem_takeWhile_imp hb
  have h2 := congrArg List.reverse h
  rw [List.reverse_append, List.reverse_reverse] at h2
  rw [hz, List.reverse_replicate] at h2
  exact h2.symm

/-- Trailing zeros after the point do not change the number denoted. -/
theorem decimalValue_rstrip (a f : List Char) :
    decimalValue a ((f.reverse.dropWhile (fun c => decide (c = '0'))).reverse)
      = decimalValue a f := by
  obtain ⟨k, hk⟩ := rstrip_zeros f
  generalize (f.reverse.dropWhile (fun c => decide (c = '0'))).reverse = g at hk
  subst hk
  unfold decimalValue
  rw [← List.append_assoc, digitsToNat_append (a ++ g), digitsToNat_replicate_zero,
    List.length_append, List.length_replicate, pow_add]
  push_cast
  have h1 : (0 : ℚ) < (10 : ℚ) ^ g.length := by positivity
  have h2 : (0 : ℚ) < (10 : ℚ) ^ k := by positivity
  field_simp
  ring

theorem decimalValue_take_drop (l : List Char) (w : Nat) (hl : l.length = w + 1) :
    decimalValue (l.take 1) (l.drop 1) = (digitsToNat l : ℚ) / (10 : ℚ) ^ w := by
  unfold decimalValue
  rw [List.take_append_drop, List.length_drop, hl, Nat.add_sub_cancel]

theorem decimalValue_nil (a : List Char) : decimalValue a [] = (digitsToNat a : ℚ) := by
  simp [decimalValue]


/-- The leading digit of `prec + 1` significant digits is not zero. -/
theorem lead_ne_zero (l : List Char) (w : Nat) (hl : l.length = w + 1)
    (hd : l.all Char.isDigit = true) (hv : 10 ^ w ≤ digitsToNat l) :
    ∃ c, l.take 1 = [c] ∧ c.isDigit = true ∧ c ≠ '0' := by
  cases l with
  | nil => simp at hl
  | cons c cs =>
    simp only [List.all_cons, Bool.and_eq_true] at hd
    refine ⟨c, rfl, hd.1, ?_⟩
    rintro rfl
    rw [digitsToNat_cons] at hv
    have hlt := digitsToNat_lt cs hd.2
    have : cs.length = w := by simpa using hl
    rw [this] at hlt
    simp at hv
    omega

theorem lead_digit (l : List Char) (w : Nat) (hl : l.length = w + 1)
    (hd : l.all Char.isDigit = true) :
    ∃ c, l.take 1 = [c] ∧ c.isDigit = true := by
  cases l with
  | nil => simp at hl
  | cons c cs =>
    simp only [List.all_cons, Bool.and_eq_true] at hd
    exact ⟨c, rfl, hd.1⟩

/-- The style `%e` shows the number in scientific notation. -/
theorem formatSci_shows (n d prec : Nat) (alt upper : Bool) (hd : 0 < d) :
    showsScientific prec ((n : ℚ) / d) (formatSci n d prec alt upper) := by
  have hdq : (0 : ℚ) < d := by exact_mod_cast hd
  -- the digits, the exponent, and what they denote
  have key : ∃ (ds : Nat) (x : Int),
      (if n = 0 then ((0 : Nat), (0 : Int)) else sciDigits n d prec) = (ds, x) ∧
      ds < 10 ^ (prec + 1) ∧ ((n : ℚ) / d ≠ 0 → 10 ^ prec ≤ ds) ∧
      |(ds : ℚ) / (10 : ℚ) ^ prec * (10 : ℚ) ^ x - (n : ℚ) / d|
        ≤ (n : ℚ) / d / (2 * (10 : ℚ) ^ prec) := by
    by_cases hn : n = 0
    · refine ⟨0, 0, by simp [hn], by positivity, ?_, by simp [hn]⟩
      intro h; simp [hn] at h
    · have hnp : 0 < n := Nat.pos_of_ne_zero hn
      obtain ⟨s1, s2, s3, -⟩ := sciDigits_spec n d prec hnp hd
      obtain ⟨hlo, -⟩ := floorLog10Q_spec n d hnp hd
      refine ⟨(sciDigits n d prec).1, (sciDigits n d prec).2, by simp [hn], ?_, ?_, ?_⟩
      · rw [← pow10_eq]; exact s2
      · intro _; rw [← pow10_eq]; exact s1
      · have hp : (0 : ℚ) < (10 : ℚ) ^ prec := by positivity
        have e1 : ((sciDigits n d prec).1 : ℚ) / (10 : ℚ) ^ prec
              * (10 : ℚ) ^ (sciDigits n d prec).2
            = ((sciDigits n d prec).1 : ℚ)
              * (10 : ℚ) ^ ((sciDigits n d prec).2 - (prec : Int)) := by
          rw [zpow_sub₀ (by norm_num), zpow_natCast]
          field_simp
        rw [e1]
        refine le_trans s3 ?_
        rw [zpow_sub₀ (by norm_num), zpow_natCast, div_div, div_le_div_iff₀ (by positivity)
          (by positivity)]
        have : (10 : ℚ) ^ floorLog10Q n d * (2 * (10 : ℚ) ^ prec)
            ≤ (n : ℚ) / d * (2 * (10 : ℚ) ^ prec) :=
          mul_le_mul_of_nonneg_right hlo (by positivity)
        linarith
  obtain ⟨ds, x, hq, hlt, hge, hval⟩ := key
  unfold formatSci
  rw [hq]
  simp only
  have hlen := padDigits_length_eq prec ds hlt
  have hdig := padDigits_isDigit (prec + 1) ds
  obtain ⟨t1, t2, t3⟩ := take_one_padDigits prec ds
  obtain ⟨hx, hxne⟩ := formatExponent_isExponentText x upper
  obtain ⟨c, hc, hcd⟩ := lead_digit _ prec hlen hdig
  have hlead : (n : ℚ) / d ≠ 0 → c ≠ '0' := by
    intro hv
    obtain ⟨c2, hc2, -, hne⟩ := lead_ne_zero _ prec hlen hdig
      (by rw [digitsToNat_padDigits]; exact hge hv)
    rw [hc] at hc2
    injection hc2 with h1 _
    rw [h1]; exact hne
  have hfl : ((padDigits (prec + 1) ds).drop 1).length = prec := by
    rw [List.length_drop, hlen, Nat.add_sub_cancel]
  have hdv : decimalValue [c] ((padDigits (prec + 1) ds).drop 1)
      = (ds : ℚ) / (10 : ℚ) ^ prec := by
    rw [← hc, decimalValue_take_drop _ prec hlen, digitsToNat_padDigits]
  refine ⟨c, (padDigits (prec + 1) ds).drop 1, formatExponent x upper, x, hcd, hlead, t3, hfl,
    ?_, hxne, hx, ?_⟩
  · by_cases h0 : (prec = 0 && !alt) = true
    · right
      simp only [Bool.and_eq_true, decide_eq_true_eq] at h0
      obtain ⟨hp0, ha⟩ := h0
      subst hp0
      refine ⟨rfl, ?_⟩
      simp only [Nat.zero_add] at hc
      simp [ha, hc]
    · left
      simp only [h0]
      simp [hc]
  · rw [hdv]; exact hval


/-- The digits of the style `%f` and the number they denote. -/
theorem formatFixed_value (n d prec : Nat) (alt : Bool) :
    ∃ intPart fracPart : List Char,
      intPart ≠ [] ∧ intPart.all Char.isDigit = true ∧ fracPart.all Char.isDigit = true ∧
      (formatFixed n d prec alt = intPart ++ '.' :: fracPart ∨
        (fracPart = [] ∧ alt = false ∧ formatFixed n d prec alt = intPart)) ∧
      decimalValue intPart fracPart
        = ((roundScaled10 n d prec : Nat) : ℚ) / (10 : ℚ) ^ prec := by
  obtain ⟨p1, p2, p3, p4⟩ := formatFixed_parts n d prec
  refine ⟨_, _, p1, p2, p3, ?_, ?_⟩
  · unfold formatFixed
    by_cases h0 : (prec = 0 && !alt) = true
    · right
      simp only [Bool.and_eq_true, decide_eq_true_eq, Bool.not_eq_true'] at h0
      refine ⟨?_, h0.2, ?_⟩
      · apply List.eq_nil_of_length_eq_zero
        rw [p4]; exact h0.1
      · simp [h0.1, h0.2]
    · left
      simp only [h0]
      simp [List.append_assoc]
  · unfold decimalValue
    rw [p4, List.take_append_drop, digitsToNat_padDigits]

theorem showsNumber_pointed (v tol : ℚ) (a f e : List Char) (x : Int) (ha : a ≠ [])
    (hda : a.all Char.isDigit = true) (hdf : f.all Char.isDigit = true)
    (hx : isExponentText x e) (hval : |decimalValue a f * (10 : ℚ) ^ x - v| ≤ tol) :
    showsNumber v tol (a ++ '.' :: f ++ e) :=
  ⟨a, f, e, x, ha, hda, hdf, Or.inl (by simp), hx, hval⟩

theorem showsNumber_plain (v tol : ℚ) (a e : List Char) (x : Int) (ha : a ≠ [])
    (hda : a.all Char.isDigit = true)
    (hx : isExponentText x e) (hval : |decimalValue a [] * (10 : ℚ) ^ x - v| ≤ tol) :
    showsNumber v tol (a ++ e) :=
  ⟨a, [], e, x, ha, hda, rfl, Or.inr ⟨rfl, rfl⟩, hx, hval⟩

/-- Removing the trailing zeros keeps the number denoted. -/
theorem showsNumber_stripped (v tol : ℚ) (a f e : List Char) (x : Int) (ha : a ≠ [])
    (hda : a.all Char.isDigit = true) (hdf : f.all Char.isDigit = true)
    (hx : isExponentText x e) (hval : |decimalValue a f * (10 : ℚ) ^ x - v| ≤ tol) :
    showsNumber v tol (stripTrailingZeros (a ++ '.' :: f) ++ e) := by
  rw [stripTrailingZeros_pointed a f hdf]
  have hv := decimalValue_rstrip a f
  split
  · rename_i he
    rw [he] at hv
    exact showsNumber_plain v tol a e x ha hda hx (by rw [hv]; exact hval)
  · exact showsNumber_pointed v tol a _ e x ha hda (rstrip_digits f hdf) hx
      (by rw [hv]; exact hval)

theorem isExponentText_nil : isExponentText 0 [] := Or.inl ⟨rfl, rfl⟩

theorem roundScaled10_zero (d : Nat) (k : Nat) (hd : 0 < d) :
    roundScaled10 0 d (k : Int) = 0 := by
  unfold roundScaled10
  rw [if_pos (Int.natCast_nonneg k)]
  simp [roundHalfEven_zero d hd]

/-- In the style `%g` the digits written in the style `%f` denote the number
to `p` significant digits. -/
theorem general_fixed_value (n d p : Nat) (hp : 1 ≤ p) (hd : 0 < d)
    (hx1 : (if n = 0 then (0 : Int) else (sciDigits n d (p - 1)).2) < (p : Int)) :
    |((roundScaled10 n d
          (((p : Int) - 1 - (if n = 0 then (0 : Int) else (sciDigits n d (p - 1)).2)).toNat
            : Nat) : Nat) : ℚ)
        / (10 : ℚ) ^ ((p : Int) - 1
            - (if n = 0 then (0 : Int) else (sciDigits n d (p - 1)).2)).toNat
      - (n : ℚ) / d| ≤ (n : ℚ) / d / (2 * (10 : ℚ) ^ (p - 1)) := by
  have hdq : (0 : ℚ) < d := by exact_mod_cast hd
  by_cases hn : n = 0
  · subst hn
    simp only [if_true] at hx1 ⊢
    rw [roundScaled10_zero d _ hd]
    simp
  · have hnp : 0 < n := Nat.pos_of_ne_zero hn
    simp only [hn, if_false] at hx1 ⊢
    obtain ⟨s1, s2, s3, s4⟩ := sciDigits_spec n d (p - 1) hnp hd
    obtain ⟨hlo, hhi⟩ := floorLog10Q_spec n d hnp hd
    generalize hx : (sciDigits n d (p - 1)).2 = x at hx1 s3 s4
    generalize hk : ((p : Int) - 1 - x).toNat = k
    have hkz : (k : Int) = (p : Int) - 1 - x := by
      rw [← hk, Int.toNat_of_nonneg (by omega)]
    have hp1 : ((p - 1 : Nat) : Int) = (p : Int) - 1 := by
      rw [Nat.cast_sub hp]; simp
    have hpk : (0 : ℚ) < (10 : ℚ) ^ k := by positivity
    have htol : (10 : ℚ) ^ (floorLog10Q n d - ((p - 1 : Nat) : Int)) / 2
        ≤ (n : ℚ) / d / (2 * (10 : ℚ) ^ (p - 1)) := by
      rw [zpow_sub₀ (by norm_num), zpow_natCast, div_div, div_le_div_iff₀ (by positivity)
        (by positivity)]
      have : (10 : ℚ) ^ floorLog10Q n d * (2 * (10 : ℚ) ^ (p - 1))
          ≤ (n : ℚ) / d * (2 * (10 : ℚ) ^ (p - 1)) :=
        mul_le_mul_of_nonneg_right hlo (by positivity)
      linarith
    have hdiv : ∀ R : Nat, |(R : ℚ) / (10 : ℚ) ^ k - (n : ℚ) / d|
        = |(R : ℚ) - (n : ℚ) / d * (10 : ℚ) ^ (k : Int)| / (10 : ℚ) ^ k := by
      intro R
      rw [zpow_natCast]
      have e : (R : ℚ) / (10 : ℚ) ^ k - (n : ℚ) / d
          = ((R : ℚ) - (n : ℚ) / d * (10 : ℚ) ^ k) / (10 : ℚ) ^ k := by
        field_simp
        ring
      rw [e, abs_div, abs_of_pos hpk]
    rcases s4 with s4 | ⟨s4, s5⟩
    · -- no carry
      have hr := roundScaled10_abs n d (k : Int) hd
      rw [hdiv, div_le_iff₀ hpk]
      refine le_trans hr ?_
      have e2 : (10 : ℚ) ^ (floorLog10Q n d - ((p - 1 : Nat) : Int)) * (10 : ℚ) ^ k = 1 := by
        rw [← zpow_natCast (10 : ℚ) k, ← zpow_add₀ (by norm_num)]
        have : floorLog10Q n d - ((p - 1 : Nat) : Int) + (k : Int) = 0 := by
          rw [hkz, hp1, s4]; ring
        rw [this, zpow_zero]
      have := mul_le_mul_of_nonneg_right htol (le_of_lt hpk)
      rw [div_mul_eq_mul_div, e2] at this
      exact this
    · -- the rounding carried: the digits are those of a power of ten
      rw [s5, cast_pow10] at s3
      have e3 : (10 : ℚ) ^ ((p - 1 : Nat) : Int) * (10 : ℚ) ^ (x - ((p - 1 : Nat) : Int))
          = (10 : ℚ) ^ x := by
        rw [← zpow_add₀ (by norm_num)]
        congr 1; ring
      rw [e3] at s3
      have hxk : (10 : ℚ) ^ x * (10 : ℚ) ^ (k : Int) = ((10 ^ (p - 1) : Nat) : ℚ) := by
        rw [← zpow_add₀ (by norm_num)]
        have : x + (k : Int) = ((p - 1 : Nat) : Int) := by rw [hkz, hp1]; ring
        rw [this, zpow_natCast]; push_cast; rfl
      have hnear : |((10 ^ (p - 1) : Nat) : ℚ) - (n : ℚ) / d * (10 : ℚ) ^ (k : Int)| < 1 / 2 := by
        rw [← hxk, ← sub_mul, abs_mul,
          abs_of_pos (zpow_pos (by norm_num : (0 : ℚ) < 10) (k : Int))]
        have e4 : (10 : ℚ) ^ (floorLog10Q n d - ((p - 1 : Nat) : Int)) / 2 * (10 : ℚ) ^ (k : Int)
            = 1 / 20 := by
          rw [div_mul_eq_mul_div, ← zpow_add₀ (by norm_num)]
          have : floorLog10Q n d - ((p - 1 : Nat) : Int) + (k : Int) = -1 := by
            rw [hkz, hp1, s4]; ring
          rw [this]; norm_num
        have := mul_le_mul_of_nonneg_right s3 (le_of_lt (zpow_pos (by norm_num : (0 : ℚ) < 10)
          (k : Int)))
        rw [e4] at this
        linarith
      have hR := roundScaled10_eq_of_abs n d (10 ^ (p - 1)) (k : Int) hd hnear
      rw [hR]
      have e5 : ((10 ^ (p - 1) : Nat) : ℚ) / (10 : ℚ) ^ k = (10 : ℚ) ^ x := by
        rw [← hxk, zpow_natCast]
        field_simp
      rw [e5]
      exact le_trans s3 htol


/-- The one digit before the point of the digits of a power of ten. -/
theorem lead_of_pow10 (l : List Char) (w : Nat) (hl : l.length = w + 1)
    (hd : l.all Char.isDigit = true) (hv : digitsToNat l = 10 ^ w) :
    digitsToNat (l.take 1) = 1 := by
  cases l with
  | nil => simp at hl
  | cons c cs =>
    simp only [List.all_cons, Bool.and_eq_true] at hd
    have hlt := digitsToNat_lt cs hd.2
    have hcs : cs.length = w := by simpa using hl
    rw [digitsToNat_cons, hcs] at hv
    rw [hcs] at hlt
    have hpos : 0 < 10 ^ w := by positivity
    have h1 : c.toNat - 48 = 1 := by
      rcases Nat.lt_or_ge (c.toNat - 48) 1 with h | h
      · have : c.toNat - 48 = 0 := by omega
        rw [this] at hv; omega
      · rcases Nat.lt_or_ge 1 (c.toNat - 48) with h2 | h2
        · have : 2 * 10 ^ w ≤ (c.toNat - 48) * 10 ^ w := Nat.mul_le_mul_right _ h2
          omega
        · omega
    simp [digitsToNat, h1]

/-- The style `%g` shows the number to `p` significant digits, `p` being the
precision (1 when it is 0). -/
theorem formatGeneral_shows (n d prec : Nat) (alt upper : Bool) (hd : 0 < d) :
    showsNumber ((n : ℚ) / d)
      ((n : ℚ) / d / (2 * (10 : ℚ) ^ ((if prec = 0 then 1 else prec) - 1)))
      (formatGeneral n d prec alt upper) := by
  have hdq : (0 : ℚ) < d := by exact_mod_cast hd
  unfold formatGeneral
  simp only
  generalize hp : (if prec = 0 then 1 else prec) = p
  have hp1 : 1 ≤ p := by
    rw [← hp]; split <;> omega
  have hfix := general_fixed_value n d p hp1 hd
  generalize hxdef : (if n = 0 then (0 : Int) else (sciDigits n d (p - 1)).2) = x at hfix
  by_cases hx : -4 ≤ x ∧ x < (p : Int)
  · -- the style `%f`
    rw [if_pos hx]
    have hval := hfix hx.2
    generalize ((p : Int) - 1 - x).toNat = k at hval
    obtain ⟨a, f, ha, hda, hdf, hform, hv⟩ := formatFixed_value n d k alt
    have hv0 : |decimalValue a f * (10 : ℚ) ^ (0 : Int) - (n : ℚ) / d|
        ≤ (n : ℚ) / d / (2 * (10 : ℚ) ^ (p - 1)) := by
      rw [zpow_zero, mul_one, hv]; exact hval
    rcases hform with hform | ⟨hf, halt, hform⟩
    · rw [hform]
      cases alt with
      | true =>
        simp only [if_true]
        have := showsNumber_pointed _ _ a f [] 0 ha hda hdf isExponentText_nil hv0
        simpa using this
      | false =>
        simp only [Bool.false_eq_true, if_false]
        have := showsNumber_stripped _ _ a f [] 0 ha hda hdf isExponentText_nil hv0
        simpa using this
    · subst hf; subst halt
      rw [hform]
      simp only [Bool.false_eq_true, if_false]
      have hs : stripTrailingZeros a = a := by
        unfold stripTrailingZeros
        rw [digits_no_point a hda]
        simp
      rw [hs]
      have := showsNumber_plain _ _ a [] 0 ha hda isExponentText_nil hv0
      simpa using this
  · -- the style `%e`
    rw [if_neg hx]
    have hn : n ≠ 0 := by
      intro h0
      apply hx
      rw [← hxdef, if_pos h0]
      constructor <;> omega
    have hnp : 0 < n := Nat.pos_of_ne_zero hn
    rw [if_neg hn] at hxdef
    obtain ⟨s1, s2, s3, s4⟩ := sciDigits_spec n d (p - 1) hnp hd
    obtain ⟨hlo, -⟩ := floorLog10Q_spec n d hnp hd
    obtain ⟨w, rfl⟩ : ∃ w, p = w + 1 := ⟨p - 1, by omega⟩
    simp only [Nat.add_sub_cancel] at s1 s2 s3 s4 hxdef ⊢
    rw [hxdef] at s3 s4
    generalize (sciDigits n d w).1 = ds at s1 s2 s3 s4
    rw [pow10_eq] at s1 s2
    have hlen := padDigits_length_eq w ds s2
    have hdig := padDigits_isDigit (w + 1) ds
    obtain ⟨t1, t2, t3⟩ := take_one_padDigits w ds
    obtain ⟨hxe, -⟩ := formatExponent_isExponentText x upper
    have hpw : (0 : ℚ) < (10 : ℚ) ^ w := by positivity
    have htol : (10 : ℚ) ^ (floorLog10Q n d - (w : Int)) / 2
        ≤ (n : ℚ) / d / (2 * (10 : ℚ) ^ w) := by
      rw [zpow_sub₀ (by norm_num), zpow_natCast, div_div, div_le_div_iff₀ (by positivity)
        (by positivity)]
      have : (10 : ℚ) ^ floorLog10Q n d * (2 * (10 : ℚ) ^ w)
          ≤ (n : ℚ) / d * (2 * (10 : ℚ) ^ w) :=
        mul_le_mul_of_nonneg_right hlo (by positivity)
      linarith
    have hval : |decimalValue ((padDigits (w + 1) ds).take 1) ((padDigits (w + 1) ds).drop 1)
          * (10 : ℚ) ^ x - (n : ℚ) / d| ≤ (n : ℚ) / d / (2 * (10 : ℚ) ^ w) := by
      rw [decimalValue_take_drop _ w hlen, digitsToNat_padDigits]
      have e1 : (ds : ℚ) / (10 : ℚ) ^ w * (10 : ℚ) ^ x
          = (ds : ℚ) * (10 : ℚ) ^ (x - (w : Int)) := by
        rw [zpow_sub₀ (by norm_num), zpow_natCast]
        field_simp
      rw [e1]
      exact le_trans s3 htol
    cases alt with
    | true =>
      simp only [if_true]
      split
      · -- a value with `p` integer digits rounded up to a power of ten
        rename_i hc
        have hds : ds = 10 ^ w := by
          rcases s4 with s4 | ⟨-, s5⟩
          · omega
          · rw [s5, pow10_eq]
        have hone := lead_of_pow10 _ w hlen hdig (by rw [digitsToNat_padDigits]; exact hds)
        have hv2 : |decimalValue ((padDigits (w + 1) ds).take 1) [] * (10 : ℚ) ^ x
            - (n : ℚ) / d| ≤ (n : ℚ) / d / (2 * (10 : ℚ) ^ w) := by
          rw [decimalValue_take_drop _ w hlen, digitsToNat_padDigits, hds] at hval
          rw [decimalValue_nil, hone]
          have e2 : ((10 ^ w : Nat) : ℚ) / (10 : ℚ) ^ w = ((1 : Nat) : ℚ) := by
            push_cast; field_simp
          rw [e2] at hval
          exact hval
        have := showsNumber_pointed _ _ _ [] (formatExponent x upper) x t1 t2 rfl hxe hv2
        simpa [List.append_assoc] using this
      · have := showsNumber_pointed _ _ _ _ (formatExponent x upper) x t1 t2 t3 hxe hval
        simpa [List.append_assoc] using this
    | false =>
      simp only [Bool.false_eq_true, if_false]
      have := showsNumber_stripped _ _ _ _ (formatExponent x upper) x t1 t2 t3 hxe hval
      simpa [List.append_assoc] using this

theorem abs_toRat_finite (neg : Bool) (m : Nat) (e : Int) :
    |Double.toRat (Double.finite neg m e)|
      = (((if 0 ≤ e then m * pow2 e.toNat else m : Nat) : ℚ))
        / ((if 0 ≤ e then 1 else pow2 (-e).toNat : Nat) : ℚ) := by
  rw [finite_value]
  have hnn : (0 : ℚ) ≤ (m : ℚ) * (2 : ℚ) ^ e :=
    mul_nonneg (Nat.cast_nonneg m) (le_of_lt (two_zpow_pos e))
  unfold Double.toRat
  cases neg
  · simp only [Bool.false_eq_true, if_false, one_mul]
    exact abs_of_nonneg hnn
  · simp only [if_true]
    rw [show (-1 : ℚ) * (m : ℚ) * (2 : ℚ) ^ e = -((m : ℚ) * (2 : ℚ) ^ e) by ring, abs_neg]
    exact abs_of_nonneg hnn

/-- The text of a finite `double`: the sign and a numeral that begins with a
digit and denotes the magnitude as the notation of the stream asks. -/
theorem formatDouble_finite (s : OStream) (neg : Bool) (m : Nat) (e : Int) :
    ∃ body, OStream.formatDouble s (Double.finite neg m e)
        = (if neg then ['-'] else if s.showpos then ['+'] else []) ++ body ∧
      (∃ c rest, body = c :: rest ∧ c.isDigit = true) ∧ body.all isNumeralChar = true ∧
      (s.floatfield = FloatField.fixed →
        showsFixed s.precision |Double.toRat (Double.finite neg m e)| body) ∧
      (s.floatfield = FloatField.scientific →
        showsScientific s.precision |Double.toRat (Double.finite neg m e)| body) ∧
      (s.floatfield = FloatField.general →
        showsNumber |Double.toRat (Double.finite neg m e)|
          (|Double.toRat (Double.finite neg m e)|
            / (2 * (10 : ℚ) ^ ((if s.precision = 0 then 1 else s.precision) - 1)))
          body) := by
  refine ⟨_, rfl, ?_⟩
  rw [abs_toRat_finite]
  have hd : 0 < (if 0 ≤ e then 1 else pow2 (-e).toNat) := by
    split
    · exact Nat.one_pos
    · exact pow2_pos _
  generalize (if 0 ≤ e then m * pow2 e.toNat else m) = n
  generalize (if 0 ≤ e then 1 else pow2 (-e).toNat) = d at hd
  cases hf : s.floatfield with
  | fixed =>
    obtain ⟨b1, b2⟩ := formatFixed_body n d s.precision s.showpoint
    refine ⟨b1, b2, ?_, ?_, ?_⟩
    · intro _; exact formatFixed_shows n d s.precision s.showpoint hd
    · intro h; cases h
    · intro h; cases h
  | scientific =>
    obtain ⟨b1, b2⟩ := formatSci_body n d s.precision s.showpoint s.uppercase
    refine ⟨b1, b2, ?_, ?_, ?_⟩
    · intro h; cases h
    · intro _; exact formatSci_shows n d s.precision s.showpoint s.uppercase hd
    · intro h; cases h
  | general =>
    obtain ⟨b1, b2⟩ := formatGeneral_body n d s.precision s.showpoint s.uppercase
    refine ⟨b1, b2, ?_, ?_, ?_⟩
    · intro h; cases h
    · intro h; cases h
    · intro _; exact formatGeneral_shows n d s.precision s.showpoint s.uppercase hd

theorem sign_plain (neg showpos : Bool) :
    ∀ c ∈ (if neg then ['-'] else if showpos then ['+'] else []),
      c ≠ '"' ∧ c ≠ '\\' ∧ isspace c = false := by
  intro c hc
  cases neg <;> cases showpos <;> simp at hc <;> (subst hc; decide)

/-- What the inserter of `double` writes is the price as an unquoted text. -/
theorem formatDouble_isPriceText (s : OStream) (price : Double) :
    isPriceText s price (OStream.formatDouble s price) := by
  cases price with
  | nan neg =>
    refine ⟨?_, ?_, (if OStream.capitals s then "NAN".toList else "nan".toList), rfl, ?_, ?_, ?_⟩
    · cases h : OStream.capitals s <;> cases neg <;> cases s.showpos <;>
        simp [OStream.formatDouble, h]
    · intro c hc
      simp only [OStream.formatDouble] at hc
      rcases List.mem_append.1 hc with h | h
      · exact sign_plain neg s.showpos c h
      · cases hcap : OStream.capitals s <;> rw [hcap] at h <;> simp at h <;>
          rcases h with h | h | h <;> (subst h; decide)
    · intro _
      cases hu : s.uppercase <;> cases hf : s.floatfield <;> simp [OStream.capitals, hu, hf]
    · intro h; simp [Double.isInf] at h
    · intro h; simp [Double.isFinite] at h
  | inf neg =>
    refine ⟨?_, ?_, (if OStream.capitals s then "INF".toList else "inf".toList), rfl, ?_, ?_, ?_⟩
    · cases h : OStream.capitals s <;> cases neg <;> cases s.showpos <;>
        simp [OStream.formatDouble, h]
    · intro c hc
      simp only [OStream.formatDouble] at hc
      rcases List.mem_append.1 hc with h | h
      · exact sign_plain neg s.showpos c h
      · cases hcap : OStream.capitals s <;> rw [hcap] at h <;> simp at h <;>
          rcases h with h | h | h <;> (subst h; decide)
    · intro h; simp [Double.isNaN] at h
    · intro _
      cases hu : s.uppercase <;> cases hf : s.floatfield <;> simp [OStream.capitals, hu, hf]
    · intro h; simp [Double.isFinite] at h
  | finite neg m e =>
    obtain ⟨body, hb, ⟨c, rest, hcr, hcd⟩, hall, hfix, hsci, hgen⟩ :=
      formatDouble_finite s neg m e
    refine ⟨?_, ?_, body, hb, ?_, ?_, ?_⟩
    · rw [hb, hcr]; simp
    · intro c2 hc2
      rw [hb] at hc2
      rcases List.mem_append.1 hc2 with h | h
      · exact sign_plain neg s.showpos c2 h
      · rw [List.all_eq_true] at hall
        exact isNumeralChar_plain c2 (hall c2 h)
    · intro h; simp [Double.isNaN] at h
    · intro h; simp [Double.isInf] at h
    · intro _
      exact ⟨⟨c, rest, hcr, hcd⟩, hall, hfix, hsci, hgen⟩

/-- C9. `operator<<` appends to the stream exactly the ISBN in double quotes,
`", "`, the title in double quotes, `", "`, the author in double quotes,
`", "`, and the price as the stream formats a `double`; inside the quotes
every double quote and every backslash of the field is preceded by a
backslash.  The price is written unquoted and nothing follows it: its text
is not empty and holds no double quote and no whitespace (so no newline); it
is the sign and then `nan`, `inf`, or a numeral that begins with a digit and
denotes the magnitude of the price rounded as the notation of the stream
asks. -/
theorem C9_operatorInsert_line (stream : OStream) (book : Book) :
    (operatorInsert stream book).out =
      stream.out ++ recordLine book._isbn book._title book._author
        (OStream.formatDouble stream book._price) ∧
    isPriceText stream book._price (OStream.formatDouble stream book._price) := by
  refine ⟨?_, formatDouble_isPriceText stream book._price⟩
  rw [operatorInsert_out]
  simp [recordLine, OStream.quotedText, escapeSpec_eq]

end BookSpec
